import Mathlib

/-! # cuCollections `static_map` — model of `static_map.inl`

Shallow embedding of `include/cuco/detail/static_map.inl`.

* The slot array `slots_` is a map from slot index to a `(key, value)` pair; only the
  indices below `capacity_` are slots of the table.
* An iterator (`slots_ + i`) is the index `i`; `end()` is the index `capacity_`.
* In the sequential model (`insert`, `find`, `contains` and their tile overloads) a call runs to
  its end before the next call starts, its atomic operations one at a time, and a tile `g` of
  `t` lanes runs in lockstep; lane `r` owns the variable `current_slot r`. Every
  `while (true)` loop takes a fuel argument that bounds the number of loop iterations and
  returns `none` when the fuel is used up before the loop returns.
* A ballot mask is the list of the lanes' votes, lane 0 first.
* In the concurrent model (`insert_call`, `machine`) the atomic loads, compare-exchanges and
  stores of the insert calls are interleaved by a schedule.
* The hash function returns a 32-bit unsigned integer (`uint32_t`), given as a natural number;
  `g.thread_rank()` and `g.size()` are 32-bit unsigned integers, so the sums
  `hash(k) + g.thread_rank()` and `index + g.size()` wrap modulo 2^32. `key_equal` is the
  caller's predicate.
-/

set_option autoImplicit false
set_option linter.unusedSectionVars false
set_option linter.unusedVariables false
set_option maxRecDepth 100000

namespace cuco

variable {K V : Type} [DecidableEq K] [DecidableEq V]

/-! ## Data model -/

/-- The fields shared by `device_view` and `device_mutable_view`. -/
structure view (K V : Type) where
  /-- the slot array: index to (key field, value field) -/
  slots_ : Nat → K × V
  capacity_ : Nat
  empty_key_sentinel_ : K
  empty_value_sentinel_ : V

/-- The host object: the views' fields and the logical size. -/
structure static_map (K V : Type) where
  dev : view K V
  size_ : Nat

/-- Constructor `static_map(capacity, empty_key_sentinel, empty_value_sentinel)`:
`initializeKernel` sets every slot to the two sentinels. The member `size_` is initialised in
the class declaration, which is not part of this file; a new map has size zero. -/
def static_map.construct (capacity : Nat) (empty_key_sentinel : K) (empty_value_sentinel : V) :
    static_map K V :=
  { dev :=
      { slots_ := fun _ => (empty_key_sentinel, empty_value_sentinel)
        capacity_ := capacity
        empty_key_sentinel_ := empty_key_sentinel
        empty_value_sentinel_ := empty_value_sentinel }
    size_ := 0 }

/-- The iterator `end()`, one past the last slot. -/
def view.end_ (m : view K V) : Nat := m.capacity_

/-- Relaxed store to the key field of slot `s`. -/
def view.store_first (m : view K V) (s : Nat) (k : K) : view K V :=
  { m with slots_ := fun j => if j = s then (k, (m.slots_ j).2) else m.slots_ j }

/-- Relaxed store to the value field of slot `s`. -/
def view.store_second (m : view K V) (s : Nat) (v : V) : view K V :=
  { m with slots_ := fun j => if j = s then ((m.slots_ j).1, v) else m.slots_ j }

/-- The call `cell.compare_exchange_strong(expected, desired)` executed atomically: the result is
(content of the cell afterwards, content of `expected` afterwards, success flag). -/
def compare_exchange_strong {α : Type} [DecidableEq α] (cell expected desired : α) :
    α × α × Bool :=
  if cell = expected then (desired, expected, true) else (cell, cell, false)

/-- Width of `uint32_t`. -/
def UINT32_MOD : Nat := 4294967296

/-! ## Probe sequence -/

/-- Single-lane `initial_slot(k, hash)`: `&slots_[hash(k) % capacity_]`. -/
def initial_slot (m : view K V) (hash : K → Nat) (k : K) : Nat :=
  hash k % m.capacity_

/-- Tile `initial_slot(g, k, hash)` of the lane with rank `thread_rank`:
`&slots_[(hash(k) + g.thread_rank()) % capacity_]`. The hash value and the rank are 32-bit
unsigned integers, so their sum is taken in 32-bit unsigned arithmetic and wraps modulo 2^32
before the 64-bit remainder. -/
def initial_slot_cg (m : view K V) (hash : K → Nat) (thread_rank : Nat) (k : K) : Nat :=
  ((hash k + thread_rank) % UINT32_MOD) % m.capacity_

/-- Single-lane `next_slot(s)`: `(++s < end()) ? s : slots_`. -/
def next_slot (m : view K V) (s : Nat) : Nat :=
  if s + 1 < m.end_ then s + 1 else 0

/-- Tile `next_slot(g, s)`: `uint32_t index = s - slots_;` followed by
`&slots_[(index + g.size()) % capacity_]`. The index is narrowed to 32 bits and the sum with the
32-bit tile size `t` is taken in 32-bit unsigned arithmetic before the 64-bit remainder. -/
def next_slot_cg (m : view K V) (t : Nat) (s : Nat) : Nat :=
  let index := s % UINT32_MOD
  ((index + t) % UINT32_MOD) % m.capacity_

/-! ## Tile collectives -/

/-- The mask `g.ballot(pred)` of a tile of `t` lanes: the vote of lane 0 first. -/
def ballot (t : Nat) (pred : Nat → Bool) : List Bool :=
  (List.range t).map pred

/-- The test `if (mask)`: some bit of the mask is set. -/
def mask_set (mask : List Bool) : Bool :=
  mask.any id

/-- The intrinsic `__ffs(mask)`: one plus the position of the least significant set bit,
zero when no bit is set. -/
def ffs : List Bool → Nat
  | [] => 0
  | true :: _ => 1
  | false :: rest => if ffs rest = 0 then 0 else ffs rest + 1

/-- The call `g.shfl(x, src_lane)`: the value of `x` held by lane `src_lane`. -/
def shfl {α : Type} (x : Nat → α) (src_lane : Nat) : α :=
  x src_lane

/-- The enumeration `insert_result` of the tile insert. -/
inductive insert_result where
  | CONTINUE
  | SUCCESS
  | DUPLICATE
  deriving DecidableEq

/-! ## Insert protocol -/

/-- The inner loop `while (not value_success)` of both inserts: exchange the value field from the
value sentinel to `v` until the exchange succeeds. -/
def value_retry (s : Nat) (v : V) : Nat → view K V → Option (view K V)
  | 0, _ => none
  | fuel + 1, m =>
    let vx := compare_exchange_strong (m.slots_ s).2 m.empty_value_sentinel_ v
    let m1 := m.store_second s vx.1
    if vx.2.2 then some m1 else value_retry s v fuel m1

/-- The loop of the single-lane `device_mutable_view::insert(insert_pair, hash, key_equal)`.
The result is the returned pair (slot, inserted) and the slot store afterwards. -/
def insert_loop (key_equal : K → K → Bool) (insert_pair : K × V) :
    Nat → view K V → Nat → Option ((Nat × Bool) × view K V)
  | 0, _, _ => none
  | fuel + 1, m, current_slot =>
    let kx := compare_exchange_strong (m.slots_ current_slot).1 m.empty_key_sentinel_
      insert_pair.1
    let m1 := m.store_first current_slot kx.1
    let vx := compare_exchange_strong (m1.slots_ current_slot).2 m.empty_value_sentinel_
      insert_pair.2
    let m2 := m1.store_second current_slot vx.1
    if kx.2.2 then
      match (if vx.2.2 then some m2 else value_retry current_slot insert_pair.2 fuel m2) with
      | some m3 => some ((current_slot, true), m3)
      | none => none
    else
      let m3 := if vx.2.2 then m2.store_second current_slot m.empty_value_sentinel_ else m2
      if key_equal insert_pair.1 kx.2.1 then some ((current_slot, false), m3)
      else insert_loop key_equal insert_pair fuel m3 (next_slot m3 current_slot)

/-- Single-lane `device_mutable_view::insert`. -/
def insert (hash : K → Nat) (key_equal : K → K → Bool) (fuel : Nat) (m : view K V)
    (insert_pair : K × V) : Option ((Nat × Bool) × view K V) :=
  insert_loop key_equal insert_pair fuel m (initial_slot m hash insert_pair.1)

/-- The block run by the elected lane of the tile insert (`if (g.thread_rank() == src_lane)`) on
its own slot `s`: the two exchanges, the value retry loop or the revert, and the status. -/
def elected_exchange (key_equal : K → K → Bool) (insert_pair : K × V) (fuel : Nat)
    (m : view K V) (s : Nat) : Option (insert_result × view K V) :=
  let kx := compare_exchange_strong (m.slots_ s).1 m.empty_key_sentinel_ insert_pair.1
  let m1 := m.store_first s kx.1
  let vx := compare_exchange_strong (m1.slots_ s).2 m.empty_value_sentinel_ insert_pair.2
  let m2 := m1.store_second s vx.1
  let after : Option (insert_result × view K V) :=
    if kx.2.2 then
      match (if vx.2.2 then some m2 else value_retry s insert_pair.2 fuel m2) with
      | some m3 => some (insert_result.SUCCESS, m3)
      | none => none
    else if vx.2.2 then some (insert_result.CONTINUE, m2.store_second s m.empty_value_sentinel_)
    else some (insert_result.CONTINUE, m2)
  match after with
  | none => none
  | some (status, m3) =>
    if key_equal insert_pair.1 kx.2.1 then some (insert_result.DUPLICATE, m3)
    else some (status, m3)

/-- The loop of the tile-cooperative `device_mutable_view::insert(g, insert_pair, hash,
key_equal)` for a tile of `t` lanes; `current_slot r` is the variable of lane `r`. -/
def insert_cg_loop (key_equal : K → K → Bool) (t : Nat) (insert_pair : K × V) :
    Nat → view K V → (Nat → Nat) → Option ((Nat × Bool) × view K V)
  | 0, _, _ => none
  | fuel + 1, m, current_slot =>
    let existing_key := fun r => (m.slots_ (current_slot r)).1
    let existing := ballot t (fun r => key_equal (existing_key r) insert_pair.1)
    if mask_set existing then
      let src_lane := ffs existing - 1
      some ((shfl current_slot src_lane, false), m)
    else
      let empty := ballot t (fun r => decide (existing_key r = m.empty_key_sentinel_))
      if mask_set empty then
        let src_lane := ffs empty - 1
        match elected_exchange key_equal insert_pair fuel m (current_slot src_lane) with
        | none => none
        | some (insert_result.SUCCESS, m3) => some ((shfl current_slot src_lane, true), m3)
        | some (insert_result.DUPLICATE, m3) => some ((shfl current_slot src_lane, false), m3)
        | some (insert_result.CONTINUE, m3) =>
          insert_cg_loop key_equal t insert_pair fuel m3 current_slot
      else
        insert_cg_loop key_equal t insert_pair fuel m (fun r => next_slot_cg m t (current_slot r))

/-- Tile-cooperative `device_mutable_view::insert` for a tile of `t` lanes. -/
def insert_cg (hash : K → Nat) (key_equal : K → K → Bool) (t : Nat) (fuel : Nat) (m : view K V)
    (insert_pair : K × V) : Option ((Nat × Bool) × view K V) :=
  insert_cg_loop key_equal t insert_pair fuel m
    (fun r => initial_slot_cg m hash r insert_pair.1)

/-! ## Lookup protocol -/

/-- The loop of the single-lane `device_view::find(k, hash, key_equal)`. -/
def find_loop (key_equal : K → K → Bool) (m : view K V) (k : K) : Nat → Nat → Option Nat
  | 0, _ => none
  | fuel + 1, current_slot =>
    let existing_key := (m.slots_ current_slot).1
    if key_equal existing_key k then some current_slot
    else if existing_key = m.empty_key_sentinel_ then some m.end_
    else find_loop key_equal m k fuel (next_slot m current_slot)

/-- Single-lane `device_view::find`. -/
def find (hash : K → Nat) (key_equal : K → K → Bool) (fuel : Nat) (m : view K V) (k : K) :
    Option Nat :=
  find_loop key_equal m k fuel (initial_slot m hash k)

/-- The loop of the tile-cooperative `device_view::find(g, k, hash, key_equal)`. -/
def find_cg_loop (key_equal : K → K → Bool) (t : Nat) (m : view K V) (k : K) :
    Nat → (Nat → Nat) → Option Nat
  | 0, _ => none
  | fuel + 1, current_slot =>
    let existing_key := fun r => (m.slots_ (current_slot r)).1
    let existing := ballot t (fun r => key_equal (existing_key r) k)
    if mask_set existing then
      let src_lane := ffs existing - 1
      some (shfl current_slot src_lane)
    else
      let empty := ballot t (fun r => decide (existing_key r = m.empty_key_sentinel_))
      if mask_set empty then some m.end_
      else find_cg_loop key_equal t m k fuel (fun r => next_slot_cg m t (current_slot r))

/-- Tile-cooperative `device_view::find` for a tile of `t` lanes. -/
def find_cg (hash : K → Nat) (key_equal : K → K → Bool) (t : Nat) (fuel : Nat) (m : view K V)
    (k : K) : Option Nat :=
  find_cg_loop key_equal t m k fuel (fun r => initial_slot_cg m hash r k)

/-- The loop of the single-lane `device_view::contains(k, hash, key_equal)`. -/
def contains_loop (key_equal : K → K → Bool) (m : view K V) (k : K) : Nat → Nat → Option Bool
  | 0, _ => none
  | fuel + 1, current_slot =>
    let existing_key := (m.slots_ current_slot).1
    if key_equal existing_key k then some true
    else if existing_key = m.empty_key_sentinel_ then some false
    else contains_loop key_equal m k fuel (next_slot m current_slot)

/-- Single-lane `device_view::contains`. -/
def contains (hash : K → Nat) (key_equal : K → K → Bool) (fuel : Nat) (m : view K V) (k : K) :
    Option Bool :=
  contains_loop key_equal m k fuel (initial_slot m hash k)

/-- The loop of the tile-cooperative `device_view::contains(g, k, hash, key_equal)`. Every lane
advances with the single-lane `next_slot(current_slot)`, as the source does. -/
def contains_cg_loop (key_equal : K → K → Bool) (t : Nat) (m : view K V) (k : K) :
    Nat → (Nat → Nat) → Option Bool
  | 0, _ => none
  | fuel + 1, current_slot =>
    let existing_key := fun r => (m.slots_ (current_slot r)).1
    let existing := ballot t (fun r => key_equal (existing_key r) k)
    if mask_set existing then some true
    else
      let empty := ballot t (fun r => decide (existing_key r = m.empty_key_sentinel_))
      if mask_set empty then some false
      else contains_cg_loop key_equal t m k fuel (fun r => next_slot m (current_slot r))

/-- Tile-cooperative `device_view::contains` for a tile of `t` lanes. -/
def contains_cg (hash : K → Nat) (key_equal : K → K → Bool) (t : Nat) (fuel : Nat)
    (m : view K V) (k : K) : Option Bool :=
  contains_cg_loop key_equal t m k fuel (fun r => initial_slot_cg m hash r k)

/-! ## Bulk insert -/

/-- A batch of insert calls executed one after another on the slot store, each call being `ins`
(the single-lane insert, or the insert of one tile): the returned (slot, inserted) pairs in
batch order and the slot store after the last call. -/
def insert_each (ins : view K V → K × V → Option ((Nat × Bool) × view K V)) :
    List (K × V) → view K V → Option (List (Nat × Bool) × view K V)
  | [], m => some ([], m)
  | p :: rest, m =>
    match ins m p with
    | none => none
    | some (r, m1) =>
      match insert_each ins rest m1 with
      | none => none
      | some (rs, m2) => some (r :: rs, m2)

/-- Modelled from the spec: `insertKernel<block_size, tile_size>` is launched by
`static_map::insert` and is not part of `static_map.inl`. One tile of `tile_size` lanes runs the
tile-cooperative insert for one pair of the batch, and every call that returns `inserted = true`
adds one to the success counter. The tiles are run one after another, in batch order. -/
def insertKernel (tile_size : Nat) (hash : K → Nat) (key_equal : K → K → Bool) (fuel : Nat)
    (batch : List (K × V)) (d_num_successes : Nat) (m : view K V) : Option (Nat × view K V) :=
  match insert_each (insert_cg hash key_equal tile_size fuel) batch m with
  | none => none
  | some (rs, m1) => some (d_num_successes + rs.countP (fun r => r.2), m1)

/-- Host `static_map::insert(first, last, hash, key_equal)`: the success counter is reset, the
kernel runs with `tile_size = 8`, and the counter is added to `size_`. -/
def static_map.insert (hash : K → Nat) (key_equal : K → K → Bool) (fuel : Nat)
    (sm : static_map K V) (batch : List (K × V)) : Option (static_map K V) :=
  let tile_size := 8
  match insertKernel tile_size hash key_equal fuel batch 0 sm.dev with
  | none => none
  | some (h_num_successes, m1) => some { dev := m1, size_ := sm.size_ + h_num_successes }

/-! ## Specification vocabulary -/

/-- The probe sequence of the single-lane operations for key `k`: `initial_slot` advanced `n`
times by `next_slot`. -/
def probe_sequence (m : view K V) (hash : K → Nat) (k : K) (n : Nat) : Nat :=
  (next_slot m)^[n] (initial_slot m hash k)

/-- The probe sequence of lane `r` of a tile of `t` lanes for key `k`: `initial_slot(g, k, hash)`
advanced `j` times by `next_slot(g, s)`. -/
def lane_sequence (m : view K V) (hash : K → Nat) (t r : Nat) (k : K) (j : Nat) : Nat :=
  (next_slot_cg m t)^[j] (initial_slot_cg m hash r k)

/-- Key `k` is stored in some slot of the table. -/
def occurs (m : view K V) (k : K) : Prop :=
  ∃ i, i < m.capacity_ ∧ (m.slots_ i).1 = k

instance (m : view K V) (k : K) : Decidable (occurs m k) :=
  inferInstanceAs (Decidable (∃ i, i < m.capacity_ ∧ (m.slots_ i).1 = k))

/-- Some slot of the table is empty. -/
def has_empty (m : view K V) : Prop :=
  ∃ i, i < m.capacity_ ∧ (m.slots_ i).1 = m.empty_key_sentinel_

instance (m : view K V) : Decidable (has_empty m) :=
  inferInstanceAs (Decidable (∃ i, i < m.capacity_ ∧ (m.slots_ i).1 = m.empty_key_sentinel_))

/-- The number of occupied slots. -/
def occupied (m : view K V) : Nat :=
  (List.range m.capacity_).countP (fun i => decide ((m.slots_ i).1 ≠ m.empty_key_sentinel_))

/-- The number of entries of a batch whose key occurs in the slot store `m`, in the list `seen`,
or earlier in the batch. -/
def duplicates (m : view K V) : List K → List (K × V) → Nat
  | _, [] => 0
  | seen, p :: rest =>
    (if p.1 ∈ seen ∨ occurs m p.1 then 1 else 0) + duplicates m (p.1 :: seen) rest

/-- Slot `s` is occupied by a key other than `k`. -/
def other_key (m : view K V) (k : K) (s : Nat) : Prop :=
  (m.slots_ s).1 ≠ k ∧ (m.slots_ s).1 ≠ m.empty_key_sentinel_

/-- Linear probing invariant: every occupied slot is reached from the home slot of its key by a
run of slots that are occupied by other keys. -/
def probe_inv (hash : K → Nat) (m : view K V) : Prop :=
  ∀ i, i < m.capacity_ → (m.slots_ i).1 ≠ m.empty_key_sentinel_ →
    ∃ d, d < m.capacity_ ∧ (hash (m.slots_ i).1 + d) % m.capacity_ = i ∧
      ∀ e, e < d → other_key m (m.slots_ i).1 ((hash (m.slots_ i).1 + e) % m.capacity_)

/-- An empty slot holds the value sentinel. -/
def empty_inv (m : view K V) : Prop :=
  ∀ i, i < m.capacity_ → (m.slots_ i).1 = m.empty_key_sentinel_ →
    (m.slots_ i).2 = m.empty_value_sentinel_

/-- The slot stores reached from the all-sentinel store of a map of capacity at least one by
insert calls executed one after another: single-lane inserts and tile-cooperative inserts with
tiles of at most `tmax` lanes, of pairs whose key and value are not the sentinels. -/
inductive reachable (hash : K → Nat) (key_equal : K → K → Bool) (tmax : Nat) :
    view K V → Prop where
  | construct (capacity : Nat) (ek : K) (ev : V) (hC : 1 ≤ capacity) :
      reachable hash key_equal tmax (static_map.construct capacity ek ev).dev
  | insert (m m1 : view K V) (p : K × V) (fuel : Nat) (r : Nat × Bool) :
      reachable hash key_equal tmax m → p.1 ≠ m.empty_key_sentinel_ →
      p.2 ≠ m.empty_value_sentinel_ → insert hash key_equal fuel m p = some (r, m1) →
      reachable hash key_equal tmax m1
  | insert_cg (m m1 : view K V) (t : Nat) (p : K × V) (fuel : Nat) (r : Nat × Bool) :
      reachable hash key_equal tmax m → 1 ≤ t → t ≤ tmax → p.1 ≠ m.empty_key_sentinel_ →
      p.2 ≠ m.empty_value_sentinel_ → insert_cg hash key_equal t fuel m p = some (r, m1) →
      reachable hash key_equal tmax m1

/-- The slot store after both exchanges of an insert of `p` succeed on slot `s`. -/
def fill (m : view K V) (s : Nat) (p : K × V) : view K V :=
  (m.store_first s p.1).store_second s p.2

/-- The probe path of `k` starts with exactly `D` slots occupied by other keys: the slot reached
after `D` advances from the home slot of `k` holds `k` or is empty. -/
def first_hit (hash : K → Nat) (m : view K V) (k : K) (D : Nat) : Prop :=
  D < m.capacity_ ∧ (∀ d, d < D → other_key m k ((hash k + d) % m.capacity_)) ∧
    ¬ other_key m k ((hash k + D) % m.capacity_)

/-- The result of an insert of `p` whose probe path starts with `D` slots occupied by other
keys: a duplicate when the next slot holds the key, and otherwise the pair is written there. -/
def insert_outcome (hash : K → Nat) (m : view K V) (p : K × V) (D : Nat) :
    (Nat × Bool) × view K V :=
  if (m.slots_ ((hash p.1 + D) % m.capacity_)).1 = p.1 then
    (((hash p.1 + D) % m.capacity_, false), m)
  else (((hash p.1 + D) % m.capacity_, true), fill m ((hash p.1 + D) % m.capacity_) p)

/-- The 32-bit index arithmetic of the tile `next_slot(g, s)` is exact on a table with a tile of
`t` lanes: no index plus `t` passes 2^32, or the capacity divides 2^32. -/
def index_fits (m : view K V) (t : Nat) : Prop :=
  m.capacity_ + t ≤ UINT32_MOD ∨ UINT32_MOD % m.capacity_ = 0

instance (m : view K V) (t : Nat) : Decidable (index_fits m t) :=
  inferInstanceAs (Decidable (m.capacity_ + t ≤ UINT32_MOD ∨ UINT32_MOD % m.capacity_ = 0))

/-- The 32-bit sum `hash(k) + g.thread_rank()` of the tile `initial_slot(g, k, hash)` is exact
for the key `k` and a tile of `t` lanes: the sum does not pass 2^32 for any lane, or the
capacity divides 2^32. -/
def rank_fits (m : view K V) (hash : K → Nat) (t : Nat) (k : K) : Prop :=
  hash k + t ≤ UINT32_MOD ∨ UINT32_MOD % m.capacity_ = 0

instance (m : view K V) (hash : K → Nat) (t : Nat) (k : K) : Decidable (rank_fits m hash t k) :=
  inferInstanceAs (Decidable (hash k + t ≤ UINT32_MOD ∨ UINT32_MOD % m.capacity_ = 0))

/-- The slot stores reached from the all-sentinel store of a map of capacity at least one by
insert calls executed one after another, of pairs whose key and value are not the sentinels:
single-lane inserts, and tile-cooperative inserts whose 32-bit arithmetic is exact for the tile
size and the key of the call. -/
inductive reachable_fit (hash : K → Nat) (key_equal : K → K → Bool) : view K V → Prop where
  | construct (capacity : Nat) (ek : K) (ev : V) (hC : 1 ≤ capacity) :
      reachable_fit hash key_equal (static_map.construct capacity ek ev).dev
  | insert (m m1 : view K V) (p : K × V) (fuel : Nat) (r : Nat × Bool) :
      reachable_fit hash key_equal m → p.1 ≠ m.empty_key_sentinel_ →
      p.2 ≠ m.empty_value_sentinel_ → insert hash key_equal fuel m p = some (r, m1) →
      reachable_fit hash key_equal m1
  | insert_cg (m m1 : view K V) (t : Nat) (p : K × V) (fuel : Nat) (r : Nat × Bool) :
      reachable_fit hash key_equal m → 1 ≤ t → index_fits m t → rank_fits m hash t p.1 →
      p.1 ≠ m.empty_key_sentinel_ → p.2 ≠ m.empty_value_sentinel_ →
      insert_cg hash key_equal t fuel m p = some (r, m1) →
      reachable_fit hash key_equal m1

/-- The invariant of the slot stores built by sequential inserts. -/
def table_inv (hash : K → Nat) (m : view K V) : Prop :=
  0 < m.capacity_ ∧ probe_inv hash m ∧ empty_inv m

/-- The lanes of a tile of `t` lanes stand on the window of `t` consecutive slots that starts
`a` positions after the slot with index `h % capacity_`. -/
def lanes_at (m : view K V) (t h a : Nat) (current_slot : Nat → Nat) : Prop :=
  ∀ r, r < t → current_slot r = (h + a + r) % m.capacity_

instance (m : view K V) (k : K) (s : Nat) : Decidable (other_key m k s) :=
  inferInstanceAs (Decidable ((m.slots_ s).1 ≠ k ∧ (m.slots_ s).1 ≠ m.empty_key_sentinel_))

/-- The slot on which lane `r` of a tile stands in the tile-cooperative `contains` after `j`
advances: `initial_slot(g, k, hash)` advanced `j` times by the single-lane
`next_slot(current_slot)`, the call with which the loop of `contains_cg_loop` ends. -/
def contains_lane_sequence (m : view K V) (hash : K → Nat) (r : Nat) (k : K) (j : Nat) : Nat :=
  (next_slot m)^[j] (initial_slot_cg m hash r k)

/-- The result of a find of `k` whose probe path starts with `D` slots occupied by other keys:
the next slot when it holds the key, and `end()` when it is empty. -/
def find_outcome (hash : K → Nat) (m : view K V) (k : K) (D : Nat) : Nat :=
  if (m.slots_ ((hash k + D) % m.capacity_)).1 = k then (hash k + D) % m.capacity_ else m.end_

/-- The result of a contains of `k` whose probe path starts with `D` slots occupied by other
keys. -/
def contains_outcome (hash : K → Nat) (m : view K V) (k : K) (D : Nat) : Bool :=
  decide ((m.slots_ ((hash k + D) % m.capacity_)).1 = k)

/-! ## Concrete inputs -/

/-- The slot store left by a call that returned, and `m` when the call did not return. -/
def store_after {α : Type} (m : view K V) (x : Option (α × view K V)) : view K V :=
  match x with
  | some y => y.2
  | none => m

/-- Key equality on integer keys. -/
def int_equal : Int → Int → Bool := fun a b => decide (a = b)

/-- Key equality on natural-number keys. -/
def nat_equal : Nat → Nat → Bool := fun a b => decide (a = b)

/-- The hash of the scenarios with integer keys: the key itself. -/
def scenario_hash : Int → Nat := Int.toNat

/-- The map of the first scenario: capacity 16, both sentinels -1. -/
def scenario_map : static_map Int Int := static_map.construct 16 (-1) (-1)

/-- A map of capacity 4 with sentinels -1. -/
def small_map : static_map Int Int := static_map.construct 4 (-1) (-1)

/-- A map of capacity 6 with sentinels -1. -/
def six_map : static_map Int Int := static_map.construct 6 (-1) (-1)

/-- The store of `scenario_map` after the pair (1, 10) went into slot 1. -/
def one_key_store : view Int Int := fill scenario_map.dev 1 (1, 10)

/-- The batch of the first scenario. -/
def scenario_batch : List (Int × Int) := [(1, 10), (2, 20), (1, 99)]

/-- The store of `scenario_map` after the single-lane inserts of `scenario_batch`. -/
def scenario_store : view Int Int :=
  store_after scenario_map.dev
    (insert_each (insert scenario_hash int_equal 16) scenario_batch scenario_map.dev)

/-- A map whose capacity, 2^32 + 16, does not fit the 32-bit slot index of the tile
`next_slot`. -/
def large_map : static_map Nat Nat := static_map.construct 4294967312 0 0

/-- Three pairs whose keys collide in a table of capacity 16 under `scenario_hash`. -/
def wrapping_batch : List (Int × Int) := [(15, 10), (31, 20), (47, 30)]

/-- Four pairs with distinct keys for a table of capacity 4; three keys collide in slot 1. -/
def four_batch : List (Int × Int) := [(1, 10), (5, 20), (9, 30), (2, 40)]

/-- Eight pairs for a table of capacity 16 under `scenario_hash`: the keys 16, 1, .. 6 go to the
slots 0 .. 6 and the key 32, whose home slot is 0, goes to slot 7. -/
def window_batch : List (Int × Int) :=
  [(16, 10), (1, 11), (2, 12), (3, 13), (4, 14), (5, 15), (6, 16), (32, 17)]

/-- The store of `scenario_map` after the single-lane inserts of `window_batch`. -/
def window_store : view Int Int :=
  store_after scenario_map.dev
    (insert_each (insert scenario_hash int_equal 16) window_batch scenario_map.dev)

/-- The store of `small_map` after the single-lane inserts of `four_batch`: all four slots are
occupied. -/
def full_store : view Int Int :=
  store_after small_map.dev
    (insert_each (insert scenario_hash int_equal 4) four_batch small_map.dev)

/-- The store of capacity 16 with the key 1 in slot 1 after the 8-lane insert of (17, 20): the
key 17 collides with the key 1 and goes to slot 2. -/
def tile_store : view Int Int :=
  store_after one_key_store (insert_cg scenario_hash int_equal 8 16 one_key_store (17, 20))

/-- The store of `six_map` (capacity 6) after the pair (5, 50) went into slot 5. -/
def six_store : view Int Int := fill six_map.dev 5 (5, 50)

/-- The hash of the scenarios with natural-number keys: the key itself. -/
def identity_hash : Nat → Nat := fun k => k

/-- Four pairs for a table of capacity 6 under `scenario_hash`: the keys 6, 1, 3, 4 go to the
slots 0, 1, 3, 4. -/
def gap_batch : List (Int × Int) := [(6, 60), (1, 10), (3, 30), (4, 40)]

/-- The store of `six_map` after the single-lane inserts of `gap_batch`: the slots 2 and 5 are
empty. -/
def gap_store : view Int Int :=
  store_after six_map.dev (insert_each (insert scenario_hash int_equal 6) gap_batch six_map.dev)

/-- Six pairs with distinct keys for a table of capacity 6 under `scenario_hash`; the key
2^32 - 1 has the home slot 3 and goes to slot 5. -/
def exact_batch : List (Int × Int) :=
  [(9, 90), (10, 100), (4294967295, 55), (6, 60), (7, 70), (8, 80)]

/-- The store of `six_map` after the single-lane inserts of `exact_batch`: no slot is empty. -/
def exact_store : view Int Int :=
  store_after six_map.dev
    (insert_each (insert scenario_hash int_equal 6) exact_batch six_map.dev)

/-- A map of capacity 20 with sentinels -1. -/
def twenty_map : static_map Int Int := static_map.construct 20 (-1) (-1)

/-- A 32-bit hash on integer keys: the key 100 has the hash value 2^32 - 5, the key 200 has the
hash value 2^32 - 1, and the hash of every other key is the key. -/
def wrap_hash : Int → Nat :=
  fun k => if k = 100 then 4294967291 else if k = 200 then 4294967295 else k.toNat

/-- Six pairs with distinct keys for `twenty_map` under `wrap_hash`: the home slots of the keys
11 .. 15 are the slots 11 .. 15, and the home slot of the key 100 is slot 11. -/
def wrap_batch : List (Int × Int) :=
  [(11, 1), (12, 2), (13, 3), (14, 4), (15, 5), (100, 6)]

/-- The store of `twenty_map` after the 8-lane inserts of `wrap_batch`. -/
def wrapped_store : view Int Int :=
  store_after twenty_map.dev
    (insert_each (insert_cg wrap_hash int_equal 8 20) wrap_batch twenty_map.dev)

/-- The store of `twenty_map` after the single-lane inserts of `wrap_batch`: the keys 11 .. 15
stand in the slots 11 .. 15 and the key 100 in slot 16. -/
def probed_store : view Int Int :=
  store_after twenty_map.dev
    (insert_each (insert wrap_hash int_equal 20) wrap_batch twenty_map.dev)

/-- The store `probed_store` after the 8-lane insert of (100, 9). -/
def twice_store : view Int Int :=
  store_after probed_store (insert_cg wrap_hash int_equal 8 20 probed_store (100, 9))

/-- Five pairs with distinct keys for `twenty_map` under `wrap_hash`: the keys 15, 0, 1, 2 have
the home slots 15, 0, 1, 2, and the home slot of the key 200 is slot 15. -/
def edge_batch : List (Int × Int) := [(15, 5), (0, 7), (1, 1), (2, 2), (200, 8)]

/-- The store of `twenty_map` after the single-lane inserts of `edge_batch`: the keys 15, 0, 1,
2 stand in their home slots and the key 200 in slot 16. -/
def edge_store : view Int Int :=
  store_after twenty_map.dev
    (insert_each (insert wrap_hash int_equal 20) edge_batch twenty_map.dev)

/-- The store of `six_map` (capacity 6) after the pair (3, 30) went into slot 3. -/
def three_store : view Int Int := fill six_map.dev 3 (3, 30)

/-- A map of capacity 9 with sentinels -1. -/
def nine_map : static_map Int Int := static_map.construct 9 (-1) (-1)

/-- Eight pairs for `nine_map` under `scenario_hash`: the keys 9, 1, 2, 3, 5, 6, 7, 8 go to the
slots 0, 1, 2, 3, 5, 6, 7, 8. -/
def ring_batch : List (Int × Int) :=
  [(9, 9), (1, 1), (2, 2), (3, 3), (5, 5), (6, 6), (7, 7), (8, 8)]

/-- The store of `nine_map` after the single-lane inserts of `ring_batch`: slot 4 is the only
empty slot. -/
def ring_store : view Int Int :=
  store_after nine_map.dev (insert_each (insert scenario_hash int_equal 9) ring_batch nine_map.dev)

/-! ## Concurrent inserts

Insert calls that run at the same time are interleaved step by step. A step is one atomic
access of one call to the slot store (a load, a compare-exchange or a store) together with the
local computation that follows it up to the next access; a schedule names, step by step, the
call that moves and, for the loads of a tile, the lane that loads. -/

/-- The point of the insert protocol at which a call stands before its next atomic access. -/
inductive insert_pc (K : Type) where
  /-- tile overload, `key_type const existing_key = current_slot->first`: `existing_key r` is
  the key loaded by lane `r` in this loop iteration, `none` before the load of the lane -/
  | load (existing_key : Nat → Option K)
  /-- before `slot_key.compare_exchange_strong` on the slot of lane `src_lane` -/
  | key_exchange (src_lane : Nat)
  /-- before the first `slot_value.compare_exchange_strong`, with the outcome of the key
  exchange -/
  | value_exchange (src_lane : Nat) (key_success : Bool) (expected_key : K)
  /-- inside `while (not value_success)` -/
  | value_retry (src_lane : Nat) (expected_key : K)
  /-- before `slot_value.store(empty_value_sentinel_)` -/
  | value_revert (src_lane : Nat) (expected_key : K)
  /-- after `return` -/
  | returned (result : Nat × Bool)

/-- One running call of `device_mutable_view::insert`. -/
structure insert_call (K V : Type) where
  /-- `none` for the single-lane overload, `some t` for the overload with a tile `g` of `t`
  lanes -/
  tile : Option Nat
  insert_pair : K × V
  /-- the variable `current_slot` of every lane; the single-lane overload runs as lane 0 -/
  current_slot : Nat → Nat
  pc : insert_pc K

/-- The state of a call on entry: `current_slot` is `initial_slot`, and the single-lane overload
starts with the key exchange, the tile overload with the loads of its lanes. -/
def insert_call.start (hash : K → Nat) (m : view K V) (tile : Option Nat)
    (insert_pair : K × V) : insert_call K V :=
  match tile with
  | none =>
    { tile := none
      insert_pair := insert_pair
      current_slot := fun _ => initial_slot m hash insert_pair.1
      pc := insert_pc.key_exchange 0 }
  | some t =>
    { tile := some t
      insert_pair := insert_pair
      current_slot := fun r => initial_slot_cg m hash r insert_pair.1
      pc := insert_pc.load (fun _ => none) }

/-- The tile overload once lane loads are recorded in `existing_key`: when every lane has
loaded, the ballot on `key_equal(existing_key, insert_pair.first)`, the ballot on
`existing_key == empty_key_sentinel_`, and either the return of the duplicate, the election of
the first lane with an empty slot, or `next_slot(g, current_slot)`. -/
def insert_call.after_load (key_equal : K → K → Bool) (m : view K V) (t : Nat)
    (u : insert_call K V) (existing_key : Nat → Option K) : insert_call K V :=
  if (List.range t).all (fun r => (existing_key r).isSome) then
    let existing := ballot t (fun r =>
      match existing_key r with
      | some x => key_equal x u.insert_pair.1
      | none => false)
    if mask_set existing then
      let src_lane := ffs existing - 1
      { u with pc := insert_pc.returned (shfl u.current_slot src_lane, false) }
    else
      let empty := ballot t (fun r => decide (existing_key r = some m.empty_key_sentinel_))
      if mask_set empty then
        let src_lane := ffs empty - 1
        { u with pc := insert_pc.key_exchange src_lane }
      else
        { u with
          current_slot := fun r => next_slot_cg m t (u.current_slot r)
          pc := insert_pc.load (fun _ => none) }
  else { u with pc := insert_pc.load existing_key }

/-- What follows the exchanges on the slot of lane `src_lane`; `status` is SUCCESS when the key
exchange succeeded and CONTINUE when it failed. The single-lane overload returns
`(current_slot, true)`, returns `(current_slot, false)` when `key_equal(insert_pair.first,
expected_key)`, or goes on with `next_slot(current_slot)`. The tile overload turns the status
into DUPLICATE when `key_equal(insert_pair.first, expected_key)`, returns on SUCCESS and
DUPLICATE, and on CONTINUE loads the same window again. -/
def insert_call.after_exchange (key_equal : K → K → Bool) (m : view K V) (u : insert_call K V)
    (src_lane : Nat) (status : insert_result) (expected_key : K) : insert_call K V :=
  match u.tile with
  | none =>
    if status = insert_result.SUCCESS then
      { u with pc := insert_pc.returned (u.current_slot src_lane, true) }
    else if key_equal u.insert_pair.1 expected_key then
      { u with pc := insert_pc.returned (u.current_slot src_lane, false) }
    else
      { u with
        current_slot := fun r => next_slot m (u.current_slot r)
        pc := insert_pc.key_exchange src_lane }
  | some _ =>
    let status1 :=
      if key_equal u.insert_pair.1 expected_key then insert_result.DUPLICATE else status
    match status1 with
    | insert_result.SUCCESS =>
      { u with pc := insert_pc.returned (shfl u.current_slot src_lane, true) }
    | insert_result.DUPLICATE =>
      { u with pc := insert_pc.returned (shfl u.current_slot src_lane, false) }
    | insert_result.CONTINUE => { u with pc := insert_pc.load (fun _ => none) }

/-- One step of a call on the slot store `m`: the next atomic access of the call and the local
computation up to the access after it. In the load phase of a tile the step is the load of lane
`lane`, if the lane exists and has not loaded yet; in every other phase `lane` is ignored. -/
def insert_call.step (key_equal : K → K → Bool) (m : view K V) (u : insert_call K V)
    (lane : Nat) : view K V × insert_call K V :=
  match u.pc with
  | insert_pc.returned _ => (m, u)
  | insert_pc.load existing_key =>
    match u.tile with
    | none => (m, u)
    | some t =>
      if lane < t ∧ existing_key lane = none then
        (m, u.after_load key_equal m t
          (fun r => if r = lane then some (m.slots_ (u.current_slot lane)).1 else existing_key r))
      else (m, u)
  | insert_pc.key_exchange src_lane =>
    let kx := compare_exchange_strong (m.slots_ (u.current_slot src_lane)).1
      m.empty_key_sentinel_ u.insert_pair.1
    (m.store_first (u.current_slot src_lane) kx.1,
      { u with pc := insert_pc.value_exchange src_lane kx.2.2 kx.2.1 })
  | insert_pc.value_exchange src_lane key_success expected_key =>
    let vx := compare_exchange_strong (m.slots_ (u.current_slot src_lane)).2
      m.empty_value_sentinel_ u.insert_pair.2
    let m1 := m.store_second (u.current_slot src_lane) vx.1
    if key_success then
      if vx.2.2 then
        (m1, u.after_exchange key_equal m1 src_lane insert_result.SUCCESS expected_key)
      else (m1, { u with pc := insert_pc.value_retry src_lane expected_key })
    else if vx.2.2 then (m1, { u with pc := insert_pc.value_revert src_lane expected_key })
    else (m1, u.after_exchange key_equal m1 src_lane insert_result.CONTINUE expected_key)
  | insert_pc.value_retry src_lane expected_key =>
    let vx := compare_exchange_strong (m.slots_ (u.current_slot src_lane)).2
      m.empty_value_sentinel_ u.insert_pair.2
    let m1 := m.store_second (u.current_slot src_lane) vx.1
    if vx.2.2 then
      (m1, u.after_exchange key_equal m1 src_lane insert_result.SUCCESS expected_key)
    else (m1, u)
  | insert_pc.value_revert src_lane expected_key =>
    let m1 := m.store_second (u.current_slot src_lane) m.empty_value_sentinel_
    (m1, u.after_exchange key_equal m1 src_lane insert_result.CONTINUE expected_key)

/-- The slot store and the insert calls that run on it. -/
structure machine (K V : Type) where
  store : view K V
  calls : List (insert_call K V)

/-- The calls of the requests, each a pair with `none` (single-lane) or `some t` (tile of `t`
lanes), all on entry, on the slot store `m`. -/
def machine.start (hash : K → Nat) (m : view K V) (requests : List (Option Nat × (K × V))) :
    machine K V :=
  { store := m
    calls := requests.map (fun q => insert_call.start hash m q.1 q.2) }

/-- Call number `i` makes its next step; a number that names no call changes nothing. -/
def machine.step (key_equal : K → K → Bool) (σ : machine K V) (i lane : Nat) : machine K V :=
  match σ.calls[i]? with
  | none => σ
  | some u =>
    { store := (u.step key_equal σ.store lane).1
      calls := σ.calls.set i (u.step key_equal σ.store lane).2 }

/-- The interleaving given by a schedule, a list of (call number, lane) pairs. -/
def machine.run (key_equal : K → K → Bool) (σ : machine K V) (schedule : List (Nat × Nat)) :
    machine K V :=
  schedule.foldl (fun τ x => τ.step key_equal x.1 x.2) σ

/-- The state reached from a new map of the given capacity and sentinels when the calls of the
requests run interleaved as the schedule says. -/
def interleaving (hash : K → Nat) (key_equal : K → K → Bool) (capacity : Nat) (ek : K) (ev : V)
    (requests : List (Option Nat × (K × V))) (schedule : List (Nat × Nat)) : machine K V :=
  (machine.start hash (static_map.construct capacity ek ev).dev requests).run key_equal schedule

/-- The pair returned by a call that has returned. -/
def insert_call.result (u : insert_call K V) : Option (Nat × Bool) :=
  match u.pc with
  | insert_pc.returned r => some r
  | _ => none

/-- Every call has returned. -/
def machine.completed (σ : machine K V) : Bool :=
  σ.calls.all (fun u => u.result.isSome)

/-- The pairs returned by the calls, in the order of the requests; a call that has not returned
is left out. -/
def machine.results (σ : machine K V) : List (Nat × Bool) :=
  σ.calls.filterMap (fun u => u.result)

/-- Modelled from the spec: the success counter of the insert kernel, which is not part of
`static_map.inl`, counts the calls that returned `inserted = true`, and `static_map::insert`
adds it to `size_`. -/
def machine.num_successes (σ : machine K V) : Nat :=
  σ.results.countP (fun r => r.2)

/-! ### Invariant of the interleavings -/

/-- Key `k` is in no slot of the table. -/
def absent (m : view K V) (k : K) : Prop :=
  ∀ s, s < m.capacity_ → (m.slots_ s).1 ≠ k

/-- The slot store `m1` has the capacity and the key sentinel of `m` and keeps the key of every
occupied slot of `m`. -/
def keeps_keys (m m1 : view K V) : Prop :=
  m1.capacity_ = m.capacity_ ∧ m1.empty_key_sentinel_ = m.empty_key_sentinel_ ∧
    ∀ i, (m.slots_ i).1 ≠ m.empty_key_sentinel_ → (m1.slots_ i).1 = (m.slots_ i).1

/-- Slot `s` lies on the probe path of `k` behind a run of slots occupied by other keys. -/
def probe_path (hash : K → Nat) (m : view K V) (k : K) (s : Nat) : Prop :=
  ∃ D, s = (hash k + D) % m.capacity_ ∧
    ∀ d, d < D → other_key m k ((hash k + d) % m.capacity_)

/-- The 32-bit sums of a request are exact: a tile call has at least one lane, and the sums
`index + g.size()` and `hash(k) + g.thread_rank()` do not wrap or the capacity divides 2^32.
Nothing is asked of a single-lane call. -/
def request_fits (hash : K → Nat) (m : view K V) (q : Option Nat × (K × V)) : Prop :=
  ∀ t ∈ q.1, 1 ≤ t ∧ index_fits m t ∧ rank_fits m hash t q.2.1

instance (hash : K → Nat) (m : view K V) (q : Option Nat × (K × V)) :
    Decidable (request_fits hash m q) :=
  inferInstanceAs (Decidable (∀ t ∈ q.1, 1 ≤ t ∧ index_fits m t ∧ rank_fits m hash t q.2.1))

/-- The lanes of a tile call stand on a window of the probe path of its key behind a run of
slots occupied by other keys, and the 32-bit sums of the tile are exact. -/
def window_inv (hash : K → Nat) (m : view K V) (u : insert_call K V) : Prop :=
  match u.tile with
  | none => True
  | some t =>
    1 ≤ t ∧ index_fits m t ∧ rank_fits m hash t u.insert_pair.1 ∧
      ∃ a, lanes_at m t (hash u.insert_pair.1) a u.current_slot ∧
        ∀ d, d < a → other_key m u.insert_pair.1 ((hash u.insert_pair.1 + d) % m.capacity_)

/-- What a call knows at each point of the protocol. -/
def pc_inv (hash : K → Nat) (m : view K V) (u : insert_call K V) : Prop :=
  match u.pc with
  | insert_pc.load existing_key =>
    (∃ t, u.tile = some t) ∧ absent m u.insert_pair.1 ∧
      ∀ r x, existing_key r = some x → x ≠ m.empty_key_sentinel_ →
        (m.slots_ (u.current_slot r)).1 = x
  | insert_pc.key_exchange src_lane =>
    absent m u.insert_pair.1 ∧ probe_path hash m u.insert_pair.1 (u.current_slot src_lane)
  | insert_pc.value_exchange src_lane key_success expected_key =>
    if key_success then
      expected_key = m.empty_key_sentinel_ ∧ u.current_slot src_lane < m.capacity_ ∧
        (m.slots_ (u.current_slot src_lane)).1 = u.insert_pair.1
    else
      absent m u.insert_pair.1 ∧ probe_path hash m u.insert_pair.1 (u.current_slot src_lane) ∧
        (m.slots_ (u.current_slot src_lane)).1 = expected_key ∧
        expected_key ≠ m.empty_key_sentinel_
  | insert_pc.value_retry src_lane expected_key =>
    expected_key = m.empty_key_sentinel_ ∧ u.current_slot src_lane < m.capacity_ ∧
      (m.slots_ (u.current_slot src_lane)).1 = u.insert_pair.1
  | insert_pc.value_revert src_lane expected_key =>
    absent m u.insert_pair.1 ∧ probe_path hash m u.insert_pair.1 (u.current_slot src_lane) ∧
      (m.slots_ (u.current_slot src_lane)).1 = expected_key ∧
      expected_key ≠ m.empty_key_sentinel_ ∧
      (m.slots_ (u.current_slot src_lane)).2 = u.insert_pair.2
  | insert_pc.returned r => r.2 = true ∧ r.1 < m.capacity_ ∧ m.slots_ r.1 = u.insert_pair

/-- The value field of slot `s` holds the value of the call: the call has written it there and
will revert it, or has returned from slot `s`. -/
def holds_value (u : insert_call K V) (s : Nat) : Prop :=
  match u.pc with
  | insert_pc.value_revert src_lane _ => u.current_slot src_lane = s
  | insert_pc.returned r => r.1 = s
  | _ => False

/-- The key exchange of the call has succeeded. -/
def holds_key (u : insert_call K V) : Bool :=
  match u.pc with
  | insert_pc.value_exchange _ key_success _ => key_success
  | insert_pc.value_retry _ _ => true
  | insert_pc.returned r => r.2
  | _ => false

/-- The invariant of the interleavings of insert calls with distinct keys. -/
def machine_inv (hash : K → Nat) (σ : machine K V) : Prop :=
  table_inv hash σ.store ∧
  (∀ (i : Nat) (u : insert_call K V), σ.calls[i]? = some u →
    u.insert_pair.1 ≠ σ.store.empty_key_sentinel_ ∧
    u.insert_pair.2 ≠ σ.store.empty_value_sentinel_ ∧
    window_inv hash σ.store u ∧ pc_inv hash σ.store u) ∧
  (∀ (i j : Nat) (u w : insert_call K V), σ.calls[i]? = some u → σ.calls[j]? = some w →
    u.insert_pair.1 = w.insert_pair.1 → i = j) ∧
  (∀ (i j : Nat) (u w : insert_call K V) (s : Nat), σ.calls[i]? = some u →
    σ.calls[j]? = some w → holds_value u s → holds_value w s → i = j) ∧
  occupied σ.store = σ.calls.countP holds_key
/-! ### Concrete interleavings -/

/-- One request for a tile of `t` lanes for every pair of a batch. -/
def tile_requests (t : Nat) (batch : List (Int × Int)) : List (Option Nat × (Int × Int)) :=
  batch.map (fun p => (some t, p))

/-- The schedule that runs `n` tile calls of `t` lanes one after another: the loads of the lanes
in rank order, then the two exchanges of the elected lane. -/
def one_by_one (n t : Nat) : List (Nat × Nat) :=
  (List.range n).flatMap (fun i => (List.range t).map (fun r => (i, r)) ++ [(i, 0), (i, 0)])

/-- The 8-lane inserts of the keys 11 .. 15 and of the key 100, whose hash value is 2^32 - 5,
on a new map of capacity 20, one call after the other. -/
def wrapped_run : machine Int Int :=
  interleaving wrap_hash int_equal 20 (-1) (-1)
    (tile_requests 8 [(11, 1), (12, 2), (13, 3), (14, 4), (15, 5)] ++
      tile_requests 8 [(100, 6)])
    (one_by_one 6 8)

/-- Three single-lane calls with the home slot 1 on a map of capacity 4; the second call
inserts the value sentinel. -/
def race_requests : List (Option Nat × (Int × Int)) :=
  [(none, (1, 10)), (none, (5, -1)), (none, (9, 30))]

/-- Call 0 wins the key exchange on slot 1; calls 1 and 2 fail it; call 1 exchanges the value
sentinel for the value sentinel, call 2 writes 30; call 1 reverts, call 0 writes 10 and returns,
call 2 reverts. Then calls 1 and 2 go on to the slots 2 and 3. -/
def race_schedule : List (Nat × Nat) :=
  [(0, 0), (1, 0), (1, 0), (2, 0), (2, 0), (1, 0), (0, 0), (2, 0),
   (1, 0), (1, 0), (2, 0), (2, 0), (2, 0), (2, 0), (2, 0)]

/-- The interleaving `race_schedule` of `race_requests`. -/
def race_run : machine Int Int :=
  interleaving scenario_hash int_equal 4 (-1) (-1) race_requests race_schedule

/-- Two single-lane calls and one call of a tile of two lanes, all with the home slot 1 on a
map of capacity 6. -/
def contended_first : List (Option Nat × (Int × Int)) := [(none, (1, 10)), (some 2, (7, 70))]

/-- The second key set of the contended run. -/
def contended_second : List (Option Nat × (Int × Int)) := [(none, (13, 130))]

/-- The lanes of the tile load the empty slots 1 and 2 and lane 0 is elected; call 0 wins the
key exchange on slot 1; the tile fails it, writes its value 70 and owes a revert; the value
exchange of call 0 fails twice; call 2 fails both exchanges and moves to slot 2; the tile
reverts and loads its window again; call 0 writes 10 and returns; call 2 takes slot 2; the tile
finds its window occupied, moves to the slots 3 and 4 and takes slot 3. -/
def contended_schedule : List (Nat × Nat) :=
  [(1, 0), (1, 1), (0, 0), (1, 0), (1, 0), (0, 0), (0, 0), (2, 0), (2, 0), (1, 0), (0, 0),
   (2, 0), (1, 1), (1, 0), (2, 0), (1, 0), (1, 1), (1, 0), (1, 0)]

/-! # Proofs -/

theorem next_slot_eq (m : view K V) (s : Nat) (hs : s < m.capacity_) :
    next_slot m s = (s + 1) % m.capacity_ := by
  unfold next_slot view.end_
  split
  · rw [Nat.mod_eq_of_lt (by assumption)]
  · have : s + 1 = m.capacity_ := by omega
    rw [this, Nat.mod_self]

theorem next_slot_lt (m : view K V) (s : Nat) (hC : 0 < m.capacity_) :
    next_slot m s < m.capacity_ := by
  unfold next_slot view.end_
  split <;> omega

theorem next_slot_cg_eq (m : view K V) (t s : Nat) (hs : s < m.capacity_)
    (hb : m.capacity_ + t ≤ UINT32_MOD) : next_slot_cg m t s = (s + t) % m.capacity_ := by
  unfold next_slot_cg
  simp only
  rw [Nat.mod_eq_of_lt (show s < UINT32_MOD by omega),
    Nat.mod_eq_of_lt (show s + t < UINT32_MOD by omega)]

theorem next_slot_cg_fits (m : view K V) (t s : Nat) (hs : s < m.capacity_)
    (hb : index_fits m t) : next_slot_cg m t s = (s + t) % m.capacity_ := by
  rcases hb with hb | hb
  · exact next_slot_cg_eq m t s hs hb
  · have hdvd : m.capacity_ ∣ UINT32_MOD := Nat.dvd_of_mod_eq_zero hb
    unfold next_slot_cg
    simp only
    rw [Nat.mod_mod_of_dvd _ hdvd, Nat.add_mod, Nat.mod_mod_of_dvd _ hdvd, ← Nat.add_mod]

theorem initial_slot_cg_fits (m : view K V) (hash : K → Nat) (r : Nat) (k : K)
    (hf : hash k + r < UINT32_MOD ∨ UINT32_MOD % m.capacity_ = 0) :
    initial_slot_cg m hash r k = (hash k + r) % m.capacity_ := by
  unfold initial_slot_cg
  rcases hf with hf | hf
  · rw [Nat.mod_eq_of_lt hf]
  · rw [Nat.mod_mod_of_dvd _ (Nat.dvd_of_mod_eq_zero hf)]

theorem rank_fits_lane (m : view K V) (hash : K → Nat) (t r : Nat) (k : K) (hr : r < t)
    (hf : rank_fits m hash t k) :
    hash k + r < UINT32_MOD ∨ UINT32_MOD % m.capacity_ = 0 := by
  rcases hf with hf | hf
  · left; omega
  · right; exact hf

theorem probe_sequence_eq (m : view K V) (hash : K → Nat) (k : K) (hC : 0 < m.capacity_)
    (n : Nat) : (next_slot m)^[n] (initial_slot m hash k) = (hash k + n) % m.capacity_ := by
  induction n with
  | zero => simp [initial_slot]
  | succ n ih =>
    rw [Function.iterate_succ_apply', ih, next_slot_eq m _ (Nat.mod_lt _ hC)]
    rw [Nat.add_mod, Nat.mod_mod, ← Nat.add_mod, Nat.add_assoc]

theorem lane_sequence_eq (m : view K V) (hash : K → Nat) (k : K) (t r : Nat)
    (hC : 0 < m.capacity_) (hf : hash k + r < UINT32_MOD ∨ UINT32_MOD % m.capacity_ = 0)
    (hb : index_fits m t)
    (j : Nat) : (next_slot_cg m t)^[j] (initial_slot_cg m hash r k)
      = (hash k + r + j * t) % m.capacity_ := by
  induction j with
  | zero => simp [initial_slot_cg_fits m hash r k hf]
  | succ n ih =>
    rw [Function.iterate_succ_apply', ih, next_slot_cg_fits m t _ (Nat.mod_lt _ hC) hb]
    rw [Nat.add_mod, Nat.mod_mod, ← Nat.add_mod, Nat.succ_mul, Nat.add_assoc (hash k + r)]

theorem ffs_first (l : List Bool) : ∀ (i : Nat), l[i]? = some true →
    (∀ j, j < i → l[j]? = some false) → ffs l = i + 1 := by
  induction l with
  | nil => intro i h; simp at h
  | cons b rest ih =>
    intro i h hf
    cases i with
    | zero =>
      simp at h
      subst h
      rfl
    | succ i =>
      have h0 := hf 0 (Nat.succ_pos i)
      simp at h0
      subst h0
      have h1 : rest[i]? = some true := by simpa using h
      have h2 : ∀ j, j < i → rest[j]? = some false := by
        intro j hj
        have := hf (j + 1) (by omega)
        simpa using this
      have := ih i h1 h2
      simp [ffs, this]

theorem ballot_getElem? (t : Nat) (p : Nat → Bool) (r : Nat) (hr : r < t) :
    (ballot t p)[r]? = some (p r) := by
  simp [ballot, List.getElem?_range hr]

theorem mask_set_ballot (t : Nat) (p : Nat → Bool) :
    mask_set (ballot t p) = true ↔ ∃ r, r < t ∧ p r = true := by
  simp [mask_set, ballot]

theorem mask_set_ballot_false (t : Nat) (p : Nat → Bool) (h : ∀ r, r < t → p r = false) :
    mask_set (ballot t p) = false := by
  cases hm : mask_set (ballot t p) with
  | false => rfl
  | true =>
    obtain ⟨r, hr, hp⟩ := (mask_set_ballot t p).1 hm
    rw [h r hr] at hp
    cases hp

theorem ballot_first (t : Nat) (p : Nat → Bool) (r : Nat) (hr : r < t) (hp : p r = true)
    (hf : ∀ j, j < r → p j = false) :
    mask_set (ballot t p) = true ∧ ffs (ballot t p) - 1 = r := by
  refine ⟨(mask_set_ballot t p).2 ⟨r, hr, hp⟩, ?_⟩
  have := ffs_first (ballot t p) r (by rw [ballot_getElem? t p r hr, hp])
    (fun j hj => by rw [ballot_getElem? t p j (by omega), hf j hj])
  omega

theorem exists_first_lane (t : Nat) (p : Nat → Bool) (h : ∃ r, r < t ∧ p r = true) :
    ∃ r, r < t ∧ p r = true ∧ ∀ j, j < r → p j = false := by
  classical
  refine ⟨Nat.find h, (Nat.find_spec h).1, (Nat.find_spec h).2, ?_⟩
  intro j hj
  have := Nat.find_min h hj
  have hlt : j < t := lt_trans hj (Nat.find_spec h).1
  cases hpj : p j with
  | false => rfl
  | true => exact absurd ⟨hlt, hpj⟩ this

theorem store_first_self (m : view K V) (s : Nat) : m.store_first s (m.slots_ s).1 = m := by
  cases m with
  | mk slots c ek ev =>
    simp only [view.store_first, view.mk.injEq, and_true]
    funext j
    by_cases h : j = s
    · subst h; simp
    · simp [h]

theorem store_second_self (m : view K V) (s : Nat) : m.store_second s (m.slots_ s).2 = m := by
  cases m with
  | mk slots c ek ev =>
    simp only [view.store_second, view.mk.injEq, and_true]
    funext j
    by_cases h : j = s
    · subst h; simp
    · simp [h]

theorem store_second_twice (m : view K V) (s : Nat) (v w : V) :
    (m.store_second s v).store_second s w = m.store_second s w := by
  cases m with
  | mk slots c ek ev =>
    simp only [view.store_second, view.mk.injEq, and_true]
    funext j
    by_cases h : j = s
    · subst h; simp
    · simp [h]

theorem store_second_revert (m : view K V) (s : Nat) (v : V) :
    (m.store_second s v).store_second s (m.slots_ s).2 = m := by
  rw [store_second_twice, store_second_self]

theorem insert_loop_other (key_equal : K → K → Bool) (p : K × V) (fuel : Nat) (m : view K V)
    (s : Nat) (h1 : (m.slots_ s).1 ≠ m.empty_key_sentinel_)
    (h2 : key_equal p.1 (m.slots_ s).1 = false) :
    insert_loop key_equal p (fuel + 1) m s = insert_loop key_equal p fuel m (next_slot m s) := by
  by_cases hv : (m.slots_ s).2 = m.empty_value_sentinel_
  · have := store_second_revert m s p.2
    rw [hv] at this
    simp [insert_loop, compare_exchange_strong, h1, h2, store_first_self, hv, this]
  · simp [insert_loop, compare_exchange_strong, h1, h2, store_first_self, hv, store_second_self]

theorem insert_loop_dup (key_equal : K → K → Bool) (p : K × V) (fuel : Nat) (m : view K V)
    (s : Nat) (h1 : (m.slots_ s).1 ≠ m.empty_key_sentinel_)
    (h2 : key_equal p.1 (m.slots_ s).1 = true) :
    insert_loop key_equal p (fuel + 1) m s = some ((s, false), m) := by
  by_cases hv : (m.slots_ s).2 = m.empty_value_sentinel_
  · have := store_second_revert m s p.2
    rw [hv] at this
    simp [insert_loop, compare_exchange_strong, h1, h2, store_first_self, hv, this]
  · simp [insert_loop, compare_exchange_strong, h1, h2, store_first_self, hv, store_second_self]

theorem insert_loop_empty (key_equal : K → K → Bool) (p : K × V) (fuel : Nat) (m : view K V)
    (s : Nat) (h1 : (m.slots_ s).1 = m.empty_key_sentinel_)
    (h2 : (m.slots_ s).2 = m.empty_value_sentinel_) :
    insert_loop key_equal p (fuel + 1) m s = some ((s, true), fill m s p) := by
  simp [insert_loop, compare_exchange_strong, h1, h2, fill, view.store_first]

theorem keq_false {key_equal : K → K → Bool} (hke : ∀ a b, key_equal a b = true ↔ a = b)
    {a b : K} (h : a ≠ b) : key_equal a b = false := by
  cases hk : key_equal a b with
  | false => rfl
  | true => exact absurd ((hke a b).1 hk) h

theorem keq_true {key_equal : K → K → Bool} (hke : ∀ a b, key_equal a b = true ↔ a = b)
    (a : K) : key_equal a a = true := (hke a a).2 rfl

theorem probe_succ (C s d : Nat) : ((s + 1) % C + d) % C = (s + (d + 1)) % C := by
  rw [Nat.add_mod, Nat.mod_mod, ← Nat.add_mod]
  congr 1
  omega

theorem insert_loop_skip {key_equal : K → K → Bool} (hke : ∀ a b, key_equal a b = true ↔ a = b)
    (p : K × V) (m : view K V) :
    ∀ (D fuel s : Nat), D ≤ fuel → s < m.capacity_ →
      (∀ d, d < D → other_key m p.1 ((s + d) % m.capacity_)) →
      insert_loop key_equal p fuel m s
        = insert_loop key_equal p (fuel - D) m ((s + D) % m.capacity_) := by
  intro D
  induction D with
  | zero =>
    intro fuel s _ hs _
    simp [Nat.mod_eq_of_lt hs]
  | succ D ih =>
    intro fuel s hf hs ho
    obtain ⟨fuel, rfl⟩ : ∃ f, fuel = f + 1 := ⟨fuel - 1, by omega⟩
    have h0 := ho 0 (Nat.succ_pos D)
    rw [Nat.add_zero, Nat.mod_eq_of_lt hs] at h0
    rw [insert_loop_other key_equal p fuel m s h0.2 (keq_false hke (Ne.symm h0.1)),
      next_slot_eq m s hs]
    have hC : 0 < m.capacity_ := by omega
    rw [ih fuel ((s + 1) % m.capacity_) (by omega) (Nat.mod_lt _ hC)
      (fun d hd => by rw [probe_succ]; exact ho (d + 1) (by omega))]
    rw [probe_succ, Nat.add_sub_add_right]

/-! ### Single-lane loops along a run of slots occupied by other keys -/

theorem find_loop_skip {key_equal : K → K → Bool} (hke : ∀ a b, key_equal a b = true ↔ a = b)
    (k : K) (m : view K V) :
    ∀ (D fuel s : Nat), D ≤ fuel → s < m.capacity_ →
      (∀ d, d < D → other_key m k ((s + d) % m.capacity_)) →
      find_loop key_equal m k fuel s
        = find_loop key_equal m k (fuel - D) ((s + D) % m.capacity_) := by
  intro D
  induction D with
  | zero =>
    intro fuel s _ hs _
    simp [Nat.mod_eq_of_lt hs]
  | succ D ih =>
    intro fuel s hf hs ho
    obtain ⟨fuel, rfl⟩ : ∃ f, fuel = f + 1 := ⟨fuel - 1, by omega⟩
    have h0 := ho 0 (Nat.succ_pos D)
    rw [Nat.add_zero, Nat.mod_eq_of_lt hs] at h0
    have hC : 0 < m.capacity_ := by omega
    have hstep : find_loop key_equal m k (fuel + 1) s
        = find_loop key_equal m k fuel (next_slot m s) := by
      simp [find_loop, keq_false hke h0.1, h0.2]
    rw [hstep, next_slot_eq m s hs,
      ih fuel ((s + 1) % m.capacity_) (by omega) (Nat.mod_lt _ hC)
        (fun d hd => by rw [probe_succ]; exact ho (d + 1) (by omega))]
    rw [probe_succ, Nat.add_sub_add_right]

theorem contains_loop_skip {key_equal : K → K → Bool}
    (hke : ∀ a b, key_equal a b = true ↔ a = b) (k : K) (m : view K V) :
    ∀ (D fuel s : Nat), D ≤ fuel → s < m.capacity_ →
      (∀ d, d < D → other_key m k ((s + d) % m.capacity_)) →
      contains_loop key_equal m k fuel s
        = contains_loop key_equal m k (fuel - D) ((s + D) % m.capacity_) := by
  intro D
  induction D with
  | zero =>
    intro fuel s _ hs _
    simp [Nat.mod_eq_of_lt hs]
  | succ D ih =>
    intro fuel s hf hs ho
    obtain ⟨fuel, rfl⟩ : ∃ f, fuel = f + 1 := ⟨fuel - 1, by omega⟩
    have h0 := ho 0 (Nat.succ_pos D)
    rw [Nat.add_zero, Nat.mod_eq_of_lt hs] at h0
    have hC : 0 < m.capacity_ := by omega
    have hstep : contains_loop key_equal m k (fuel + 1) s
        = contains_loop key_equal m k fuel (next_slot m s) := by
      simp [contains_loop, keq_false hke h0.1, h0.2]
    rw [hstep, next_slot_eq m s hs,
      ih fuel ((s + 1) % m.capacity_) (by omega) (Nat.mod_lt _ hC)
        (fun d hd => by rw [probe_succ]; exact ho (d + 1) (by omega))]
    rw [probe_succ, Nat.add_sub_add_right]

/-! ### Single-lane operations, given the first slot of the probe path that holds the key or is
empty -/

section single
variable {key_equal : K → K → Bool} (hke : ∀ a b, key_equal a b = true ↔ a = b)
  (hash : K → Nat) (m : view K V) (D fuel : Nat) (hC : 0 < m.capacity_) (hD : D < fuel)
include hke hC hD

theorem find_hit (k : K)
    (ho : ∀ d, d < D → other_key m k ((hash k + d) % m.capacity_))
    (hk : (m.slots_ ((hash k + D) % m.capacity_)).1 = k) :
    find hash key_equal fuel m k = some ((hash k + D) % m.capacity_) := by
  unfold find initial_slot
  rw [find_loop_skip hke k m D fuel _ (by omega) (Nat.mod_lt _ hC)
    (fun d hd => by rw [Nat.mod_add_mod]; exact ho d hd), Nat.mod_add_mod]
  obtain ⟨f, hf⟩ : ∃ f, fuel - D = f + 1 := ⟨fuel - D - 1, by omega⟩
  rw [hf]
  simp [find_loop, hk, keq_true hke]

theorem find_miss (k : K)
    (ho : ∀ d, d < D → other_key m k ((hash k + d) % m.capacity_))
    (hk : (m.slots_ ((hash k + D) % m.capacity_)).1 = m.empty_key_sentinel_)
    (hne : k ≠ m.empty_key_sentinel_) :
    find hash key_equal fuel m k = some m.end_ := by
  unfold find initial_slot
  rw [find_loop_skip hke k m D fuel _ (by omega) (Nat.mod_lt _ hC)
    (fun d hd => by rw [Nat.mod_add_mod]; exact ho d hd), Nat.mod_add_mod]
  obtain ⟨f, hf⟩ : ∃ f, fuel - D = f + 1 := ⟨fuel - D - 1, by omega⟩
  rw [hf]
  simp [find_loop, hk, keq_false hke (Ne.symm hne)]

theorem contains_hit (k : K)
    (ho : ∀ d, d < D → other_key m k ((hash k + d) % m.capacity_))
    (hk : (m.slots_ ((hash k + D) % m.capacity_)).1 = k) :
    contains hash key_equal fuel m k = some true := by
  unfold contains initial_slot
  rw [contains_loop_skip hke k m D fuel _ (by omega) (Nat.mod_lt _ hC)
    (fun d hd => by rw [Nat.mod_add_mod]; exact ho d hd), Nat.mod_add_mod]
  obtain ⟨f, hf⟩ : ∃ f, fuel - D = f + 1 := ⟨fuel - D - 1, by omega⟩
  rw [hf]
  simp [contains_loop, hk, keq_true hke]

theorem contains_miss (k : K)
    (ho : ∀ d, d < D → other_key m k ((hash k + d) % m.capacity_))
    (hk : (m.slots_ ((hash k + D) % m.capacity_)).1 = m.empty_key_sentinel_)
    (hne : k ≠ m.empty_key_sentinel_) :
    contains hash key_equal fuel m k = some false := by
  unfold contains initial_slot
  rw [contains_loop_skip hke k m D fuel _ (by omega) (Nat.mod_lt _ hC)
    (fun d hd => by rw [Nat.mod_add_mod]; exact ho d hd), Nat.mod_add_mod]
  obtain ⟨f, hf⟩ : ∃ f, fuel - D = f + 1 := ⟨fuel - D - 1, by omega⟩
  rw [hf]
  simp [contains_loop, hk, keq_false hke (Ne.symm hne)]

theorem insert_hit (p : K × V)
    (ho : ∀ d, d < D → other_key m p.1 ((hash p.1 + d) % m.capacity_))
    (hk : (m.slots_ ((hash p.1 + D) % m.capacity_)).1 = p.1)
    (hne : p.1 ≠ m.empty_key_sentinel_) :
    insert hash key_equal fuel m p = some (((hash p.1 + D) % m.capacity_, false), m) := by
  unfold insert initial_slot
  rw [insert_loop_skip hke p m D fuel _ (by omega) (Nat.mod_lt _ hC)
    (fun d hd => by rw [Nat.mod_add_mod]; exact ho d hd), Nat.mod_add_mod]
  obtain ⟨f, hf⟩ : ∃ f, fuel - D = f + 1 := ⟨fuel - D - 1, by omega⟩
  rw [hf]
  exact insert_loop_dup key_equal p f m _ (by rw [hk]; exact hne) (by rw [hk]; exact keq_true hke _)

theorem insert_miss (p : K × V)
    (ho : ∀ d, d < D → other_key m p.1 ((hash p.1 + d) % m.capacity_))
    (hk : (m.slots_ ((hash p.1 + D) % m.capacity_)).1 = m.empty_key_sentinel_)
    (hv : (m.slots_ ((hash p.1 + D) % m.capacity_)).2 = m.empty_value_sentinel_) :
    insert hash key_equal fuel m p
      = some (((hash p.1 + D) % m.capacity_, true), fill m ((hash p.1 + D) % m.capacity_) p) := by
  unfold insert initial_slot
  rw [insert_loop_skip hke p m D fuel _ (by omega) (Nat.mod_lt _ hC)
    (fun d hd => by rw [Nat.mod_add_mod]; exact ho d hd), Nat.mod_add_mod]
  obtain ⟨f, hf⟩ : ∃ f, fuel - D = f + 1 := ⟨fuel - D - 1, by omega⟩
  rw [hf]
  exact insert_loop_empty key_equal p f m _ hk hv

end single

/-! ### One iteration of the tile loops -/

theorem ballot_key_false {key_equal : K → K → Bool} (hke : ∀ a b, key_equal a b = true ↔ a = b)
    (t : Nat) (m : view K V) (k : K) (cur : Nat → Nat)
    (h : ∀ r, r < t → (m.slots_ (cur r)).1 ≠ k) :
    mask_set (ballot t (fun r => key_equal (m.slots_ (cur r)).1 k)) = false :=
  mask_set_ballot_false _ _ (fun r hr => keq_false hke (h r hr))

theorem ballot_empty_false (t : Nat) (m : view K V) (cur : Nat → Nat)
    (h : ∀ r, r < t → (m.slots_ (cur r)).1 ≠ m.empty_key_sentinel_) :
    mask_set (ballot t (fun r => decide ((m.slots_ (cur r)).1 = m.empty_key_sentinel_))) = false :=
  mask_set_ballot_false _ _ (fun r hr => decide_eq_false (h r hr))

theorem find_cg_step_other {key_equal : K → K → Bool}
    (hke : ∀ a b, key_equal a b = true ↔ a = b) (t : Nat) (m : view K V) (k : K) (fuel : Nat)
    (cur : Nat → Nat) (h : ∀ r, r < t → other_key m k (cur r)) :
    find_cg_loop key_equal t m k (fuel + 1) cur
      = find_cg_loop key_equal t m k fuel (fun r => next_slot_cg m t (cur r)) := by
  have h1 := ballot_key_false hke t m k cur (fun r hr => (h r hr).1)
  have h2 := ballot_empty_false t m cur (fun r hr => (h r hr).2)
  simp only [find_cg_loop, h1, h2]
  simp

theorem find_cg_step_hit {key_equal : K → K → Bool}
    (hke : ∀ a b, key_equal a b = true ↔ a = b) (t : Nat) (m : view K V) (k : K) (fuel : Nat)
    (cur : Nat → Nat) (r0 : Nat) (hr0 : r0 < t) (hk : (m.slots_ (cur r0)).1 = k)
    (hf : ∀ j, j < r0 → (m.slots_ (cur j)).1 ≠ k) :
    find_cg_loop key_equal t m k (fuel + 1) cur = some (cur r0) := by
  have h1 := ballot_first t (fun r => key_equal (m.slots_ (cur r)).1 k) r0 hr0
    (by simp only [hk]; exact keq_true hke k) (fun j hj => keq_false hke (hf j hj))
  simp only [find_cg_loop, h1.1, h1.2, shfl]
  simp

theorem find_cg_step_miss {key_equal : K → K → Bool}
    (hke : ∀ a b, key_equal a b = true ↔ a = b) (t : Nat) (m : view K V) (k : K) (fuel : Nat)
    (cur : Nat → Nat) (r0 : Nat) (hr0 : r0 < t)
    (hk : (m.slots_ (cur r0)).1 = m.empty_key_sentinel_)
    (hf : ∀ r, r < t → (m.slots_ (cur r)).1 ≠ k) :
    find_cg_loop key_equal t m k (fuel + 1) cur = some m.end_ := by
  have h1 := ballot_key_false hke t m k cur hf
  have h2 := (mask_set_ballot t
    (fun r => decide ((m.slots_ (cur r)).1 = m.empty_key_sentinel_))).2
    ⟨r0, hr0, decide_eq_true hk⟩
  simp only [find_cg_loop, h1, h2]
  simp

theorem contains_cg_step_other {key_equal : K → K → Bool}
    (hke : ∀ a b, key_equal a b = true ↔ a = b) (t : Nat) (m : view K V) (k : K) (fuel : Nat)
    (cur : Nat → Nat) (h : ∀ r, r < t → other_key m k (cur r)) :
    contains_cg_loop key_equal t m k (fuel + 1) cur
      = contains_cg_loop key_equal t m k fuel (fun r => next_slot m (cur r)) := by
  have h1 := ballot_key_false hke t m k cur (fun r hr => (h r hr).1)
  have h2 := ballot_empty_false t m cur (fun r hr => (h r hr).2)
  simp only [contains_cg_loop, h1, h2]
  simp

theorem contains_cg_step_hit {key_equal : K → K → Bool}
    (hke : ∀ a b, key_equal a b = true ↔ a = b) (t : Nat) (m : view K V) (k : K) (fuel : Nat)
    (cur : Nat → Nat) (r0 : Nat) (hr0 : r0 < t) (hk : (m.slots_ (cur r0)).1 = k) :
    contains_cg_loop key_equal t m k (fuel + 1) cur = some true := by
  have h1 := (mask_set_ballot t (fun r => key_equal (m.slots_ (cur r)).1 k)).2
    ⟨r0, hr0, by simp only [hk]; exact keq_true hke k⟩
  simp only [contains_cg_loop, h1]
  simp

theorem contains_cg_step_miss {key_equal : K → K → Bool}
    (hke : ∀ a b, key_equal a b = true ↔ a = b) (t : Nat) (m : view K V) (k : K) (fuel : Nat)
    (cur : Nat → Nat) (r0 : Nat) (hr0 : r0 < t)
    (hk : (m.slots_ (cur r0)).1 = m.empty_key_sentinel_)
    (hf : ∀ r, r < t → (m.slots_ (cur r)).1 ≠ k) :
    contains_cg_loop key_equal t m k (fuel + 1) cur = some false := by
  have h1 := ballot_key_false hke t m k cur hf
  have h2 := (mask_set_ballot t
    (fun r => decide ((m.slots_ (cur r)).1 = m.empty_key_sentinel_))).2
    ⟨r0, hr0, decide_eq_true hk⟩
  simp only [contains_cg_loop, h1, h2]
  simp

theorem elected_exchange_empty {key_equal : K → K → Bool}
    (hke : ∀ a b, key_equal a b = true ↔ a = b) (p : K × V) (fuel : Nat) (m : view K V) (s : Nat)
    (h1 : (m.slots_ s).1 = m.empty_key_sentinel_) (h2 : (m.slots_ s).2 = m.empty_value_sentinel_)
    (hne : p.1 ≠ m.empty_key_sentinel_) :
    elected_exchange key_equal p fuel m s = some (insert_result.SUCCESS, fill m s p) := by
  simp [elected_exchange, compare_exchange_strong, h1, h2, fill, view.store_first,
    keq_false hke hne]

theorem insert_cg_step_other {key_equal : K → K → Bool}
    (hke : ∀ a b, key_equal a b = true ↔ a = b) (t : Nat) (m : view K V) (p : K × V)
    (fuel : Nat) (cur : Nat → Nat) (h : ∀ r, r < t → other_key m p.1 (cur r)) :
    insert_cg_loop key_equal t p (fuel + 1) m cur
      = insert_cg_loop key_equal t p fuel m (fun r => next_slot_cg m t (cur r)) := by
  have h1 := ballot_key_false hke t m p.1 cur (fun r hr => (h r hr).1)
  have h2 := ballot_empty_false t m cur (fun r hr => (h r hr).2)
  simp only [insert_cg_loop, h1, h2]
  simp

theorem insert_cg_step_dup {key_equal : K → K → Bool}
    (hke : ∀ a b, key_equal a b = true ↔ a = b) (t : Nat) (m : view K V) (p : K × V)
    (fuel : Nat) (cur : Nat → Nat) (r0 : Nat) (hr0 : r0 < t) (hk : (m.slots_ (cur r0)).1 = p.1)
    (hf : ∀ j, j < r0 → (m.slots_ (cur j)).1 ≠ p.1) :
    insert_cg_loop key_equal t p (fuel + 1) m cur = some ((cur r0, false), m) := by
  have h1 := ballot_first t (fun r => key_equal (m.slots_ (cur r)).1 p.1) r0 hr0
    (by simp only [hk]; exact keq_true hke p.1) (fun j hj => keq_false hke (hf j hj))
  simp only [insert_cg_loop, h1.1, h1.2, shfl]
  simp

theorem insert_cg_step_empty {key_equal : K → K → Bool}
    (hke : ∀ a b, key_equal a b = true ↔ a = b) (t : Nat) (m : view K V) (p : K × V)
    (fuel : Nat) (cur : Nat → Nat) (r0 : Nat) (hr0 : r0 < t)
    (hk : (m.slots_ (cur r0)).1 = m.empty_key_sentinel_)
    (hv : (m.slots_ (cur r0)).2 = m.empty_value_sentinel_)
    (hf : ∀ j, j < r0 → (m.slots_ (cur j)).1 ≠ m.empty_key_sentinel_)
    (hnk : ∀ r, r < t → (m.slots_ (cur r)).1 ≠ p.1)
    (hne : p.1 ≠ m.empty_key_sentinel_) :
    insert_cg_loop key_equal t p (fuel + 1) m cur = some ((cur r0, true), fill m (cur r0) p) := by
  have h1 := ballot_key_false hke t m p.1 cur hnk
  have h2 := ballot_first t (fun r => decide ((m.slots_ (cur r)).1 = m.empty_key_sentinel_))
    r0 hr0 (decide_eq_true hk) (fun j hj => decide_eq_false (hf j hj))
  simp only [insert_cg_loop, h1, h2.1, h2.2, shfl, elected_exchange_empty hke p fuel m _ hk hv hne]
  simp

/-! ### Windows of a tile -/

theorem lanes_at_initial (m : view K V) (hash : K → Nat) (t : Nat) (k : K)
    (hf : rank_fits m hash t k) :
    lanes_at m t (hash k) 0 (fun r => initial_slot_cg m hash r k) := by
  intro r hr
  simp [initial_slot_cg_fits m hash r k (rank_fits_lane m hash t r k hr hf)]

theorem lanes_at_next_cg (m : view K V) (t h a : Nat) (cur : Nat → Nat) (hC : 0 < m.capacity_)
    (hb : index_fits m t) (hl : lanes_at m t h a cur) :
    lanes_at m t h (a + t) (fun r => next_slot_cg m t (cur r)) := by
  intro r hr
  simp only
  rw [hl r hr, next_slot_cg_fits m t _ (Nat.mod_lt _ hC) hb, Nat.mod_add_mod]
  congr 1
  omega

theorem lanes_at_next (m : view K V) (t h a : Nat) (cur : Nat → Nat) (hC : 0 < m.capacity_)
    (hl : lanes_at m t h a cur) :
    lanes_at m t h (a + 1) (fun r => next_slot m (cur r)) := by
  intro r hr
  simp only
  rw [hl r hr, next_slot_eq m _ (Nat.mod_lt _ hC), Nat.mod_add_mod]
  congr 1
  omega

/-! ### Tile loops along a run of slots occupied by other keys -/

theorem find_cg_loop_skip {key_equal : K → K → Bool}
    (hke : ∀ a b, key_equal a b = true ↔ a = b) (t h : Nat) (k : K) (m : view K V)
    (hC : 0 < m.capacity_) (hb : index_fits m t) :
    ∀ (n fuel a : Nat) (cur : Nat → Nat), n ≤ fuel → lanes_at m t h a cur →
      (∀ d, d < a + n * t → other_key m k ((h + d) % m.capacity_)) →
      ∃ cur', lanes_at m t h (a + n * t) cur' ∧
        find_cg_loop key_equal t m k fuel cur = find_cg_loop key_equal t m k (fuel - n) cur' := by
  intro n
  induction n with
  | zero =>
    intro fuel a cur _ hl _
    exact ⟨cur, by simpa using hl, by simp⟩
  | succ n ih =>
    intro fuel a cur hf hl ho
    obtain ⟨fuel, rfl⟩ : ∃ f, fuel = f + 1 := ⟨fuel - 1, by omega⟩
    have hw : ∀ r, r < t → other_key m k (cur r) := by
      intro r hr
      rw [hl r hr, Nat.add_assoc]
      exact ho (a + r) (by rw [Nat.succ_mul]; omega)
    obtain ⟨cur', hl', he⟩ := ih fuel (a + t) _ (by omega) (lanes_at_next_cg m t h a cur hC hb hl)
      (fun d hd => ho d (by rw [Nat.succ_mul]; omega))
    refine ⟨cur', ?_, ?_⟩
    · have : a + (n + 1) * t = a + t + n * t := by rw [Nat.succ_mul]; omega
      rw [this]; exact hl'
    · rw [find_cg_step_other hke t m k fuel cur hw, he, Nat.add_sub_add_right]

theorem insert_cg_loop_skip {key_equal : K → K → Bool}
    (hke : ∀ a b, key_equal a b = true ↔ a = b) (t h : Nat) (p : K × V) (m : view K V)
    (hC : 0 < m.capacity_) (hb : index_fits m t) :
    ∀ (n fuel a : Nat) (cur : Nat → Nat), n ≤ fuel → lanes_at m t h a cur →
      (∀ d, d < a + n * t → other_key m p.1 ((h + d) % m.capacity_)) →
      ∃ cur', lanes_at m t h (a + n * t) cur' ∧
        insert_cg_loop key_equal t p fuel m cur
          = insert_cg_loop key_equal t p (fuel - n) m cur' := by
  intro n
  induction n with
  | zero =>
    intro fuel a cur _ hl _
    exact ⟨cur, by simpa using hl, by simp⟩
  | succ n ih =>
    intro fuel a cur hf hl ho
    obtain ⟨fuel, rfl⟩ : ∃ f, fuel = f + 1 := ⟨fuel - 1, by omega⟩
    have hw : ∀ r, r < t → other_key m p.1 (cur r) := by
      intro r hr
      rw [hl r hr, Nat.add_assoc]
      exact ho (a + r) (by rw [Nat.succ_mul]; omega)
    obtain ⟨cur', hl', he⟩ := ih fuel (a + t) _ (by omega) (lanes_at_next_cg m t h a cur hC hb hl)
      (fun d hd => ho d (by rw [Nat.succ_mul]; omega))
    refine ⟨cur', ?_, ?_⟩
    · have : a + (n + 1) * t = a + t + n * t := by rw [Nat.succ_mul]; omega
      rw [this]; exact hl'
    · rw [insert_cg_step_other hke t m p fuel cur hw, he, Nat.add_sub_add_right]

theorem contains_cg_loop_skip {key_equal : K → K → Bool}
    (hke : ∀ a b, key_equal a b = true ↔ a = b) (t h : Nat) (k : K) (m : view K V)
    (hC : 0 < m.capacity_) :
    ∀ (n fuel a : Nat) (cur : Nat → Nat), n ≤ fuel → lanes_at m t h a cur →
      (∀ d, 0 < n → d + 1 < a + n + t → other_key m k ((h + d) % m.capacity_)) →
      ∃ cur', lanes_at m t h (a + n) cur' ∧
        contains_cg_loop key_equal t m k fuel cur
          = contains_cg_loop key_equal t m k (fuel - n) cur' := by
  intro n
  induction n with
  | zero =>
    intro fuel a cur _ hl _
    exact ⟨cur, by simpa using hl, by simp⟩
  | succ n ih =>
    intro fuel a cur hf hl ho
    obtain ⟨fuel, rfl⟩ : ∃ f, fuel = f + 1 := ⟨fuel - 1, by omega⟩
    have hw : ∀ r, r < t → other_key m k (cur r) := by
      intro r hr
      rw [hl r hr, Nat.add_assoc]
      exact ho (a + r) (Nat.succ_pos n) (by omega)
    obtain ⟨cur', hl', he⟩ := ih fuel (a + 1) _ (by omega) (lanes_at_next m t h a cur hC hl)
      (fun d _ hd => ho d (Nat.succ_pos n) (by omega))
    refine ⟨cur', ?_, ?_⟩
    · have : a + (n + 1) = a + 1 + n := by omega
      rw [this]; exact hl'
    · rw [contains_cg_step_other hke t m k fuel cur hw, he, Nat.add_sub_add_right]

/-! ### Tile operations, given the first slot of the probe path that holds the key or is empty -/

section tile
variable {key_equal : K → K → Bool} (hke : ∀ a b, key_equal a b = true ↔ a = b)
  (hash : K → Nat) (m : view K V) (t D fuel : Nat) (hC : 0 < m.capacity_) (ht : 1 ≤ t)
include hke hC ht

theorem find_cg_hit (hD : D / t < fuel) (hb : index_fits m t) (k : K)
    (hrk : rank_fits m hash t k)
    (ho : ∀ d, d < D → other_key m k ((hash k + d) % m.capacity_))
    (hk : (m.slots_ ((hash k + D) % m.capacity_)).1 = k) :
    find_cg hash key_equal t fuel m k = some ((hash k + D) % m.capacity_) := by
  have hdm := Nat.div_add_mod D t
  have hle : D / t * t ≤ D := Nat.div_mul_le_self D t
  have hn : D / t ≤ D := Nat.div_le_self D t
  obtain ⟨cur', hl, he⟩ := find_cg_loop_skip hke t (hash k) k m hC hb (D / t) fuel 0 _
    (by omega) (lanes_at_initial m hash t k hrk) (fun d hd => ho d (by omega))
  unfold find_cg
  rw [he]
  obtain ⟨f, hf⟩ : ∃ f, fuel - D / t = f + 1 := ⟨fuel - D / t - 1, by omega⟩
  have hr0 : D % t < t := Nat.mod_lt _ (by omega)
  have hmul : t * (D / t) = D / t * t := Nat.mul_comm _ _
  have hcur : ∀ r, r < t → cur' r = (hash k + (D / t * t + r)) % m.capacity_ := by
    intro r hr
    rw [hl r hr]
    congr 1
    omega
  have hD' : D / t * t + D % t = D := by omega
  rw [hf, find_cg_step_hit hke t m k f cur' (D % t) hr0 (by rw [hcur _ hr0, hD']; exact hk)
    (fun j hj => by
      rw [hcur j (by omega)]
      exact (ho _ (by omega)).1), hcur _ hr0, hD']

theorem find_cg_miss (hD : D / t < fuel) (hb : index_fits m t) (k : K)
    (hrk : rank_fits m hash t k)
    (ho : ∀ d, d < D → other_key m k ((hash k + d) % m.capacity_))
    (hk : (m.slots_ ((hash k + D) % m.capacity_)).1 = m.empty_key_sentinel_)
    (habs : ∀ i, i < m.capacity_ → (m.slots_ i).1 ≠ k) :
    find_cg hash key_equal t fuel m k = some m.end_ := by
  have hdm := Nat.div_add_mod D t
  have hle : D / t * t ≤ D := Nat.div_mul_le_self D t
  have hn : D / t ≤ D := Nat.div_le_self D t
  obtain ⟨cur', hl, he⟩ := find_cg_loop_skip hke t (hash k) k m hC hb (D / t) fuel 0 _
    (by omega) (lanes_at_initial m hash t k hrk) (fun d hd => ho d (by omega))
  unfold find_cg
  rw [he]
  obtain ⟨f, hf⟩ : ∃ f, fuel - D / t = f + 1 := ⟨fuel - D / t - 1, by omega⟩
  have hr0 : D % t < t := Nat.mod_lt _ (by omega)
  have hmul : t * (D / t) = D / t * t := Nat.mul_comm _ _
  have hcur : ∀ r, r < t → cur' r = (hash k + (D / t * t + r)) % m.capacity_ := by
    intro r hr
    rw [hl r hr]
    congr 1
    omega
  have hD' : D / t * t + D % t = D := by omega
  rw [hf, find_cg_step_miss hke t m k f cur' (D % t) hr0 (by rw [hcur _ hr0, hD']; exact hk)
    (fun r hr => by
      rw [hcur r hr]
      exact habs _ (Nat.mod_lt _ hC))]

theorem insert_cg_hit (hD : D / t < fuel) (hb : index_fits m t) (p : K × V)
    (hrk : rank_fits m hash t p.1)
    (ho : ∀ d, d < D → other_key m p.1 ((hash p.1 + d) % m.capacity_))
    (hk : (m.slots_ ((hash p.1 + D) % m.capacity_)).1 = p.1) :
    insert_cg hash key_equal t fuel m p = some (((hash p.1 + D) % m.capacity_, false), m) := by
  have hdm := Nat.div_add_mod D t
  have hle : D / t * t ≤ D := Nat.div_mul_le_self D t
  have hn : D / t ≤ D := Nat.div_le_self D t
  obtain ⟨cur', hl, he⟩ := insert_cg_loop_skip hke t (hash p.1) p m hC hb (D / t) fuel 0 _
    (by omega) (lanes_at_initial m hash t p.1 hrk) (fun d hd => ho d (by omega))
  unfold insert_cg
  rw [he]
  obtain ⟨f, hf⟩ : ∃ f, fuel - D / t = f + 1 := ⟨fuel - D / t - 1, by omega⟩
  have hr0 : D % t < t := Nat.mod_lt _ (by omega)
  have hmul : t * (D / t) = D / t * t := Nat.mul_comm _ _
  have hcur : ∀ r, r < t → cur' r = (hash p.1 + (D / t * t + r)) % m.capacity_ := by
    intro r hr
    rw [hl r hr]
    congr 1
    omega
  have hD' : D / t * t + D % t = D := by omega
  rw [hf, insert_cg_step_dup hke t m p f cur' (D % t) hr0 (by rw [hcur _ hr0, hD']; exact hk)
    (fun j hj => by
      rw [hcur j (by omega)]
      exact (ho _ (by omega)).1), hcur _ hr0, hD']

theorem insert_cg_miss (hD : D / t < fuel) (hb : index_fits m t) (p : K × V)
    (hrk : rank_fits m hash t p.1)
    (ho : ∀ d, d < D → other_key m p.1 ((hash p.1 + d) % m.capacity_))
    (hk : (m.slots_ ((hash p.1 + D) % m.capacity_)).1 = m.empty_key_sentinel_)
    (hv : (m.slots_ ((hash p.1 + D) % m.capacity_)).2 = m.empty_value_sentinel_)
    (habs : ∀ i, i < m.capacity_ → (m.slots_ i).1 ≠ p.1)
    (hne : p.1 ≠ m.empty_key_sentinel_) :
    insert_cg hash key_equal t fuel m p
      = some (((hash p.1 + D) % m.capacity_, true),
          fill m ((hash p.1 + D) % m.capacity_) p) := by
  have hdm := Nat.div_add_mod D t
  have hle : D / t * t ≤ D := Nat.div_mul_le_self D t
  have hn : D / t ≤ D := Nat.div_le_self D t
  obtain ⟨cur', hl, he⟩ := insert_cg_loop_skip hke t (hash p.1) p m hC hb (D / t) fuel 0 _
    (by omega) (lanes_at_initial m hash t p.1 hrk) (fun d hd => ho d (by omega))
  unfold insert_cg
  rw [he]
  obtain ⟨f, hf⟩ : ∃ f, fuel - D / t = f + 1 := ⟨fuel - D / t - 1, by omega⟩
  have hr0 : D % t < t := Nat.mod_lt _ (by omega)
  have hmul : t * (D / t) = D / t * t := Nat.mul_comm _ _
  have hcur : ∀ r, r < t → cur' r = (hash p.1 + (D / t * t + r)) % m.capacity_ := by
    intro r hr
    rw [hl r hr]
    congr 1
    omega
  have hD' : D / t * t + D % t = D := by omega
  rw [hf, insert_cg_step_empty hke t m p f cur' (D % t) hr0
    (by rw [hcur _ hr0, hD']; exact hk) (by rw [hcur _ hr0, hD']; exact hv)
    (fun j hj => by
      rw [hcur j (by omega)]
      exact (ho _ (by omega)).2)
    (fun r hr => by
      rw [hcur r hr]
      exact habs _ (Nat.mod_lt _ hC)) hne, hcur _ hr0, hD']

theorem contains_cg_hit (hD : D + 1 - t < fuel) (k : K)
    (hrk : rank_fits m hash t k)
    (ho : ∀ d, d < D → other_key m k ((hash k + d) % m.capacity_))
    (hk : (m.slots_ ((hash k + D) % m.capacity_)).1 = k) :
    contains_cg hash key_equal t fuel m k = some true := by
  obtain ⟨cur', hl, he⟩ := contains_cg_loop_skip hke t (hash k) k m hC (D + 1 - t) fuel 0 _
    (by omega) (lanes_at_initial m hash t k hrk) (fun d hn hd => ho d (by omega))
  unfold contains_cg
  rw [he]
  obtain ⟨f, hf⟩ : ∃ f, fuel - (D + 1 - t) = f + 1 := ⟨fuel - (D + 1 - t) - 1, by omega⟩
  have hr0 : D - (D + 1 - t) < t := by omega
  rw [hf, contains_cg_step_hit hke t m k f cur' (D - (D + 1 - t)) hr0 (by
    rw [hl _ hr0]
    have : hash k + (0 + (D + 1 - t)) + (D - (D + 1 - t)) = hash k + D := by omega
    rw [this]; exact hk)]

theorem contains_cg_miss (hD : D + 1 - t < fuel) (k : K)
    (hrk : rank_fits m hash t k)
    (ho : ∀ d, d < D → other_key m k ((hash k + d) % m.capacity_))
    (hk : (m.slots_ ((hash k + D) % m.capacity_)).1 = m.empty_key_sentinel_)
    (habs : ∀ i, i < m.capacity_ → (m.slots_ i).1 ≠ k) :
    contains_cg hash key_equal t fuel m k = some false := by
  obtain ⟨cur', hl, he⟩ := contains_cg_loop_skip hke t (hash k) k m hC (D + 1 - t) fuel 0 _
    (by omega) (lanes_at_initial m hash t k hrk) (fun d hn hd => ho d (by omega))
  unfold contains_cg
  rw [he]
  obtain ⟨f, hf⟩ : ∃ f, fuel - (D + 1 - t) = f + 1 := ⟨fuel - (D + 1 - t) - 1, by omega⟩
  have hr0 : D - (D + 1 - t) < t := by omega
  rw [hf, contains_cg_step_miss hke t m k f cur' (D - (D + 1 - t)) hr0 (by
    rw [hl _ hr0]
    have : hash k + (0 + (D + 1 - t)) + (D - (D + 1 - t)) = hash k + D := by omega
    rw [this]; exact hk)
    (fun r hr => by
      rw [hl r hr]
      exact habs _ (Nat.mod_lt _ hC))]

end tile

/-! ### The store after a successful insert -/

@[simp] theorem fill_slots (m : view K V) (s : Nat) (p : K × V) (j : Nat) :
    (fill m s p).slots_ j = if j = s then p else m.slots_ j := by
  by_cases h : j = s
  · subst h; simp [fill, view.store_first, view.store_second]
  · simp [fill, view.store_first, view.store_second, h]

@[simp] theorem fill_capacity (m : view K V) (s : Nat) (p : K × V) :
    (fill m s p).capacity_ = m.capacity_ := rfl

@[simp] theorem fill_empty_key (m : view K V) (s : Nat) (p : K × V) :
    (fill m s p).empty_key_sentinel_ = m.empty_key_sentinel_ := rfl

@[simp] theorem fill_empty_value (m : view K V) (s : Nat) (p : K × V) :
    (fill m s p).empty_value_sentinel_ = m.empty_value_sentinel_ := rfl

/-! ### The first slot of a probe path that holds the key or is empty -/

theorem probe_surj (C h i : Nat) (hi : i < C) : ∃ d, d < C ∧ (h + d) % C = i := by
  have hC : 0 < C := by omega
  have hh : h % C < C := Nat.mod_lt _ hC
  by_cases hle : h % C ≤ i
  · refine ⟨i - h % C, by omega, ?_⟩
    rw [← Nat.mod_add_mod, show h % C + (i - h % C) = i by omega, Nat.mod_eq_of_lt hi]
  · refine ⟨i + C - h % C, by omega, ?_⟩
    rw [← Nat.mod_add_mod, show h % C + (i + C - h % C) = i + C by omega, Nat.add_mod_right,
      Nat.mod_eq_of_lt hi]

theorem first_hit_or_full (hash : K → Nat) (m : view K V) (k : K) :
    (∃ D, first_hit hash m k D) ∨ (∀ i, i < m.capacity_ → other_key m k i) := by
  classical
  by_cases hx : ∃ i, i < m.capacity_ ∧ ¬ other_key m k i
  · left
    obtain ⟨i, hi, hno⟩ := hx
    obtain ⟨d0, hd0, hp⟩ := probe_surj m.capacity_ (hash k) i hi
    have hex : ∃ d, ¬ other_key m k ((hash k + d) % m.capacity_) := ⟨d0, by rw [hp]; exact hno⟩
    refine ⟨Nat.find hex, ?_, ?_, Nat.find_spec hex⟩
    · exact lt_of_le_of_lt (Nat.find_min' hex (by rw [hp]; exact hno)) hd0
    · intro d hd
      exact not_not.1 (Nat.find_min hex hd)
  · right
    intro i hi
    by_contra hno
    exact hx ⟨i, hi, hno⟩

theorem first_hit_key (hash : K → Nat) (m : view K V) (k : K) (D : Nat)
    (h : first_hit hash m k D) :
    (m.slots_ ((hash k + D) % m.capacity_)).1 = k ∨
      (m.slots_ ((hash k + D) % m.capacity_)).1 = m.empty_key_sentinel_ := by
  by_contra hn
  rw [not_or] at hn
  exact h.2.2 ⟨hn.1, hn.2⟩

theorem first_hit_unique (hash : K → Nat) (m : view K V) (k : K) (D E : Nat)
    (hD : first_hit hash m k D) (hE : first_hit hash m k E) : D = E := by
  rcases Nat.lt_trichotomy D E with h | h | h
  · exact absurd (hE.2.1 D h) hD.2.2
  · exact h
  · exact absurd (hD.2.1 E h) hE.2.2

/-- An occupied slot is the first hit of its key. -/
theorem first_hit_of_occurs (hash : K → Nat) (m : view K V) (hp : probe_inv hash m) (i : Nat)
    (hi : i < m.capacity_) (hne : (m.slots_ i).1 ≠ m.empty_key_sentinel_) :
    ∃ D, first_hit hash m (m.slots_ i).1 D ∧ (hash (m.slots_ i).1 + D) % m.capacity_ = i := by
  obtain ⟨d, hd, hpd, ho⟩ := hp i hi hne
  refine ⟨d, ⟨hd, ho, ?_⟩, hpd⟩
  rw [hpd]
  intro h
  exact h.1 rfl

/-- With the invariant, the first hit of a key that is stored is the slot that stores it. -/
theorem first_hit_occurs (hash : K → Nat) (m : view K V) (hp : probe_inv hash m) (k : K)
    (hne : k ≠ m.empty_key_sentinel_) (D : Nat) (hD : first_hit hash m k D) (hocc : occurs m k) :
    (m.slots_ ((hash k + D) % m.capacity_)).1 = k := by
  obtain ⟨i, hi, hk⟩ := hocc
  obtain ⟨E, hE, _⟩ := first_hit_of_occurs hash m hp i hi (by rw [hk]; exact hne)
  rw [hk] at hE
  have := first_hit_unique hash m k D E hD hE
  subst this
  rcases first_hit_key hash m k D hD with h | h
  · exact h
  · exfalso
    obtain ⟨d, hd, hpd, ho⟩ := hp i hi (by rw [hk]; exact hne)
    rw [hk] at hpd ho
    rcases Nat.lt_trichotomy d D with h1 | h1 | h1
    · have := (hD.2.1 d h1).1
      rw [hpd] at this
      exact this hk
    · subst h1
      rw [hpd, hk] at h
      exact hne h
    · have := (ho D h1).2
      exact this h

theorem first_hit_absent (hash : K → Nat) (m : view K V) (k : K) (D : Nat)
    (hD : first_hit hash m k D) (habs : ¬ occurs m k) :
    (m.slots_ ((hash k + D) % m.capacity_)).1 = m.empty_key_sentinel_ ∧
      (m.slots_ ((hash k + D) % m.capacity_)).1 ≠ k := by
  have hlt : (hash k + D) % m.capacity_ < m.capacity_ := Nat.mod_lt _ (by have := hD.1; omega)
  have hnk : (m.slots_ ((hash k + D) % m.capacity_)).1 ≠ k := fun h => habs ⟨_, hlt, h⟩
  rcases first_hit_key hash m k D hD with h | h
  · exact absurd h hnk
  · exact ⟨h, hnk⟩

/-! ### What an insert that returns has done, on any slot store -/

@[simp] theorem store_first_slots_self (m : view K V) (s : Nat) (k : K) :
    (m.store_first s k).slots_ s = (k, (m.slots_ s).2) := by
  simp [view.store_first]

@[simp] theorem store_first_empty_value (m : view K V) (s : Nat) (k : K) :
    (m.store_first s k).empty_value_sentinel_ = m.empty_value_sentinel_ := rfl

theorem value_retry_stuck (s : Nat) (v : V) (m : view K V)
    (hv : (m.slots_ s).2 ≠ m.empty_value_sentinel_) :
    ∀ fuel, value_retry s v fuel m = none := by
  intro fuel
  induction fuel with
  | zero => rfl
  | succ fuel ih =>
    simp [value_retry, compare_exchange_strong, hv, store_second_self, ih]

theorem insert_loop_stuck (key_equal : K → K → Bool) (p : K × V) (fuel : Nat) (m : view K V)
    (s : Nat) (h1 : (m.slots_ s).1 = m.empty_key_sentinel_)
    (h2 : (m.slots_ s).2 ≠ m.empty_value_sentinel_) :
    insert_loop key_equal p (fuel + 1) m s = none := by
  have hs : ((m.store_first s p.1).slots_ s).2 ≠ (m.store_first s p.1).empty_value_sentinel_ := by
    simpa using h2
  have := value_retry_stuck s p.2 (m.store_first s p.1) hs fuel
  have h3 : (m.store_first s p.1).store_second s (m.slots_ s).2 = m.store_first s p.1 := by
    have := store_second_self (m.store_first s p.1) s
    simpa using this
  simp [insert_loop, compare_exchange_strong, h1, h2, h3, this]

theorem elected_exchange_stuck (key_equal : K → K → Bool) (p : K × V) (fuel : Nat)
    (m : view K V) (s : Nat) (h1 : (m.slots_ s).1 = m.empty_key_sentinel_)
    (h2 : (m.slots_ s).2 ≠ m.empty_value_sentinel_) :
    elected_exchange key_equal p fuel m s = none := by
  have hs : ((m.store_first s p.1).slots_ s).2 ≠ (m.store_first s p.1).empty_value_sentinel_ := by
    simpa using h2
  have := value_retry_stuck s p.2 (m.store_first s p.1) hs fuel
  have h3 : (m.store_first s p.1).store_second s (m.slots_ s).2 = m.store_first s p.1 := by
    have := store_second_self (m.store_first s p.1) s
    simpa using this
  simp [elected_exchange, compare_exchange_strong, h1, h2, h3, this]

/-- A single-lane insert that returns either found the key and wrote nothing, or filled one
empty slot. -/
theorem insert_loop_some (key_equal : K → K → Bool) (p : K × V) (m : view K V) :
    ∀ (fuel s0 : Nat) (r : Nat × Bool) (m1 : view K V),
      insert_loop key_equal p fuel m s0 = some (r, m1) →
      (r.2 = false ∧ m1 = m ∧ (m.slots_ r.1).1 ≠ m.empty_key_sentinel_ ∧
          key_equal p.1 (m.slots_ r.1).1 = true) ∨
        (r.2 = true ∧ (m.slots_ r.1).1 = m.empty_key_sentinel_ ∧
          (m.slots_ r.1).2 = m.empty_value_sentinel_ ∧ m1 = fill m r.1 p) := by
  intro fuel
  induction fuel with
  | zero => intro s0 r m1 h; simp [insert_loop] at h
  | succ fuel ih =>
    intro s0 r m1 h
    by_cases hk : (m.slots_ s0).1 = m.empty_key_sentinel_
    · by_cases hv : (m.slots_ s0).2 = m.empty_value_sentinel_
      · rw [insert_loop_empty key_equal p fuel m s0 hk hv] at h
        simp only [Option.some.injEq, Prod.mk.injEq] at h
        obtain ⟨rfl, rfl⟩ := h
        exact Or.inr ⟨rfl, hk, hv, rfl⟩
      · rw [insert_loop_stuck key_equal p fuel m s0 hk hv] at h
        cases h
    · cases hq : key_equal p.1 (m.slots_ s0).1 with
      | true =>
        rw [insert_loop_dup key_equal p fuel m s0 hk hq] at h
        simp only [Option.some.injEq, Prod.mk.injEq] at h
        obtain ⟨rfl, rfl⟩ := h
        exact Or.inl ⟨rfl, rfl, hk, hq⟩
      | false =>
        rw [insert_loop_other key_equal p fuel m s0 hk hq] at h
        exact ih _ r m1 h

theorem mask_set_first (t : Nat) (q : Nat → Bool) (h : mask_set (ballot t q) = true) :
    ffs (ballot t q) - 1 < t ∧ q (ffs (ballot t q) - 1) = true := by
  obtain ⟨r, hr, hq, hf⟩ := exists_first_lane t q ((mask_set_ballot t q).1 h)
  have := (ballot_first t q r hr hq hf).2
  rw [this]
  exact ⟨hr, hq⟩

/-- A tile insert that returns either found the key and wrote nothing, or filled one empty
slot. -/
theorem insert_cg_loop_some {key_equal : K → K → Bool}
    (hke : ∀ a b, key_equal a b = true ↔ a = b) (t : Nat) (p : K × V) :
    ∀ (fuel : Nat) (m : view K V) (cur : Nat → Nat) (r : Nat × Bool) (m1 : view K V),
      insert_cg_loop key_equal t p fuel m cur = some (r, m1) →
      (r.2 = false ∧ m1 = m ∧ (m.slots_ r.1).1 = p.1) ∨
        (r.2 = true ∧ (m.slots_ r.1).1 = m.empty_key_sentinel_ ∧
          (m.slots_ r.1).2 = m.empty_value_sentinel_ ∧ m1 = fill m r.1 p) := by
  intro fuel
  induction fuel with
  | zero => intro m cur r m1 h; simp [insert_cg_loop] at h
  | succ fuel ih =>
    intro m cur r m1 h
    cases hx : mask_set (ballot t (fun r => key_equal (m.slots_ (cur r)).1 p.1)) with
    | true =>
      have hfirst := mask_set_first t _ hx
      simp only [insert_cg_loop, hx, shfl] at h
      simp only [if_true, Option.some.injEq, Prod.mk.injEq] at h
      obtain ⟨rfl, rfl⟩ := h
      exact Or.inl ⟨rfl, rfl, (hke _ _).1 hfirst.2⟩
    | false =>
      cases he : mask_set (ballot t
          (fun r => decide ((m.slots_ (cur r)).1 = m.empty_key_sentinel_))) with
      | true =>
        have hfirst := mask_set_first t _ he
        have hk : (m.slots_ (cur (ffs (ballot t
            (fun r => decide ((m.slots_ (cur r)).1 = m.empty_key_sentinel_))) - 1))).1
            = m.empty_key_sentinel_ := of_decide_eq_true hfirst.2
        have hne : p.1 ≠ m.empty_key_sentinel_ := by
          intro hp
          have : mask_set (ballot t (fun r => key_equal (m.slots_ (cur r)).1 p.1)) = true :=
            (mask_set_ballot t _).2 ⟨_, hfirst.1, by simp only [hk, hp]; exact keq_true hke _⟩
          rw [hx] at this
          cases this
        by_cases hv : (m.slots_ (cur (ffs (ballot t
            (fun r => decide ((m.slots_ (cur r)).1 = m.empty_key_sentinel_))) - 1))).2
            = m.empty_value_sentinel_
        · simp only [insert_cg_loop, hx, he, shfl,
            elected_exchange_empty hke p fuel m _ hk hv hne] at h
          simp only [if_true, Bool.false_eq_true, if_false, Option.some.injEq,
            Prod.mk.injEq] at h
          obtain ⟨rfl, rfl⟩ := h
          exact Or.inr ⟨rfl, hk, hv, rfl⟩
        · simp only [insert_cg_loop, hx, he, shfl,
            elected_exchange_stuck key_equal p fuel m _ hk hv] at h
          simp at h
      | false =>
        simp only [insert_cg_loop, hx, he] at h
        simp only [Bool.false_eq_true, if_false] at h
        exact ih m _ r m1 h

/-! ### The operations in terms of the first hit -/

theorem insert_of_first_hit {key_equal : K → K → Bool}
    (hke : ∀ a b, key_equal a b = true ↔ a = b) (hash : K → Nat) (m : view K V) (p : K × V)
    (D fuel : Nat) (he : empty_inv m) (hne : p.1 ≠ m.empty_key_sentinel_)
    (hD : first_hit hash m p.1 D) (hf : D < fuel) :
    insert hash key_equal fuel m p = some (insert_outcome hash m p D) := by
  have hC : 0 < m.capacity_ := by have := hD.1; omega
  unfold insert_outcome
  split
  · next hk => exact insert_hit hke hash m D fuel hC hf p hD.2.1 hk hne
  · next hk =>
    have hke' : (m.slots_ ((hash p.1 + D) % m.capacity_)).1 = m.empty_key_sentinel_ := by
      rcases first_hit_key hash m p.1 D hD with h | h
      · exact absurd h hk
      · exact h
    exact insert_miss hke hash m D fuel hC hf p hD.2.1 hke' (he _ (Nat.mod_lt _ hC) hke')

theorem insert_cg_of_first_hit {key_equal : K → K → Bool}
    (hke : ∀ a b, key_equal a b = true ↔ a = b) (hash : K → Nat) (m : view K V) (t : Nat)
    (p : K × V) (D fuel : Nat) (ht : 1 ≤ t) (hb : index_fits m t)
    (hrk : rank_fits m hash t p.1)
    (hp : probe_inv hash m) (he : empty_inv m) (hne : p.1 ≠ m.empty_key_sentinel_)
    (hD : first_hit hash m p.1 D) (hf : D / t < fuel) :
    insert_cg hash key_equal t fuel m p = some (insert_outcome hash m p D) := by
  have hC : 0 < m.capacity_ := by have := hD.1; omega
  unfold insert_outcome
  split
  · next hk => exact insert_cg_hit hke hash m t D fuel hC ht hf hb p hrk hD.2.1 hk
  · next hk =>
    have hke' : (m.slots_ ((hash p.1 + D) % m.capacity_)).1 = m.empty_key_sentinel_ := by
      rcases first_hit_key hash m p.1 D hD with h | h
      · exact absurd h hk
      · exact h
    have habs : ∀ i, i < m.capacity_ → (m.slots_ i).1 ≠ p.1 := by
      intro i hi hki
      exact hk (first_hit_occurs hash m hp p.1 hne D hD ⟨i, hi, hki⟩)
    exact insert_cg_miss hke hash m t D fuel hC ht hf hb p hrk hD.2.1 hke'
      (he _ (Nat.mod_lt _ hC) hke') habs hne

theorem insert_short {key_equal : K → K → Bool} (hke : ∀ a b, key_equal a b = true ↔ a = b)
    (hash : K → Nat) (m : view K V) (p : K × V) (fuel : Nat) (hC : 0 < m.capacity_)
    (ho : ∀ d, d < fuel → other_key m p.1 ((hash p.1 + d) % m.capacity_)) :
    insert hash key_equal fuel m p = none := by
  unfold insert initial_slot
  rw [insert_loop_skip hke p m fuel fuel _ (Nat.le_refl _) (Nat.mod_lt _ hC)
    (fun d hd => by rw [Nat.mod_add_mod]; exact ho d hd), Nat.sub_self]
  rfl

theorem insert_cg_short {key_equal : K → K → Bool}
    (hke : ∀ a b, key_equal a b = true ↔ a = b)
    (hash : K → Nat) (m : view K V) (t : Nat) (p : K × V) (fuel : Nat) (hC : 0 < m.capacity_)
    (hb : index_fits m t)
    (hrk : rank_fits m hash t p.1)
    (ho : ∀ d, d < fuel * t → other_key m p.1 ((hash p.1 + d) % m.capacity_)) :
    insert_cg hash key_equal t fuel m p = none := by
  obtain ⟨cur', _, he⟩ := insert_cg_loop_skip hke t (hash p.1) p m hC hb fuel fuel 0 _
    (Nat.le_refl _) (lanes_at_initial m hash t p.1 hrk) (fun d hd => ho d (by omega))
  unfold insert_cg
  rw [he, Nat.sub_self]
  rfl

/-- A single-lane insert that returns has met the first hit of the key. -/
theorem insert_some {key_equal : K → K → Bool} (hke : ∀ a b, key_equal a b = true ↔ a = b)
    (hash : K → Nat) (m : view K V) (p : K × V) (fuel : Nat) (x : (Nat × Bool) × view K V)
    (hC : 0 < m.capacity_) (he : empty_inv m) (hne : p.1 ≠ m.empty_key_sentinel_)
    (h : insert hash key_equal fuel m p = some x) :
    ∃ D, first_hit hash m p.1 D ∧ D < fuel ∧ x = insert_outcome hash m p D := by
  rcases first_hit_or_full hash m p.1 with ⟨D, hD⟩ | hfull
  · by_cases hf : D < fuel
    · rw [insert_of_first_hit hke hash m p D fuel he hne hD hf] at h
      exact ⟨D, hD, hf, (Option.some.inj h).symm⟩
    · rw [insert_short hke hash m p fuel hC (fun d hd => hD.2.1 d (by omega))] at h
      cases h
  · rw [insert_short hke hash m p fuel hC (fun d _ => hfull _ (Nat.mod_lt _ hC))] at h
    cases h

/-- A tile insert that returns has met the first hit of the key. -/
theorem insert_cg_some {key_equal : K → K → Bool} (hke : ∀ a b, key_equal a b = true ↔ a = b)
    (hash : K → Nat) (m : view K V) (t : Nat) (p : K × V) (fuel : Nat)
    (x : (Nat × Bool) × view K V) (hC : 0 < m.capacity_) (ht : 1 ≤ t)
    (hb : index_fits m t)
    (hrk : rank_fits m hash t p.1) (hp : probe_inv hash m) (he : empty_inv m)
    (hne : p.1 ≠ m.empty_key_sentinel_)
    (h : insert_cg hash key_equal t fuel m p = some x) :
    ∃ D, first_hit hash m p.1 D ∧ D / t < fuel ∧ x = insert_outcome hash m p D := by
  rcases first_hit_or_full hash m p.1 with ⟨D, hD⟩ | hfull
  · by_cases hf : D / t < fuel
    · rw [insert_cg_of_first_hit hke hash m t p D fuel ht hb hrk hp he hne hD hf] at h
      exact ⟨D, hD, hf, (Option.some.inj h).symm⟩
    · have hle : fuel * t ≤ D := by
        have h1 : fuel ≤ D / t := by omega
        calc fuel * t ≤ D / t * t := Nat.mul_le_mul_right t h1
          _ ≤ D := Nat.div_mul_le_self D t
      rw [insert_cg_short hke hash m t p fuel hC hb hrk (fun d hd => hD.2.1 d (by omega))] at h
      cases h
  · rw [insert_cg_short hke hash m t p fuel hC hb hrk (fun d _ => hfull _ (Nat.mod_lt _ hC))] at h
    cases h

/-! ### The invariant -/

theorem other_key_fill (m : view K V) (s : Nat) (p : K × V) (k : K) (j : Nat)
    (hs : (m.slots_ s).1 = m.empty_key_sentinel_) (h : other_key m k j) :
    other_key (fill m s p) k j := by
  have hjs : j ≠ s := by
    intro hj
    rw [hj] at h
    exact h.2 hs
  unfold other_key
  simp only [fill_slots, if_neg hjs, fill_empty_key]
  exact h

theorem table_inv_fill (hash : K → Nat) (m : view K V) (p : K × V) (D : Nat)
    (hi : table_inv hash m) (hne : p.1 ≠ m.empty_key_sentinel_)
    (ho : ∀ d, d < D → other_key m p.1 ((hash p.1 + d) % m.capacity_)) (hD : D < m.capacity_)
    (hs : (m.slots_ ((hash p.1 + D) % m.capacity_)).1 = m.empty_key_sentinel_) :
    table_inv hash (fill m ((hash p.1 + D) % m.capacity_) p) := by
  obtain ⟨hC, hp, he⟩ := hi
  refine ⟨hC, ?_, ?_⟩
  · intro i hic hk
    simp only [fill_capacity, fill_slots, fill_empty_key] at hic hk ⊢
    by_cases his : i = (hash p.1 + D) % m.capacity_
    · simp only [if_pos his] at hk ⊢
      exact ⟨D, hD, his.symm, fun e hed => other_key_fill m _ p _ _ hs (ho e hed)⟩
    · simp only [if_neg his] at hk ⊢
      obtain ⟨d, hd, hpd, hod⟩ := hp i hic hk
      exact ⟨d, hd, hpd, fun e hed => other_key_fill m _ p _ _ hs (hod e hed)⟩
  · intro i hic hk
    simp only [fill_capacity, fill_slots, fill_empty_key, fill_empty_value] at hic hk ⊢
    by_cases his : i = (hash p.1 + D) % m.capacity_
    · simp only [if_pos his] at hk
      exact absurd hk hne
    · simp only [if_neg his] at hk ⊢
      exact he i hic hk

theorem table_inv_outcome (hash : K → Nat) (m : view K V) (p : K × V) (D : Nat)
    (hi : table_inv hash m) (hne : p.1 ≠ m.empty_key_sentinel_) (hD : first_hit hash m p.1 D) :
    table_inv hash (insert_outcome hash m p D).2 := by
  unfold insert_outcome
  split
  · exact hi
  · next hk =>
    rcases first_hit_key hash m p.1 D hD with h | h
    · exact absurd h hk
    · exact table_inv_fill hash m p D hi hne hD.2.1 hD.1 h

theorem insert_outcome_fields (hash : K → Nat) (m : view K V) (p : K × V) (D : Nat) :
    (insert_outcome hash m p D).2.capacity_ = m.capacity_ ∧
      (insert_outcome hash m p D).2.empty_key_sentinel_ = m.empty_key_sentinel_ ∧
      (insert_outcome hash m p D).2.empty_value_sentinel_ = m.empty_value_sentinel_ := by
  unfold insert_outcome
  split <;> simp

theorem table_inv_construct (hash : K → Nat) (capacity : Nat) (ek : K) (ev : V)
    (hC : 1 ≤ capacity) : table_inv hash (static_map.construct capacity ek ev).dev := by
  refine ⟨hC, ?_, ?_⟩
  · intro i _ hk
    exact absurd rfl hk
  · intro i _ _
    rfl

/-- Every slot store built by sequential inserts whose tile arithmetic is exact satisfies the
invariant. -/
theorem reachable_fit_inv {key_equal : K → K → Bool}
    (hke : ∀ a b, key_equal a b = true ↔ a = b)
    (hash : K → Nat) (m : view K V) (hr : reachable_fit hash key_equal m) :
    table_inv hash m := by
  induction hr with
  | construct capacity ek ev hC => exact table_inv_construct hash capacity ek ev hC
  | insert m m1 p fuel r _ hk _ hins ih =>
    obtain ⟨D, hD, _, hx⟩ := insert_some hke hash m p fuel (r, m1) ih.1 ih.2.2 hk hins
    have := table_inv_outcome hash m p D ih hk hD
    rw [← hx] at this
    exact this
  | insert_cg m m1 t p fuel r _ ht hb hrk hk _ hins ih =>
    obtain ⟨D, hD, _, hx⟩ := insert_cg_some hke hash m t p fuel (r, m1) ih.1 ht
      hb hrk ih.2.1 ih.2.2 hk hins
    have := table_inv_outcome hash m p D ih hk hD
    rw [← hx] at this
    exact this

/-! ### The tile contains on lanes that stand anywhere -/

/-- Every lane of the tile contains walks the table slot by slot, so a key that the table does
not hold is reported absent as soon as lane 0 reaches an empty slot, wherever the lanes
started. -/
theorem contains_cg_loop_absent {key_equal : K → K → Bool}
    (hke : ∀ a b, key_equal a b = true ↔ a = b) (t : Nat) (m : view K V) (k : K)
    (hC : 0 < m.capacity_) (ht : 1 ≤ t) (habs : ∀ i, i < m.capacity_ → (m.slots_ i).1 ≠ k) :
    ∀ (n : Nat) (cur : Nat → Nat) (fuel : Nat), (∀ r, r < t → cur r < m.capacity_) →
      (m.slots_ ((cur 0 + n) % m.capacity_)).1 = m.empty_key_sentinel_ → n < fuel →
      contains_cg_loop key_equal t m k fuel cur = some false := by
  intro n
  induction n with
  | zero =>
    intro cur fuel hcur he hf
    obtain ⟨f, rfl⟩ : ∃ f, fuel = f + 1 := ⟨fuel - 1, by omega⟩
    rw [Nat.add_zero, Nat.mod_eq_of_lt (hcur 0 (by omega))] at he
    exact contains_cg_step_miss hke t m k f cur 0 (by omega) he (fun r hr => habs _ (hcur r hr))
  | succ n ih =>
    intro cur fuel hcur he hf
    obtain ⟨f, rfl⟩ : ∃ f, fuel = f + 1 := ⟨fuel - 1, by omega⟩
    by_cases hex : ∃ r, r < t ∧ (m.slots_ (cur r)).1 = m.empty_key_sentinel_
    · obtain ⟨r, hr, hk⟩ := hex
      exact contains_cg_step_miss hke t m k f cur r hr hk (fun r hr => habs _ (hcur r hr))
    · rw [contains_cg_step_other hke t m k f cur
        (fun r hr => ⟨habs _ (hcur r hr), fun h => hex ⟨r, hr, h⟩⟩)]
      apply ih _ f (fun r hr => next_slot_lt m _ hC)
      · rw [next_slot_eq m _ (hcur 0 (by omega)), probe_succ]
        exact he
      · omega

/-- In a table without empty slots the tile contains reports a stored key as soon as lane 0
reaches it, wherever the lanes started. -/
theorem contains_cg_loop_full {key_equal : K → K → Bool}
    (hke : ∀ a b, key_equal a b = true ↔ a = b) (t : Nat) (m : view K V) (k : K)
    (hC : 0 < m.capacity_) (ht : 1 ≤ t)
    (hfull : ∀ i, i < m.capacity_ → (m.slots_ i).1 ≠ m.empty_key_sentinel_) :
    ∀ (n : Nat) (cur : Nat → Nat) (fuel : Nat), (∀ r, r < t → cur r < m.capacity_) →
      (m.slots_ ((cur 0 + n) % m.capacity_)).1 = k → n < fuel →
      contains_cg_loop key_equal t m k fuel cur = some true := by
  intro n
  induction n with
  | zero =>
    intro cur fuel hcur he hf
    obtain ⟨f, rfl⟩ : ∃ f, fuel = f + 1 := ⟨fuel - 1, by omega⟩
    rw [Nat.add_zero, Nat.mod_eq_of_lt (hcur 0 (by omega))] at he
    exact contains_cg_step_hit hke t m k f cur 0 (by omega) he
  | succ n ih =>
    intro cur fuel hcur he hf
    obtain ⟨f, rfl⟩ : ∃ f, fuel = f + 1 := ⟨fuel - 1, by omega⟩
    by_cases hex : ∃ r, r < t ∧ (m.slots_ (cur r)).1 = k
    · obtain ⟨r, hr, hk⟩ := hex
      exact contains_cg_step_hit hke t m k f cur r hr hk
    · rw [contains_cg_step_other hke t m k f cur
        (fun r hr => ⟨fun h => hex ⟨r, hr, h⟩, hfull _ (hcur r hr)⟩)]
      apply ih _ f (fun r hr => next_slot_lt m _ hC)
      · rw [next_slot_eq m _ (hcur 0 (by omega)), probe_succ]
        exact he
      · omega

theorem initial_slot_cg_lt (m : view K V) (hash : K → Nat) (r : Nat) (k : K)
    (hC : 0 < m.capacity_) : initial_slot_cg m hash r k < m.capacity_ :=
  Nat.mod_lt _ hC

/-- The tile contains of a key that the table does not hold returns false when the table has
an empty slot, for every tile size and every hash value. -/
theorem contains_cg_absent {key_equal : K → K → Bool}
    (hke : ∀ a b, key_equal a b = true ↔ a = b) (hash : K → Nat) (m : view K V) (t : Nat)
    (k : K) (ht : 1 ≤ t) (hem : has_empty m) (habs : ¬ occurs m k) (fuel : Nat)
    (hf : m.capacity_ ≤ fuel) :
    contains_cg hash key_equal t fuel m k = some false := by
  obtain ⟨e, he, hk⟩ := hem
  have hC : 0 < m.capacity_ := by omega
  obtain ⟨d, hd, hde⟩ := probe_surj m.capacity_ (initial_slot_cg m hash 0 k) e he
  unfold contains_cg
  exact contains_cg_loop_absent hke t m k hC ht (fun i hi h => habs ⟨i, hi, h⟩) d _ fuel
    (fun r _ => initial_slot_cg_lt m hash r k hC) (by rw [hde]; exact hk) (by omega)

/-- The tile contains of a stored key returns true when the table has no empty slot, for every
tile size and every hash value. -/
theorem contains_cg_full {key_equal : K → K → Bool}
    (hke : ∀ a b, key_equal a b = true ↔ a = b) (hash : K → Nat) (m : view K V) (t : Nat)
    (ht : 1 ≤ t) (hfull : ∀ i, i < m.capacity_ → (m.slots_ i).1 ≠ m.empty_key_sentinel_)
    (i : Nat) (hi : i < m.capacity_) (fuel : Nat) (hf : m.capacity_ ≤ fuel) :
    contains_cg hash key_equal t fuel m (m.slots_ i).1 = some true := by
  have hC : 0 < m.capacity_ := by omega
  obtain ⟨d, hd, hde⟩ := probe_surj m.capacity_ (initial_slot_cg m hash 0 (m.slots_ i).1) i hi
  unfold contains_cg
  exact contains_cg_loop_full hke t m _ hC ht hfull d _ fuel
    (fun r _ => initial_slot_cg_lt m hash r _ hC) (by rw [hde]) (by omega)

/-! ### Lookups of a stored key and of an absent key -/

theorem lookup_present {key_equal : K → K → Bool} (hke : ∀ a b, key_equal a b = true ↔ a = b)
    (hash : K → Nat) (m : view K V) (hi : table_inv hash m) (i : Nat) (hic : i < m.capacity_)
    (hne : (m.slots_ i).1 ≠ m.empty_key_sentinel_) (fuel : Nat) (hf : m.capacity_ ≤ fuel) :
    find hash key_equal fuel m (m.slots_ i).1 = some i ∧
      contains hash key_equal fuel m (m.slots_ i).1 = some true ∧
      ∀ t, 1 ≤ t → rank_fits m hash t (m.slots_ i).1 →
        contains_cg hash key_equal t fuel m (m.slots_ i).1 = some true ∧
        (index_fits m t → find_cg hash key_equal t fuel m (m.slots_ i).1 = some i) := by
  obtain ⟨D, hD, hDi⟩ := first_hit_of_occurs hash m hi.2.1 i hic hne
  have hk : (m.slots_ ((hash (m.slots_ i).1 + D) % m.capacity_)).1 = (m.slots_ i).1 := by
    rw [hDi]
  have hDf : D < fuel := lt_of_lt_of_le hD.1 hf
  refine ⟨?_, ?_, ?_⟩
  · have := find_hit hke hash m D fuel hi.1 hDf _ hD.2.1 hk
    rw [hDi] at this
    exact this
  · exact contains_hit hke hash m D fuel hi.1 hDf _ hD.2.1 hk
  · intro t ht hrk
    refine ⟨contains_cg_hit hke hash m t D fuel hi.1 ht (by omega) _ hrk hD.2.1 hk, ?_⟩
    intro hb
    have hdt : D / t ≤ D := Nat.div_le_self D t
    have := find_cg_hit hke hash m t D fuel hi.1 ht (by omega) hb _ hrk hD.2.1 hk
    rw [hDi] at this
    exact this

theorem first_hit_of_has_empty (hash : K → Nat) (m : view K V) (k : K) (h : has_empty m) :
    ∃ D, first_hit hash m k D := by
  rcases first_hit_or_full hash m k with hD | hfull
  · exact hD
  · obtain ⟨i, hi, hk⟩ := h
    exact absurd hk (hfull i hi).2

theorem lookup_absent {key_equal : K → K → Bool} (hke : ∀ a b, key_equal a b = true ↔ a = b)
    (hash : K → Nat) (m : view K V) (k : K) (hem : has_empty m) (habs : ¬ occurs m k)
    (hne : k ≠ m.empty_key_sentinel_) (fuel : Nat) (hf : m.capacity_ ≤ fuel) :
    find hash key_equal fuel m k = some m.end_ ∧
      contains hash key_equal fuel m k = some false ∧
      ∀ t, 1 ≤ t → contains_cg hash key_equal t fuel m k = some false ∧
        (index_fits m t → rank_fits m hash t k →
          find_cg hash key_equal t fuel m k = some m.end_) := by
  obtain ⟨D, hD⟩ := first_hit_of_has_empty hash m k hem
  have hC : 0 < m.capacity_ := by have := hD.1; omega
  have hk := (first_hit_absent hash m k D hD habs).1
  have hDf : D < fuel := lt_of_lt_of_le hD.1 hf
  have hno : ∀ i, i < m.capacity_ → (m.slots_ i).1 ≠ k := fun i hi h => habs ⟨i, hi, h⟩
  refine ⟨find_miss hke hash m D fuel hC hDf k hD.2.1 hk hne,
    contains_miss hke hash m D fuel hC hDf k hD.2.1 hk hne, ?_⟩
  intro t ht
  refine ⟨contains_cg_absent hke hash m t k ht hem habs fuel hf, ?_⟩
  intro hb hrk
  have hdt : D / t ≤ D := Nat.div_le_self D t
  exact find_cg_miss hke hash m t D fuel hC ht (by omega) hb k hrk hD.2.1 hk hno

/-! ### Counting occupied slots -/

theorem countP_change (f g : Nat → Bool) (s : Nat) (hfs : f s = false) (hgs : g s = true)
    (hother : ∀ j, j ≠ s → g j = f j) :
    ∀ l : List Nat, l.Nodup →
      l.countP g = l.countP f + (if s ∈ l then 1 else 0) := by
  intro l
  induction l with
  | nil => intro _; simp
  | cons a l ih =>
    intro hnd
    rw [List.nodup_cons] at hnd
    have ih' := ih hnd.2
    by_cases has : a = s
    · subst has
      have hnot : ¬ a ∈ l := hnd.1
      simp only [hnot, if_false, Nat.add_zero] at ih'
      simp [List.countP_cons, hfs, hgs, ih']
    · have hsa : ¬ s = a := fun h => has h.symm
      simp only [List.countP_cons, hother a has, ih', List.mem_cons, hsa, false_or]
      omega

theorem occupied_fill (m : view K V) (s : Nat) (p : K × V) (hs : s < m.capacity_)
    (hk : (m.slots_ s).1 = m.empty_key_sentinel_) (hne : p.1 ≠ m.empty_key_sentinel_) :
    occupied (fill m s p) = occupied m + 1 := by
  unfold occupied
  simp only [fill_capacity, fill_slots, fill_empty_key]
  rw [countP_change (fun i => decide ((m.slots_ i).1 ≠ m.empty_key_sentinel_))
    (fun i => decide ((if i = s then p else m.slots_ i).1 ≠ m.empty_key_sentinel_)) s
    (by simp [hk]) (by simp [hne]) (fun j hj => by simp [hj]) _ (List.nodup_range _)]
  simp [hs]

theorem occupied_le (m : view K V) : occupied m ≤ m.capacity_ := by
  unfold occupied
  have := List.countP_le_length
    (fun i => decide ((m.slots_ i).1 ≠ m.empty_key_sentinel_)) (l := List.range m.capacity_)
  simpa using this

theorem has_empty_of_occupied_lt (m : view K V) (h : occupied m < m.capacity_) :
    has_empty m := by
  by_contra hne
  have hall : ∀ i ∈ List.range m.capacity_,
      (fun i => decide ((m.slots_ i).1 ≠ m.empty_key_sentinel_)) i = true := by
    intro i hi
    rw [List.mem_range] at hi
    simp only [decide_eq_true_eq]
    intro hk
    exact hne ⟨i, hi, hk⟩
  have := List.countP_eq_length.2 hall
  unfold occupied at h
  rw [this, List.length_range] at h
  exact Nat.lt_irrefl _ h

theorem occupied_construct (capacity : Nat) (ek : K) (ev : V) :
    occupied (static_map.construct capacity ek ev).dev = 0 := by
  unfold occupied
  simp [static_map.construct]

/-! ### Batches of fresh keys -/

theorem insert_outcome_absent (hash : K → Nat) (m : view K V) (p : K × V) (D : Nat)
    (hD : first_hit hash m p.1 D) (habs : ¬ occurs m p.1) :
    insert_outcome hash m p D
      = (((hash p.1 + D) % m.capacity_, true), fill m ((hash p.1 + D) % m.capacity_) p) := by
  unfold insert_outcome
  rw [if_neg (first_hit_absent hash m p.1 D hD habs).2]

theorem insert_outcome_present (hash : K → Nat) (m : view K V) (p : K × V) (D : Nat)
    (hp : probe_inv hash m) (hne : p.1 ≠ m.empty_key_sentinel_)
    (hD : first_hit hash m p.1 D) (hocc : occurs m p.1) :
    insert_outcome hash m p D = (((hash p.1 + D) % m.capacity_, false), m) := by
  unfold insert_outcome
  rw [if_pos (first_hit_occurs hash m hp p.1 hne D hD hocc)]

/-- The single-lane insert with fuel for one sweep of the table meets the first hit. -/
theorem insert_good {key_equal : K → K → Bool} (hke : ∀ a b, key_equal a b = true ↔ a = b)
    (hash : K → Nat) (fuel : Nat) (m : view K V) (p : K × V) (D : Nat)
    (hf : m.capacity_ ≤ fuel) (hi : table_inv hash m) (hne : p.1 ≠ m.empty_key_sentinel_)
    (hD : first_hit hash m p.1 D) :
    insert hash key_equal fuel m p = some (insert_outcome hash m p D) :=
  insert_of_first_hit hke hash m p D fuel hi.2.2 hne hD (lt_of_lt_of_le hD.1 hf)

/-- The tile insert with fuel for one sweep of the table meets the first hit, as long as the
32-bit index arithmetic does not wrap. -/
theorem insert_cg_good {key_equal : K → K → Bool} (hke : ∀ a b, key_equal a b = true ↔ a = b)
    (hash : K → Nat) (t fuel : Nat) (m : view K V) (p : K × V) (D : Nat) (ht : 1 ≤ t)
    (hb : index_fits m t)
    (hrk : rank_fits m hash t p.1)
    (hf : m.capacity_ ≤ fuel) (hi : table_inv hash m) (hne : p.1 ≠ m.empty_key_sentinel_)
    (hD : first_hit hash m p.1 D) :
    insert_cg hash key_equal t fuel m p = some (insert_outcome hash m p D) :=
  insert_cg_of_first_hit hke hash m t p D fuel ht hb hrk hi.2.1 hi.2.2 hne hD
    (lt_of_le_of_lt (Nat.div_le_self D t) (lt_of_lt_of_le hD.1 hf))

theorem insert_each_fresh (hash : K → Nat) (C : Nat) (ok : K → Prop)
    (ins : view K V → K × V → Option ((Nat × Bool) × view K V))
    (hins : ∀ (m : view K V) (p : K × V) (D : Nat), ok p.1 → m.capacity_ = C →
      table_inv hash m →
      p.1 ≠ m.empty_key_sentinel_ → first_hit hash m p.1 D →
      ins m p = some (insert_outcome hash m p D)) :
    ∀ (pairs : List (K × V)) (m : view K V), m.capacity_ = C → table_inv hash m →
      (pairs.map Prod.fst).Nodup → (∀ p ∈ pairs, p.1 ≠ m.empty_key_sentinel_) →
      (∀ p ∈ pairs, ¬ occurs m p.1) → occupied m + pairs.length ≤ C →
      (∀ p ∈ pairs, ok p.1) →
      ∃ rs m1, insert_each ins pairs m = some (rs, m1) ∧ rs.length = pairs.length ∧
        (∀ r ∈ rs, r.2 = true) ∧ table_inv hash m1 ∧ m1.capacity_ = C ∧
        m1.empty_key_sentinel_ = m.empty_key_sentinel_ ∧
        m1.empty_value_sentinel_ = m.empty_value_sentinel_ ∧
        occupied m1 = occupied m + pairs.length ∧
        (∀ p ∈ pairs, ∃ s, s < C ∧ m1.slots_ s = p) ∧
        (∀ i, i < C → (m.slots_ i).1 ≠ m.empty_key_sentinel_ → m1.slots_ i = m.slots_ i) := by
  intro pairs
  induction pairs with
  | nil =>
    intro m hc hi _ _ _ _ _
    exact ⟨[], m, rfl, rfl, by simp, hi, hc, rfl, rfl, by simp, by simp, fun _ _ _ => rfl⟩
  | cons p rest ih =>
    intro m hc hi hnd hne habs hocc hok
    simp only [List.map_cons, List.nodup_cons, List.length_cons] at hnd hocc
    have hpne : p.1 ≠ m.empty_key_sentinel_ := hne p (List.mem_cons_self _ _)
    have hpabs : ¬ occurs m p.1 := habs p (List.mem_cons_self _ _)
    have hem : has_empty m := has_empty_of_occupied_lt m (by omega)
    obtain ⟨D, hD⟩ := first_hit_of_has_empty hash m p.1 hem
    have hs : (hash p.1 + D) % m.capacity_ < m.capacity_ := Nat.mod_lt _ hi.1
    have hk := (first_hit_absent hash m p.1 D hD hpabs).1
    have hstep := hins m p D (hok p (List.mem_cons_self _ _)) hc hi hpne hD
    rw [insert_outcome_absent hash m p D hD hpabs] at hstep
    have hi1 := table_inv_fill hash m p D hi hpne hD.2.1 hD.1 hk
    obtain ⟨rs, m2, hrun, hlen, htrue, hi2, hc2, hek2, hev2, hocc2, hin2, hkeep2⟩ :=
      ih (fill m ((hash p.1 + D) % m.capacity_) p) (by simpa using hc) hi1 hnd.2
        (fun q hq => by simpa using hne q (List.mem_cons_of_mem _ hq))
        (fun q hq hoc => by
          obtain ⟨i, hic, hki⟩ := hoc
          simp only [fill_capacity, fill_slots] at hic hki
          by_cases his : i = (hash p.1 + D) % m.capacity_
          · rw [if_pos his] at hki
            exact hnd.1 (by rw [hki]; exact List.mem_map_of_mem _ hq)
          · rw [if_neg his] at hki
            exact habs q (List.mem_cons_of_mem _ hq) ⟨i, hic, hki⟩)
        (by rw [occupied_fill m _ p hs hk hpne]; omega)
        (fun q hq => hok q (List.mem_cons_of_mem _ hq))
    refine ⟨(((hash p.1 + D) % m.capacity_, true)) :: rs, m2, ?_, by simp [hlen], ?_, hi2, hc2,
      by simpa using hek2, by simpa using hev2, ?_, ?_, ?_⟩
    · simp only [insert_each, hstep, hrun]
    · intro r hr
      rcases List.mem_cons.1 hr with h | h
      · rw [h]
      · exact htrue r h
    · rw [hocc2, occupied_fill m _ p hs hk hpne, List.length_cons]; omega
    · intro q hq
      rcases List.mem_cons.1 hq with h | h
      · refine ⟨(hash p.1 + D) % m.capacity_, by rw [← hc]; exact hs, ?_⟩
        rw [hkeep2 _ (by rw [← hc]; exact hs) (by simpa using hpne), h]
        simp
      · exact hin2 q h
    · intro i hic hki
      have his : i ≠ (hash p.1 + D) % m.capacity_ := by
        intro h
        rw [h] at hki
        exact hki hk
      rw [hkeep2 i hic (by simpa [his] using hki)]
      simp [his]

theorem int_equal_iff : ∀ a b : Int, int_equal a b = true ↔ a = b := by
  intro a b
  simp [int_equal]

theorem nat_equal_iff : ∀ a b : Nat, nat_equal a b = true ↔ a = b := by
  intro a b
  simp [nat_equal]

theorem empty_inv_fill (m : view K V) (s : Nat) (p : K × V) (he : empty_inv m)
    (hne : p.1 ≠ m.empty_key_sentinel_) : empty_inv (fill m s p) := by
  intro i hic hk
  simp only [fill_capacity, fill_slots, fill_empty_key, fill_empty_value] at hic hk ⊢
  by_cases his : i = s
  · simp only [if_pos his] at hk
    exact absurd hk hne
  · simp only [if_neg his] at hk ⊢
    exact he i hic hk

/-- Every slot store built by sequential inserts has a positive capacity and empty slots that
hold the value sentinel, whatever the capacity and the tile sizes. -/
theorem reachable_empty_inv {key_equal : K → K → Bool}
    (hke : ∀ a b, key_equal a b = true ↔ a = b)
    (hash : K → Nat) (tmax : Nat) (m : view K V) (hr : reachable hash key_equal tmax m) :
    0 < m.capacity_ ∧ empty_inv m := by
  induction hr with
  | construct capacity ek ev hC => exact ⟨hC, fun _ _ _ => rfl⟩
  | insert m m1 p fuel r _ hk _ hins ih =>
    rcases insert_loop_some key_equal p m fuel _ r m1 hins with h | h
    · rw [h.2.1]; exact ih
    · rw [h.2.2.2]; exact ⟨ih.1, empty_inv_fill m _ p ih.2 hk⟩
  | insert_cg m m1 t p fuel r _ ht htm hk _ hins ih =>
    rcases insert_cg_loop_some hke t p fuel m _ r m1 hins with h | h
    · rw [h.2.1]; exact ih
    · rw [h.2.2.2]; exact ⟨ih.1, empty_inv_fill m _ p ih.2 hk⟩

theorem not_occurs_construct (capacity : Nat) (ek : K) (ev : V) (k : K) (hk : k ≠ ek) :
    ¬ occurs (static_map.construct capacity ek ev).dev k := by
  rintro ⟨i, _, h⟩
  exact hk h.symm

theorem occupied_lt_of_has_empty (m : view K V) (h : has_empty m) :
    occupied m < m.capacity_ := by
  obtain ⟨i, hi, hk⟩ := h
  have hle := occupied_le m
  rcases Nat.lt_or_ge (occupied m) m.capacity_ with hlt | hge
  · exact hlt
  · exfalso
    have heq : occupied m = (List.range m.capacity_).length := by
      rw [List.length_range]; omega
    unfold occupied at heq
    have hall := List.countP_eq_length.1 heq i (List.mem_range.2 hi)
    simp only [decide_eq_true_eq] at hall
    exact hall hk

theorem insert_each_cons (ins : view K V → K × V → Option ((Nat × Bool) × view K V))
    (p : K × V) (rest : List (K × V)) (m : view K V) :
    insert_each ins (p :: rest) m =
      match ins m p with
      | none => none
      | some (r, m1) =>
        match insert_each ins rest m1 with
        | none => none
        | some (rs, m2) => some (r :: rs, m2) := rfl

theorem insert_each_append (ins : view K V → K × V → Option ((Nat × Bool) × view K V)) :
    ∀ (l1 l2 : List (K × V)) (m : view K V),
      insert_each ins (l1 ++ l2) m =
        match insert_each ins l1 m with
        | none => none
        | some (rs1, m1) =>
          match insert_each ins l2 m1 with
          | none => none
          | some (rs2, m2) => some (rs1 ++ rs2, m2) := by
  intro l1
  induction l1 with
  | nil =>
    intro l2 m
    rw [List.nil_append]
    show _ = match some (([] : List (Nat × Bool)), m) with
      | none => none
      | some (rs1, m1) =>
        match insert_each ins l2 m1 with
        | none => none
        | some (rs2, m2) => some (rs1 ++ rs2, m2)
    simp only [List.nil_append]
    cases insert_each ins l2 m with
    | none => rfl
    | some x => rfl
  | cons p rest ih =>
    intro l2 m
    rw [List.cons_append, insert_each_cons, insert_each_cons]
    cases ins m p with
    | none => rfl
    | some x =>
      obtain ⟨r, m1⟩ := x
      simp only
      rw [ih l2 m1]
      cases insert_each ins rest m1 with
      | none => rfl
      | some y =>
        obtain ⟨rs1, m2⟩ := y
        simp only
        cases insert_each ins l2 m2 with
        | none => rfl
        | some z => rfl

/-- The fresh pairs of a batch are all inserted into the all-sentinel store, by an insert that
meets the first hit, and the store keeps the invariant. -/
theorem fill_and_find (hash : K → Nat) (capacity : Nat) (ek : K) (ev : V) (ok : K → Prop)
    (ins : view K V → K × V → Option ((Nat × Bool) × view K V))
    (hins : ∀ (m : view K V) (p : K × V) (D : Nat), ok p.1 → m.capacity_ = capacity →
      table_inv hash m → p.1 ≠ m.empty_key_sentinel_ → first_hit hash m p.1 D →
      ins m p = some (insert_outcome hash m p D))
    (pairs : List (K × V)) (hC : 1 ≤ capacity) (hlen : pairs.length ≤ capacity)
    (hnd : (pairs.map Prod.fst).Nodup) (hne : ∀ p ∈ pairs, p.1 ≠ ek)
    (hok : ∀ p ∈ pairs, ok p.1) :
    ∃ rs m1, insert_each ins pairs (static_map.construct capacity ek ev).dev = some (rs, m1) ∧
      rs.length = pairs.length ∧ (∀ r ∈ rs, r.2 = true) ∧ m1.capacity_ = capacity ∧
      m1.empty_key_sentinel_ = ek ∧ occupied m1 = pairs.length ∧ table_inv hash m1 ∧
      ∀ p ∈ pairs, ∃ s, s < capacity ∧ m1.slots_ s = p := by
  obtain ⟨rs, m1, hrun, hl, htrue, hi1, hc1, hek1, _, hocc, hin, _⟩ :=
    insert_each_fresh hash capacity ok ins hins
      pairs (static_map.construct capacity ek ev).dev rfl
      (table_inv_construct hash capacity ek ev hC) hnd hne
      (fun p hp => not_occurs_construct capacity ek ev p.1 (hne p hp))
      (by rw [occupied_construct]; omega) hok
  exact ⟨rs, m1, hrun, hl, htrue, hc1, hek1, by rw [hocc, occupied_construct]; omega, hi1, hin⟩

theorem duplicates_congr (m m1 : view K V) :
    ∀ (batch : List (K × V)) (seen seen1 : List K),
      (∀ p ∈ batch, (p.1 ∈ seen ∨ occurs m p.1) ↔ (p.1 ∈ seen1 ∨ occurs m1 p.1)) →
      duplicates m seen batch = duplicates m1 seen1 batch := by
  intro batch
  induction batch with
  | nil => intro _ _ _; rfl
  | cons p rest ih =>
    intro seen seen1 h
    have hp := h p (List.mem_cons_self _ _)
    have hrest : duplicates m (p.1 :: seen) rest = duplicates m1 (p.1 :: seen1) rest := by
      apply ih
      intro q hq
      have hq' := h q (List.mem_cons_of_mem _ hq)
      simp only [List.mem_cons]
      constructor
      · rintro ((h1 | h1) | h1)
        · exact Or.inl (Or.inl h1)
        · rcases hq'.1 (Or.inl h1) with h2 | h2
          · exact Or.inl (Or.inr h2)
          · exact Or.inr h2
        · rcases hq'.1 (Or.inr h1) with h2 | h2
          · exact Or.inl (Or.inr h2)
          · exact Or.inr h2
      · rintro ((h1 | h1) | h1)
        · exact Or.inl (Or.inl h1)
        · rcases hq'.2 (Or.inl h1) with h2 | h2
          · exact Or.inl (Or.inr h2)
          · exact Or.inr h2
        · rcases hq'.2 (Or.inr h1) with h2 | h2
          · exact Or.inl (Or.inr h2)
          · exact Or.inr h2
    simp only [duplicates, hrest]
    congr 1
    by_cases hc : p.1 ∈ seen ∨ occurs m p.1
    · rw [if_pos hc, if_pos (hp.1 hc)]
    · rw [if_neg hc, if_neg (fun h1 => hc (hp.2 h1))]

theorem duplicates_le (m : view K V) :
    ∀ (batch : List (K × V)) (seen : List K), duplicates m seen batch ≤ batch.length := by
  intro batch
  induction batch with
  | nil => intro _; simp [duplicates]
  | cons p rest ih =>
    intro seen
    have := ih (p.1 :: seen)
    simp only [duplicates, List.length_cons]
    split <;> omega

theorem occurs_fill (m : view K V) (s : Nat) (p : K × V) (k : K) (hs : s < m.capacity_)
    (hk : (m.slots_ s).1 = m.empty_key_sentinel_) (hne : k ≠ m.empty_key_sentinel_) :
    occurs (fill m s p) k ↔ (k = p.1 ∨ occurs m k) := by
  constructor
  · rintro ⟨i, hi, hki⟩
    simp only [fill_capacity, fill_slots] at hi hki
    by_cases his : i = s
    · rw [if_pos his] at hki
      exact Or.inl hki.symm
    · rw [if_neg his] at hki
      exact Or.inr ⟨i, hi, hki⟩
  · rintro (h | ⟨i, hi, hki⟩)
    · exact ⟨s, hs, by simp [h]⟩
    · have his : i ≠ s := by
        intro h
        rw [h, hk] at hki
        exact hne hki.symm
      exact ⟨i, hi, by simp [his, hki]⟩

/-- A batch run by an insert that meets the first hit: as many calls return
`inserted = true` as the batch has entries whose key is new. -/
theorem insert_each_count (hash : K → Nat) (C : Nat) (ok : K → Prop)
    (ins : view K V → K × V → Option ((Nat × Bool) × view K V))
    (hins : ∀ (m : view K V) (p : K × V) (D : Nat), ok p.1 → m.capacity_ = C →
      table_inv hash m →
      p.1 ≠ m.empty_key_sentinel_ → first_hit hash m p.1 D →
      ins m p = some (insert_outcome hash m p D)) :
    ∀ (batch : List (K × V)) (m : view K V), m.capacity_ = C → table_inv hash m →
      (∀ p ∈ batch, p.1 ≠ m.empty_key_sentinel_) →
      occupied m + batch.length ≤ C + duplicates m [] batch →
      (∀ p ∈ batch, ok p.1) →
      ∃ rs m1, insert_each ins batch m = some (rs, m1) ∧ rs.length = batch.length ∧
        rs.countP (fun r => r.2) + duplicates m [] batch = batch.length := by
  intro batch
  induction batch with
  | nil =>
    intro m _ _ _ _ _
    exact ⟨[], m, rfl, rfl, by simp [duplicates]⟩
  | cons p rest ih =>
    intro m hc hi hne hcap hok
    have hpne : p.1 ≠ m.empty_key_sentinel_ := hne p (List.mem_cons_self _ _)
    by_cases hocc : occurs m p.1
    · obtain ⟨i, hic, hki⟩ := hocc
      obtain ⟨D, hD, hDi⟩ := first_hit_of_occurs hash m hi.2.1 i hic (by rw [hki]; exact hpne)
      rw [hki] at hD hDi
      have hstep := hins m p D (hok p (List.mem_cons_self _ _)) hc hi hpne hD
      rw [insert_outcome_present hash m p D hi.2.1 hpne hD ⟨i, hic, hki⟩] at hstep
      have hdup : duplicates m [p.1] rest = duplicates m [] rest := by
        apply duplicates_congr
        intro q _
        simp only [List.mem_singleton, List.not_mem_nil, false_or]
        constructor
        · rintro (h | h)
          · rw [h]; exact ⟨i, hic, hki⟩
          · exact h
        · exact fun h => Or.inr h
      have hd : duplicates m [] (p :: rest) = 1 + duplicates m [] rest := by
        simp only [duplicates, hdup]
        rw [if_pos (Or.inr ⟨i, hic, hki⟩)]
      rw [hd, List.length_cons] at hcap
      obtain ⟨rs, m1, hrun, hl, hcount⟩ := ih m hc hi
        (fun q hq => hne q (List.mem_cons_of_mem _ hq)) (by omega)
        (fun q hq => hok q (List.mem_cons_of_mem _ hq))
      refine ⟨((hash p.1 + D) % m.capacity_, false) :: rs, m1, ?_, by simp [hl], ?_⟩
      · rw [insert_each_cons, hstep]
        simp only [hrun]
      · rw [hd, List.length_cons]
        simp only [List.countP_cons, Bool.false_eq_true, if_false]
        omega
    · have hd : duplicates m [] (p :: rest) = duplicates m [p.1] rest := by
        simp only [duplicates]
        rw [if_neg (by simp [hocc])]
        omega
      have hle := duplicates_le m rest [p.1]
      rw [hd, List.length_cons] at hcap
      have hem : has_empty m := has_empty_of_occupied_lt m (by omega)
      obtain ⟨D, hD⟩ := first_hit_of_has_empty hash m p.1 hem
      have hs : (hash p.1 + D) % m.capacity_ < m.capacity_ := Nat.mod_lt _ hi.1
      have hk := (first_hit_absent hash m p.1 D hD hocc).1
      have hstep := hins m p D (hok p (List.mem_cons_self _ _)) hc hi hpne hD
      rw [insert_outcome_absent hash m p D hD hocc] at hstep
      have hi1 := table_inv_fill hash m p D hi hpne hD.2.1 hD.1 hk
      have hdup : duplicates m [p.1] rest
          = duplicates (fill m ((hash p.1 + D) % m.capacity_) p) [] rest := by
        apply duplicates_congr
        intro q hq
        rw [occurs_fill m _ p q.1 hs hk (hne q (List.mem_cons_of_mem _ hq))]
        simp only [List.mem_singleton, List.not_mem_nil, false_or]
      obtain ⟨rs, m1, hrun, hl, hcount⟩ := ih (fill m ((hash p.1 + D) % m.capacity_) p)
        (by simpa using hc) hi1
        (fun q hq => by simpa using hne q (List.mem_cons_of_mem _ hq))
        (by rw [occupied_fill m _ p hs hk hpne, ← hdup]; omega)
        (fun q hq => hok q (List.mem_cons_of_mem _ hq))
      refine ⟨((hash p.1 + D) % m.capacity_, true) :: rs, m1, ?_, by simp [hl], ?_⟩
      · rw [insert_each_cons, hstep]
        simp only [hrun]
      · rw [hd, hdup, List.length_cons]
        simp only [List.countP_cons, if_true]
        omega

theorem duplicates_fresh (capacity : Nat) (ek : K) (ev : V) :
    ∀ (batch : List (K × V)) (seen : List K), (batch.map Prod.fst).Nodup →
      (∀ p ∈ batch, p.1 ≠ ek ∧ p.1 ∉ seen) →
      duplicates (static_map.construct capacity ek ev).dev seen batch = 0 := by
  intro batch
  induction batch with
  | nil => intro _ _ _; rfl
  | cons p rest ih =>
    intro seen hnd h
    simp only [List.map_cons, List.nodup_cons] at hnd
    have hp := h p (List.mem_cons_self _ _)
    have hno : ¬ occurs (static_map.construct capacity ek ev).dev p.1 := by
      rintro ⟨i, _, hk⟩
      exact hp.1 hk.symm
    simp only [duplicates]
    rw [if_neg (by simp [hp.2, hno]), ih (p.1 :: seen) hnd.2]
    intro q hq
    have hq' := h q (List.mem_cons_of_mem _ hq)
    refine ⟨hq'.1, ?_⟩
    simp only [List.mem_cons, not_or]
    refine ⟨?_, hq'.2⟩
    intro heq
    exact hnd.1 (by rw [← heq]; exact List.mem_map_of_mem _ hq)

/-! ### Batches and reachability -/

theorem fill_slots_self (m : view K V) (s : Nat) (p : K × V) : (fill m s p).slots_ s = p := by
  simp

theorem reachable_insert_each {key_equal : K → K → Bool} (hash : K → Nat) (tmax fuel : Nat) :
    ∀ (l : List (K × V)) (m : view K V) (rs : List (Nat × Bool)) (m1 : view K V),
      reachable hash key_equal tmax m →
      (∀ p ∈ l, p.1 ≠ m.empty_key_sentinel_ ∧ p.2 ≠ m.empty_value_sentinel_) →
      insert_each (insert hash key_equal fuel) l m = some (rs, m1) →
      reachable hash key_equal tmax m1 := by
  intro l
  induction l with
  | nil =>
    intro m rs m1 hr _ h
    simp only [insert_each, Option.some.injEq, Prod.mk.injEq] at h
    rw [← h.2]
    exact hr
  | cons p rest ih =>
    intro m rs m1 hr hne h
    rw [insert_each_cons] at h
    cases hstep : insert hash key_equal fuel m p with
    | none => rw [hstep] at h; cases h
    | some x =>
      obtain ⟨r, m2⟩ := x
      rw [hstep] at h
      simp only at h
      cases hrest : insert_each (insert hash key_equal fuel) rest m2 with
      | none => rw [hrest] at h; cases h
      | some y =>
        obtain ⟨rs2, m3⟩ := y
        rw [hrest] at h
        simp only [Option.some.injEq, Prod.mk.injEq] at h
        have hp := hne p (List.mem_cons_self _ _)
        have hr2 : reachable hash key_equal tmax m2 :=
          reachable.insert m m2 p fuel r hr hp.1 hp.2 hstep
        have hs : m2.empty_key_sentinel_ = m.empty_key_sentinel_ ∧
            m2.empty_value_sentinel_ = m.empty_value_sentinel_ := by
          rcases insert_loop_some key_equal p m fuel _ r m2 hstep with h1 | h1
          · rw [h1.2.1]; exact ⟨rfl, rfl⟩
          · rw [h1.2.2.2]; exact ⟨rfl, rfl⟩
        rw [← h.2]
        exact ih m2 rs2 m3 hr2
          (fun q hq => by rw [hs.1, hs.2]; exact hne q (List.mem_cons_of_mem _ hq)) hrest

theorem duplicates_singleton_of_occurs (m : view K V) (p : K × V) (h : occurs m p.1) :
    duplicates m [] [p] = 1 := by
  simp only [duplicates]
  rw [if_pos (Or.inr h)]

theorem occupied_singleton_of_occurs (m : view K V) (p : K × V) (h : occurs m p.1) :
    occupied m + ([p].length - duplicates m [] [p]) ≤ m.capacity_ := by
  rw [duplicates_singleton_of_occurs m p h]
  exact occupied_le m

/-! ### What a lookup that returns has met -/

theorem first_hit_empty_of_ne (hash : K → Nat) (m : view K V) (k : K) (D : Nat)
    (hD : first_hit hash m k D) (hk : (m.slots_ ((hash k + D) % m.capacity_)).1 ≠ k) :
    (m.slots_ ((hash k + D) % m.capacity_)).1 = m.empty_key_sentinel_ := by
  rcases first_hit_key hash m k D hD with h | h
  · exact absurd h hk
  · exact h

theorem find_of_first_hit {key_equal : K → K → Bool}
    (hke : ∀ a b, key_equal a b = true ↔ a = b) (hash : K → Nat) (m : view K V) (k : K)
    (D fuel : Nat) (hne : k ≠ m.empty_key_sentinel_) (hD : first_hit hash m k D)
    (hf : D < fuel) :
    find hash key_equal fuel m k = some (find_outcome hash m k D) := by
  have hC : 0 < m.capacity_ := by have := hD.1; omega
  unfold find_outcome
  split
  · next hk => exact find_hit hke hash m D fuel hC hf k hD.2.1 hk
  · next hk =>
    exact find_miss hke hash m D fuel hC hf k hD.2.1 (first_hit_empty_of_ne hash m k D hD hk) hne

theorem contains_of_first_hit {key_equal : K → K → Bool}
    (hke : ∀ a b, key_equal a b = true ↔ a = b) (hash : K → Nat) (m : view K V) (k : K)
    (D fuel : Nat) (hne : k ≠ m.empty_key_sentinel_) (hD : first_hit hash m k D)
    (hf : D < fuel) :
    contains hash key_equal fuel m k = some (contains_outcome hash m k D) := by
  have hC : 0 < m.capacity_ := by have := hD.1; omega
  unfold contains_outcome
  by_cases hk : (m.slots_ ((hash k + D) % m.capacity_)).1 = k
  · rw [decide_eq_true hk]
    exact contains_hit hke hash m D fuel hC hf k hD.2.1 hk
  · rw [decide_eq_false hk]
    exact contains_miss hke hash m D fuel hC hf k hD.2.1
      (first_hit_empty_of_ne hash m k D hD hk) hne

theorem find_short {key_equal : K → K → Bool} (hke : ∀ a b, key_equal a b = true ↔ a = b)
    (hash : K → Nat) (m : view K V) (k : K) (fuel : Nat) (hC : 0 < m.capacity_)
    (ho : ∀ d, d < fuel → other_key m k ((hash k + d) % m.capacity_)) :
    find hash key_equal fuel m k = none := by
  unfold find initial_slot
  rw [find_loop_skip hke k m fuel fuel _ (Nat.le_refl _) (Nat.mod_lt _ hC)
    (fun d hd => by rw [Nat.mod_add_mod]; exact ho d hd), Nat.sub_self]
  rfl

theorem contains_short {key_equal : K → K → Bool} (hke : ∀ a b, key_equal a b = true ↔ a = b)
    (hash : K → Nat) (m : view K V) (k : K) (fuel : Nat) (hC : 0 < m.capacity_)
    (ho : ∀ d, d < fuel → other_key m k ((hash k + d) % m.capacity_)) :
    contains hash key_equal fuel m k = none := by
  unfold contains initial_slot
  rw [contains_loop_skip hke k m fuel fuel _ (Nat.le_refl _) (Nat.mod_lt _ hC)
    (fun d hd => by rw [Nat.mod_add_mod]; exact ho d hd), Nat.sub_self]
  rfl

/-- A single-lane find that returns has met the first hit of the key. -/
theorem find_some {key_equal : K → K → Bool} (hke : ∀ a b, key_equal a b = true ↔ a = b)
    (hash : K → Nat) (m : view K V) (k : K) (fuel : Nat) (x : Nat)
    (hC : 0 < m.capacity_) (hne : k ≠ m.empty_key_sentinel_)
    (h : find hash key_equal fuel m k = some x) :
    ∃ D, first_hit hash m k D ∧ D < fuel ∧ x = find_outcome hash m k D := by
  rcases first_hit_or_full hash m k with ⟨D, hD⟩ | hfull
  · by_cases hf : D < fuel
    · rw [find_of_first_hit hke hash m k D fuel hne hD hf] at h
      exact ⟨D, hD, hf, (Option.some.inj h).symm⟩
    · rw [find_short hke hash m k fuel hC (fun d hd => hD.2.1 d (by omega))] at h
      cases h
  · rw [find_short hke hash m k fuel hC (fun d _ => hfull _ (Nat.mod_lt _ hC))] at h
    cases h

/-- A single-lane contains that returns has met the first hit of the key. -/
theorem contains_some {key_equal : K → K → Bool} (hke : ∀ a b, key_equal a b = true ↔ a = b)
    (hash : K → Nat) (m : view K V) (k : K) (fuel : Nat) (x : Bool)
    (hC : 0 < m.capacity_) (hne : k ≠ m.empty_key_sentinel_)
    (h : contains hash key_equal fuel m k = some x) :
    ∃ D, first_hit hash m k D ∧ D < fuel ∧ x = contains_outcome hash m k D := by
  rcases first_hit_or_full hash m k with ⟨D, hD⟩ | hfull
  · by_cases hf : D < fuel
    · rw [contains_of_first_hit hke hash m k D fuel hne hD hf] at h
      exact ⟨D, hD, hf, (Option.some.inj h).symm⟩
    · rw [contains_short hke hash m k fuel hC (fun d hd => hD.2.1 d (by omega))] at h
      cases h
  · rw [contains_short hke hash m k fuel hC (fun d _ => hfull _ (Nat.mod_lt _ hC))] at h
    cases h

theorem absent_of_first_hit_empty (hash : K → Nat) (m : view K V) (hp : probe_inv hash m)
    (k : K) (hne : k ≠ m.empty_key_sentinel_) (D : Nat) (hD : first_hit hash m k D)
    (hk : (m.slots_ ((hash k + D) % m.capacity_)).1 ≠ k) :
    ∀ i, i < m.capacity_ → (m.slots_ i).1 ≠ k := by
  intro i hi hki
  exact hk (first_hit_occurs hash m hp k hne D hD ⟨i, hi, hki⟩)

theorem find_cg_of_first_hit {key_equal : K → K → Bool}
    (hke : ∀ a b, key_equal a b = true ↔ a = b) (hash : K → Nat) (m : view K V) (t : Nat)
    (k : K) (D fuel : Nat) (ht : 1 ≤ t) (hb : index_fits m t)
    (hrk : rank_fits m hash t k)
    (hp : probe_inv hash m) (hne : k ≠ m.empty_key_sentinel_)
    (hD : first_hit hash m k D) (hf : D / t < fuel) :
    find_cg hash key_equal t fuel m k = some (find_outcome hash m k D) := by
  have hC : 0 < m.capacity_ := by have := hD.1; omega
  unfold find_outcome
  split
  · next hk => exact find_cg_hit hke hash m t D fuel hC ht hf hb k hrk hD.2.1 hk
  · next hk =>
    exact find_cg_miss hke hash m t D fuel hC ht hf hb k hrk hD.2.1
      (first_hit_empty_of_ne hash m k D hD hk) (absent_of_first_hit_empty hash m hp k hne D hD hk)

theorem contains_cg_of_first_hit {key_equal : K → K → Bool}
    (hke : ∀ a b, key_equal a b = true ↔ a = b) (hash : K → Nat) (m : view K V) (t : Nat)
    (k : K) (D fuel : Nat) (ht : 1 ≤ t)
    (hrk : rank_fits m hash t k)
    (hp : probe_inv hash m) (hne : k ≠ m.empty_key_sentinel_)
    (hD : first_hit hash m k D) (hf : D + 1 - t < fuel) :
    contains_cg hash key_equal t fuel m k = some (contains_outcome hash m k D) := by
  have hC : 0 < m.capacity_ := by have := hD.1; omega
  unfold contains_outcome
  by_cases hk : (m.slots_ ((hash k + D) % m.capacity_)).1 = k
  · rw [decide_eq_true hk]
    exact contains_cg_hit hke hash m t D fuel hC ht hf k hrk hD.2.1 hk
  · rw [decide_eq_false hk]
    exact contains_cg_miss hke hash m t D fuel hC ht hf k hrk hD.2.1
      (first_hit_empty_of_ne hash m k D hD hk) (absent_of_first_hit_empty hash m hp k hne D hD hk)

theorem find_cg_short {key_equal : K → K → Bool}
    (hke : ∀ a b, key_equal a b = true ↔ a = b)
    (hash : K → Nat) (m : view K V) (t : Nat) (k : K) (fuel : Nat) (hC : 0 < m.capacity_)
    (hb : index_fits m t)
    (hrk : rank_fits m hash t k)
    (ho : ∀ d, d < fuel * t → other_key m k ((hash k + d) % m.capacity_)) :
    find_cg hash key_equal t fuel m k = none := by
  obtain ⟨cur', _, he⟩ := find_cg_loop_skip hke t (hash k) k m hC hb fuel fuel 0 _
    (Nat.le_refl _) (lanes_at_initial m hash t k hrk) (fun d hd => ho d (by omega))
  unfold find_cg
  rw [he, Nat.sub_self]
  rfl

theorem contains_cg_short {key_equal : K → K → Bool}
    (hke : ∀ a b, key_equal a b = true ↔ a = b)
    (hash : K → Nat) (m : view K V) (t : Nat) (k : K) (fuel : Nat) (hC : 0 < m.capacity_)
    (hrk : rank_fits m hash t k)
    (ho : ∀ d, 0 < fuel → d + 1 < fuel + t → other_key m k ((hash k + d) % m.capacity_)) :
    contains_cg hash key_equal t fuel m k = none := by
  obtain ⟨cur', _, he⟩ := contains_cg_loop_skip hke t (hash k) k m hC fuel fuel 0 _
    (Nat.le_refl _) (lanes_at_initial m hash t k hrk) (fun d h0 hd => ho d h0 (by omega))
  unfold contains_cg
  rw [he, Nat.sub_self]
  rfl

/-- A tile find that returns has met the first hit of the key. -/
theorem find_cg_some {key_equal : K → K → Bool} (hke : ∀ a b, key_equal a b = true ↔ a = b)
    (hash : K → Nat) (m : view K V) (t : Nat) (k : K) (fuel : Nat) (x : Nat)
    (hC : 0 < m.capacity_) (ht : 1 ≤ t) (hb : index_fits m t)
    (hrk : rank_fits m hash t k)
    (hp : probe_inv hash m) (hne : k ≠ m.empty_key_sentinel_)
    (h : find_cg hash key_equal t fuel m k = some x) :
    ∃ D, first_hit hash m k D ∧ D / t < fuel ∧ x = find_outcome hash m k D := by
  rcases first_hit_or_full hash m k with ⟨D, hD⟩ | hfull
  · by_cases hf : D / t < fuel
    · rw [find_cg_of_first_hit hke hash m t k D fuel ht hb hrk hp hne hD hf] at h
      exact ⟨D, hD, hf, (Option.some.inj h).symm⟩
    · have hle : fuel * t ≤ D := by
        have h1 : fuel ≤ D / t := by omega
        calc fuel * t ≤ D / t * t := Nat.mul_le_mul_right t h1
          _ ≤ D := Nat.div_mul_le_self D t
      rw [find_cg_short hke hash m t k fuel hC hb hrk (fun d hd => hD.2.1 d (by omega))] at h
      cases h
  · rw [find_cg_short hke hash m t k fuel hC hb hrk (fun d _ => hfull _ (Nat.mod_lt _ hC))] at h
    cases h

/-- A tile contains that returns has met the first hit of the key. -/
theorem contains_cg_some {key_equal : K → K → Bool} (hke : ∀ a b, key_equal a b = true ↔ a = b)
    (hash : K → Nat) (m : view K V) (t : Nat) (k : K) (fuel : Nat) (x : Bool)
    (hC : 0 < m.capacity_) (ht : 1 ≤ t)
    (hrk : rank_fits m hash t k)
    (hp : probe_inv hash m) (hne : k ≠ m.empty_key_sentinel_)
    (h : contains_cg hash key_equal t fuel m k = some x) :
    ∃ D, first_hit hash m k D ∧ D + 1 - t < fuel ∧ x = contains_outcome hash m k D := by
  rcases first_hit_or_full hash m k with ⟨D, hD⟩ | hfull
  · by_cases hf : D + 1 - t < fuel
    · rw [contains_cg_of_first_hit hke hash m t k D fuel ht hrk hp hne hD hf] at h
      exact ⟨D, hD, hf, (Option.some.inj h).symm⟩
    · rw [contains_cg_short hke hash m t k fuel hC hrk
        (fun d h0 hd => hD.2.1 d (by omega))] at h
      cases h
  · rw [contains_cg_short hke hash m t k fuel hC hrk (fun d _ _ => hfull _ (Nat.mod_lt _ hC))] at h
    cases h

theorem reachable_one_key_store (tmax : Nat) :
    reachable scenario_hash int_equal tmax one_key_store :=
  reachable.insert scenario_map.dev one_key_store (1, 10) 16 (1, true)
    (reachable.construct 16 (-1) (-1) (by decide)) (by decide) (by decide) rfl

theorem reachable_tile_store : reachable scenario_hash int_equal 8 tile_store :=
  reachable.insert_cg one_key_store tile_store 8 (17, 20) 16 (2, true)
    (reachable_one_key_store 8) (by decide) (by decide) (by decide) (by decide) rfl

theorem reachable_six_store (tmax : Nat) : reachable scenario_hash int_equal tmax six_store :=
  reachable.insert six_map.dev six_store (5, 50) 6 (5, true)
    (reachable.construct 6 (-1) (-1) (by decide)) (by decide) (by decide) rfl

/-! ### A window with the key or an empty slot ends the loop -/

theorem window_masks {key_equal : K → K → Bool}
    (hke : ∀ a b, key_equal a b = true ↔ a = b) (t : Nat) (m : view K V) (k : K)
    (cur : Nat → Nat) (r : Nat) (hr : r < t) (hno : ¬ other_key m k (cur r)) :
    mask_set (ballot t (fun r => key_equal (m.slots_ (cur r)).1 k)) = true ∨
      mask_set (ballot t (fun r => decide ((m.slots_ (cur r)).1 = m.empty_key_sentinel_)))
        = true := by
  by_cases hk : (m.slots_ (cur r)).1 = k
  · left
    exact (mask_set_ballot t _).2 ⟨r, hr, by simp only [hk]; exact keq_true hke k⟩
  · right
    refine (mask_set_ballot t _).2 ⟨r, hr, decide_eq_true ?_⟩
    by_contra he
    exact hno ⟨hk, he⟩

theorem find_cg_step_stop {key_equal : K → K → Bool}
    (hke : ∀ a b, key_equal a b = true ↔ a = b) (t : Nat) (m : view K V) (k : K)
    (fuel : Nat) (cur : Nat → Nat) (r : Nat) (hr : r < t) (hno : ¬ other_key m k (cur r)) :
    ∃ s, find_cg_loop key_equal t m k (fuel + 1) cur = some s := by
  simp only [find_cg_loop]
  split
  · exact ⟨_, rfl⟩
  · next h1 =>
    rcases window_masks hke t m k cur r hr hno with h | h
    · exact absurd h h1
    · rw [if_pos h]
      exact ⟨_, rfl⟩

theorem contains_cg_step_stop {key_equal : K → K → Bool}
    (hke : ∀ a b, key_equal a b = true ↔ a = b) (t : Nat) (m : view K V) (k : K)
    (fuel : Nat) (cur : Nat → Nat) (r : Nat) (hr : r < t) (hno : ¬ other_key m k (cur r)) :
    ∃ b, contains_cg_loop key_equal t m k (fuel + 1) cur = some b := by
  simp only [contains_cg_loop]
  split
  · exact ⟨_, rfl⟩
  · next h1 =>
    rcases window_masks hke t m k cur r hr hno with h | h
    · exact absurd h h1
    · rw [if_pos h]
      exact ⟨_, rfl⟩

theorem insert_cg_step_stop {key_equal : K → K → Bool}
    (hke : ∀ a b, key_equal a b = true ↔ a = b) (t : Nat) (m : view K V) (p : K × V)
    (fuel : Nat) (cur : Nat → Nat) (hne : p.1 ≠ m.empty_key_sentinel_)
    (hev : ∀ r, r < t → (m.slots_ (cur r)).1 = m.empty_key_sentinel_ →
      (m.slots_ (cur r)).2 = m.empty_value_sentinel_)
    (r : Nat) (hr : r < t) (hno : ¬ other_key m p.1 (cur r)) :
    ∃ x, insert_cg_loop key_equal t p (fuel + 1) m cur = some x := by
  simp only [insert_cg_loop]
  split
  · exact ⟨_, rfl⟩
  · next h1 =>
    rcases window_masks hke t m p.1 cur r hr hno with h | h
    · exact absurd h h1
    · rw [if_pos h]
      obtain ⟨hlt, hq⟩ := mask_set_first t _ h
      have hk := of_decide_eq_true hq
      rw [elected_exchange_empty hke p fuel m _ hk (hev _ hlt hk) hne]
      exact ⟨_, rfl⟩

/-- With an empty slot or the key on its probe path, the tile find returns within
`D / t + 1` windows, whatever else the store holds. -/
theorem find_cg_returns {key_equal : K → K → Bool}
    (hke : ∀ a b, key_equal a b = true ↔ a = b) (hash : K → Nat) (m : view K V) (t : Nat)
    (k : K) (D fuel : Nat) (ht : 1 ≤ t) (hb : index_fits m t)
    (hrk : rank_fits m hash t k)
    (hD : first_hit hash m k D) (hf : D / t < fuel) :
    ∃ s, find_cg hash key_equal t fuel m k = some s := by
  have hC : 0 < m.capacity_ := by have := hD.1; omega
  have hle : D / t * t ≤ D := Nat.div_mul_le_self D t
  have hdm : D / t * t + D % t = D := by
    have := Nat.div_add_mod D t
    rw [Nat.mul_comm] at this
    exact this
  obtain ⟨cur', hl, he⟩ := find_cg_loop_skip hke t (hash k) k m hC hb (D / t) fuel 0 _
    (by omega) (lanes_at_initial m hash t k hrk) (fun d hd => hD.2.1 d (by omega))
  unfold find_cg
  rw [he]
  obtain ⟨f, hf1⟩ : ∃ f, fuel - D / t = f + 1 := ⟨fuel - D / t - 1, by omega⟩
  rw [hf1]
  have hlane := hl (D % t) (Nat.mod_lt _ (by omega))
  refine find_cg_step_stop hke t m k f cur' (D % t) (Nat.mod_lt _ (by omega)) ?_
  rw [hlane, show hash k + (0 + D / t * t) + D % t = hash k + D by omega]
  exact hD.2.2

theorem insert_cg_returns {key_equal : K → K → Bool}
    (hke : ∀ a b, key_equal a b = true ↔ a = b) (hash : K → Nat) (m : view K V) (t : Nat)
    (p : K × V) (D fuel : Nat) (ht : 1 ≤ t) (hb : index_fits m t)
    (hrk : rank_fits m hash t p.1)
    (he : empty_inv m) (hne : p.1 ≠ m.empty_key_sentinel_)
    (hD : first_hit hash m p.1 D) (hf : D / t < fuel) :
    ∃ x, insert_cg hash key_equal t fuel m p = some x := by
  have hC : 0 < m.capacity_ := by have := hD.1; omega
  have hle : D / t * t ≤ D := Nat.div_mul_le_self D t
  have hdm : D / t * t + D % t = D := by
    have := Nat.div_add_mod D t
    rw [Nat.mul_comm] at this
    exact this
  obtain ⟨cur', hl, heq⟩ := insert_cg_loop_skip hke t (hash p.1) p m hC hb (D / t) fuel 0 _
    (by omega) (lanes_at_initial m hash t p.1 hrk) (fun d hd => hD.2.1 d (by omega))
  unfold insert_cg
  rw [heq]
  obtain ⟨f, hf1⟩ : ∃ f, fuel - D / t = f + 1 := ⟨fuel - D / t - 1, by omega⟩
  rw [hf1]
  have hlane := hl (D % t) (Nat.mod_lt _ (by omega))
  refine insert_cg_step_stop hke t m p f cur' hne ?_ (D % t) (Nat.mod_lt _ (by omega)) ?_
  · intro r hr hk
    rw [hl r hr] at hk ⊢
    exact he _ (Nat.mod_lt _ hC) hk
  · rw [hlane, show hash p.1 + (0 + D / t * t) + D % t = hash p.1 + D by omega]
    exact hD.2.2

theorem contains_cg_returns {key_equal : K → K → Bool}
    (hke : ∀ a b, key_equal a b = true ↔ a = b) (hash : K → Nat) (m : view K V) (t : Nat)
    (k : K) (D fuel : Nat) (ht : 1 ≤ t)
    (hrk : rank_fits m hash t k)
    (hD : first_hit hash m k D) (hf : D + 1 - t < fuel) :
    ∃ b, contains_cg hash key_equal t fuel m k = some b := by
  have hC : 0 < m.capacity_ := by have := hD.1; omega
  obtain ⟨cur', hl, he⟩ := contains_cg_loop_skip hke t (hash k) k m hC (D + 1 - t) fuel 0 _
    (by omega) (lanes_at_initial m hash t k hrk) (fun d h0 hd => hD.2.1 d (by omega))
  unfold contains_cg
  rw [he]
  obtain ⟨f, hf1⟩ : ∃ f, fuel - (D + 1 - t) = f + 1 := ⟨fuel - (D + 1 - t) - 1, by omega⟩
  rw [hf1]
  have hr : D - (D + 1 - t) < t := by omega
  have hlane := hl (D - (D + 1 - t)) hr
  refine contains_cg_step_stop hke t m k f cur' (D - (D + 1 - t)) hr ?_
  rw [hlane, show hash k + (0 + (D + 1 - t)) + (D - (D + 1 - t)) = hash k + D by omega]
  exact hD.2.2

/-! ### Further lemmas for the claims -/

theorem contains_lane_sequence_eq (m : view K V) (hash : K → Nat) (k : K) (r : Nat)
    (hC : 0 < m.capacity_) (hf : hash k + r < UINT32_MOD ∨ UINT32_MOD % m.capacity_ = 0) :
    ∀ j, contains_lane_sequence m hash r k j = (hash k + r + j) % m.capacity_ := by
  intro j
  induction j with
  | zero => exact initial_slot_cg_fits m hash r k hf
  | succ j ih =>
    unfold contains_lane_sequence at ih ⊢
    rw [Function.iterate_succ_apply', ih, next_slot_eq m _ (Nat.mod_lt _ hC), Nat.mod_add_mod]
    rfl

/-- Filling an empty slot keeps every key that a find reaches where it was. -/
theorem find_fill_preserved {key_equal : K → K → Bool}
    (hke : ∀ a b, key_equal a b = true ↔ a = b) (hash : K → Nat) (m : view K V) (s : Nat)
    (p : K × V) (hC : 0 < m.capacity_) (hs : (m.slots_ s).1 = m.empty_key_sentinel_)
    (k : K) (fuel x : Nat) (hne : k ≠ m.empty_key_sentinel_)
    (h : find hash key_equal fuel m k = some x) (hx : x ≠ m.end_) :
    find hash key_equal fuel (fill m s p) k = some x := by
  obtain ⟨D, hD, hf, hxo⟩ := find_some hke hash m k fuel x hC hne h
  unfold find_outcome at hxo
  split at hxo
  · next hk =>
    have hDs : (hash k + D) % m.capacity_ ≠ s := by
      intro heq
      rw [heq, hs] at hk
      exact hne hk.symm
    have := find_hit hke hash (fill m s p) D fuel hC hf k
      (fun d hd => other_key_fill m s p k _ hs (hD.2.1 d hd))
      (by simp only [fill_slots, fill_capacity, if_neg hDs]; exact hk)
    rw [hxo]
    exact this
  · exact absurd hxo hx

/-- In a store reached by sequential inserts a slot whose value field is the value sentinel is
empty. -/
theorem reachable_value_inv {key_equal : K → K → Bool}
    (hke : ∀ a b, key_equal a b = true ↔ a = b)
    (hash : K → Nat) (tmax : Nat) (m : view K V) (hr : reachable hash key_equal tmax m) :
    ∀ i, i < m.capacity_ → (m.slots_ i).2 = m.empty_value_sentinel_ →
      (m.slots_ i).1 = m.empty_key_sentinel_ := by
  induction hr with
  | construct capacity ek ev hC => exact fun _ _ _ => rfl
  | insert m m1 p fuel r _ hk hv hins ih =>
    rcases insert_loop_some key_equal p m fuel _ r m1 hins with h | h
    · rw [h.2.1]; exact ih
    · rw [h.2.2.2]
      intro i hi
      simp only [fill_slots, fill_capacity, fill_empty_key, fill_empty_value] at hi ⊢
      by_cases his : i = r.1
      · simp only [if_pos his]
        intro h2
        exact absurd h2 hv
      · simp only [if_neg his]
        exact ih i hi
  | insert_cg m m1 t p fuel r _ ht _ hk hv hins ih =>
    rcases insert_cg_loop_some hke t p fuel m _ r m1 hins with h | h
    · rw [h.2.1]; exact ih
    · rw [h.2.2.2]
      intro i hi
      simp only [fill_slots, fill_capacity, fill_empty_key, fill_empty_value] at hi ⊢
      by_cases his : i = r.1
      · simp only [if_pos his]
        intro h2
        exact absurd h2 hv
      · simp only [if_neg his]
        exact ih i hi

theorem first_hit_of_occurs_or_empty (hash : K → Nat) (m : view K V) (k : K)
    (h : occurs m k ∨ has_empty m) : ∃ D, first_hit hash m k D := by
  rcases first_hit_or_full hash m k with hD | hfull
  · exact hD
  · rcases h with ⟨i, hi, hk⟩ | ⟨i, hi, hk⟩
    · exact absurd hk (hfull i hi).1
    · exact absurd hk (hfull i hi).2

theorem find_outcome_ne_end (hash : K → Nat) (m : view K V) (k : K) (D : Nat)
    (hC : 0 < m.capacity_) :
    contains_outcome hash m k D = true ↔ find_outcome hash m k D ≠ m.end_ := by
  unfold contains_outcome find_outcome
  by_cases hk : (m.slots_ ((hash k + D) % m.capacity_)).1 = k
  · rw [if_pos hk, decide_eq_true hk]
    have := Nat.mod_lt (hash k + D) hC
    simp only [view.end_, true_iff]
    omega
  · rw [if_neg hk, decide_eq_false hk]
    simp

/-! ### The tile find on lanes that stand anywhere -/

/-- Steps of `t` slots from slot `s` reach slot `e` when both lie in the same class modulo
`gcd t C`. -/
theorem exists_steps (C t s e : Nat) (hs : s < C) (he : e < C)
    (h : s % Nat.gcd t C = e % Nat.gcd t C) : ∃ j, j < C ∧ (s + j * t) % C = e := by
  have hC : 0 < C := by omega
  have hgC : Nat.gcd t C ∣ C := Nat.gcd_dvd_right t C
  have hgpos : 0 < Nat.gcd t C := Nat.gcd_pos_of_pos_right t hC
  -- d = e + C - s is a multiple of g
  have hd : Nat.gcd t C ∣ e + C - s := by
    have h1 : (e + C) % Nat.gcd t C = s % Nat.gcd t C := by
      rw [Nat.add_mod, Nat.mod_eq_zero_of_dvd hgC, Nat.add_zero, Nat.mod_mod, h]
    exact (Nat.modEq_iff_dvd' (by omega)).1 h1.symm
  obtain ⟨q, hq⟩ := hd
  have key : ∃ j, (s + j * t) % C = e := by
    by_cases hlt : Nat.gcd t C < C
    · obtain ⟨m0, hm0⟩ := Nat.exists_mul_emod_eq_gcd hlt
      refine ⟨m0 * q, ?_⟩
      have h2 : (m0 * q * t) % C = (e + C - s) % C := by
        rw [hq, show m0 * q * t = t * m0 * q by ring, Nat.mul_mod, hm0]
        conv_rhs => rw [Nat.mul_mod, Nat.mod_eq_of_lt hlt]
      rw [Nat.add_mod, h2, ← Nat.add_mod, show s + (e + C - s) = e + C by omega,
        Nat.add_mod_right, Nat.mod_eq_of_lt he]
    · have hg : Nat.gcd t C = C := le_antisymm (Nat.le_of_dvd hC hgC) (by omega)
      rw [hg, Nat.mod_eq_of_lt hs, Nat.mod_eq_of_lt he] at h
      exact ⟨0, by rw [Nat.zero_mul, Nat.add_zero, Nat.mod_eq_of_lt hs]; exact h⟩
  obtain ⟨j, hj⟩ := key
  refine ⟨j % C, Nat.mod_lt _ hC, ?_⟩
  rw [← hj, Nat.add_mod s (j % C * t), Nat.mul_mod, Nat.mod_mod, ← Nat.mul_mod, ← Nat.add_mod]

theorem next_window_slot (C a n t : Nat) : ((a + t) % C + n * t) % C = (a + (n + 1) * t) % C := by
  rw [Nat.mod_add_mod, Nat.succ_mul]
  congr 1
  omega

/-- With exact index arithmetic the tile find of a key that the table does not hold returns
`end()` as soon as some lane reaches an empty slot, wherever the lanes started. -/
theorem find_cg_loop_absent {key_equal : K → K → Bool}
    (hke : ∀ a b, key_equal a b = true ↔ a = b) (t : Nat) (m : view K V) (k : K)
    (hC : 0 < m.capacity_) (hb : index_fits m t)
    (habs : ∀ i, i < m.capacity_ → (m.slots_ i).1 ≠ k) :
    ∀ (n : Nat) (cur : Nat → Nat) (fuel : Nat), (∀ r, r < t → cur r < m.capacity_) →
      (∃ r, r < t ∧ (m.slots_ ((cur r + n * t) % m.capacity_)).1 = m.empty_key_sentinel_) →
      n < fuel → find_cg_loop key_equal t m k fuel cur = some m.end_ := by
  intro n
  induction n with
  | zero =>
    intro cur fuel hcur he hf
    obtain ⟨f, rfl⟩ : ∃ f, fuel = f + 1 := ⟨fuel - 1, by omega⟩
    obtain ⟨r, hr, hk⟩ := he
    rw [Nat.zero_mul, Nat.add_zero, Nat.mod_eq_of_lt (hcur r hr)] at hk
    exact find_cg_step_miss hke t m k f cur r hr hk (fun r hr => habs _ (hcur r hr))
  | succ n ih =>
    intro cur fuel hcur he hf
    obtain ⟨f, rfl⟩ : ∃ f, fuel = f + 1 := ⟨fuel - 1, by omega⟩
    by_cases hex : ∃ r, r < t ∧ (m.slots_ (cur r)).1 = m.empty_key_sentinel_
    · obtain ⟨r, hr, hk⟩ := hex
      exact find_cg_step_miss hke t m k f cur r hr hk (fun r hr => habs _ (hcur r hr))
    · rw [find_cg_step_other hke t m k f cur
        (fun r hr => ⟨habs _ (hcur r hr), fun h => hex ⟨r, hr, h⟩⟩)]
      apply ih _ f
      · intro r hr
        rw [next_slot_cg_fits m t _ (hcur r hr) hb]
        exact Nat.mod_lt _ hC
      · obtain ⟨r, hr, hk⟩ := he
        refine ⟨r, hr, ?_⟩
        rw [next_slot_cg_fits m t _ (hcur r hr) hb, next_window_slot]
        exact hk
      · omega

/-- With exact index arithmetic, in a table without empty slots that holds the key `k` in slot
`i` only, the tile find of `k` returns `i` as soon as some lane reaches `i`, wherever the lanes
started. -/
theorem find_cg_loop_full {key_equal : K → K → Bool}
    (hke : ∀ a b, key_equal a b = true ↔ a = b) (t : Nat) (m : view K V) (k : K) (i : Nat)
    (hC : 0 < m.capacity_) (hb : index_fits m t)
    (hfull : ∀ j, j < m.capacity_ → (m.slots_ j).1 ≠ m.empty_key_sentinel_)
    (hki : (m.slots_ i).1 = k) (huniq : ∀ j, j < m.capacity_ → (m.slots_ j).1 = k → j = i) :
    ∀ (n : Nat) (cur : Nat → Nat) (fuel : Nat), (∀ r, r < t → cur r < m.capacity_) →
      (∃ r, r < t ∧ (cur r + n * t) % m.capacity_ = i) →
      n < fuel → find_cg_loop key_equal t m k fuel cur = some i := by
  have hit : ∀ (cur : Nat → Nat) (f : Nat), (∀ r, r < t → cur r < m.capacity_) →
      (∃ r, r < t ∧ (m.slots_ (cur r)).1 = k) →
      find_cg_loop key_equal t m k (f + 1) cur = some i := by
    intro cur f hcur hex
    obtain ⟨r0, hr0, hp, hfirst⟩ := exists_first_lane t
      (fun r => decide ((m.slots_ (cur r)).1 = k))
      (by obtain ⟨r, hr, hk⟩ := hex; exact ⟨r, hr, decide_eq_true hk⟩)
    have hk0 := of_decide_eq_true hp
    rw [find_cg_step_hit hke t m k f cur r0 hr0 hk0
      (fun j hj => of_decide_eq_false (hfirst j hj)), huniq _ (hcur r0 hr0) hk0]
  intro n
  induction n with
  | zero =>
    intro cur fuel hcur he hf
    obtain ⟨f, rfl⟩ : ∃ f, fuel = f + 1 := ⟨fuel - 1, by omega⟩
    obtain ⟨r, hr, hk⟩ := he
    rw [Nat.zero_mul, Nat.add_zero, Nat.mod_eq_of_lt (hcur r hr)] at hk
    exact hit cur f hcur ⟨r, hr, by rw [hk]; exact hki⟩
  | succ n ih =>
    intro cur fuel hcur he hf
    obtain ⟨f, rfl⟩ : ∃ f, fuel = f + 1 := ⟨fuel - 1, by omega⟩
    by_cases hex : ∃ r, r < t ∧ (m.slots_ (cur r)).1 = k
    · exact hit cur f hcur hex
    · rw [find_cg_step_other hke t m k f cur
        (fun r hr => ⟨fun h => hex ⟨r, hr, h⟩, hfull _ (hcur r hr)⟩)]
      apply ih _ f
      · intro r hr
        rw [next_slot_cg_fits m t _ (hcur r hr) hb]
        exact Nat.mod_lt _ hC
      · obtain ⟨r, hr, hk⟩ := he
        refine ⟨r, hr, ?_⟩
        rw [next_slot_cg_fits m t _ (hcur r hr) hb, next_window_slot]
        exact hk
      · omega

/-- When the tile size divides 2^32, the lanes of a tile start in every class modulo
`gcd t C`, also when the sum `hash(k) + g.thread_rank()` wraps, and so some lane reaches any
given slot `e` by steps of `t` slots. -/
theorem lanes_reach_slot (m : view K V) (hash : K → Nat) (t : Nat) (k : K) (e : Nat)
    (ht : 1 ≤ t) (hdiv : UINT32_MOD % t = 0) (he : e < m.capacity_) :
    ∃ r n, r < t ∧ n < m.capacity_ ∧
      (initial_slot_cg m hash r k + n * t) % m.capacity_ = e := by
  have hC : 0 < m.capacity_ := by omega
  have hgC : Nat.gcd t m.capacity_ ∣ m.capacity_ := Nat.gcd_dvd_right _ _
  have hgt : Nat.gcd t m.capacity_ ∣ t := Nat.gcd_dvd_left _ _
  have hgW : Nat.gcd t m.capacity_ ∣ UINT32_MOD :=
    Nat.dvd_trans hgt (Nat.dvd_of_mod_eq_zero hdiv)
  have hgpos : 0 < Nat.gcd t m.capacity_ := Nat.gcd_pos_of_pos_right t hC
  have hgle : Nat.gcd t m.capacity_ ≤ t := Nat.le_of_dvd (by omega) hgt
  have hlt : hash k % Nat.gcd t m.capacity_ < Nat.gcd t m.capacity_ := Nat.mod_lt _ hgpos
  have hlt2 : e % Nat.gcd t m.capacity_ < Nat.gcd t m.capacity_ := Nat.mod_lt _ hgpos
  have hr : (e % Nat.gcd t m.capacity_ + Nat.gcd t m.capacity_
      - hash k % Nat.gcd t m.capacity_) % Nat.gcd t m.capacity_ < t :=
    lt_of_lt_of_le (Nat.mod_lt _ hgpos) hgle
  have hres : initial_slot_cg m hash ((e % Nat.gcd t m.capacity_ + Nat.gcd t m.capacity_
      - hash k % Nat.gcd t m.capacity_) % Nat.gcd t m.capacity_) k % Nat.gcd t m.capacity_
      = e % Nat.gcd t m.capacity_ := by
    unfold initial_slot_cg
    rw [Nat.mod_mod_of_dvd _ hgC, Nat.mod_mod_of_dvd _ hgW, Nat.add_mod_mod,
      ← Nat.mod_add_mod,
      show hash k % Nat.gcd t m.capacity_ + (e % Nat.gcd t m.capacity_
        + Nat.gcd t m.capacity_ - hash k % Nat.gcd t m.capacity_)
        = e % Nat.gcd t m.capacity_ + Nat.gcd t m.capacity_ by omega,
      Nat.add_mod_right, Nat.mod_mod]
  obtain ⟨n, hn, hne⟩ := exists_steps m.capacity_ t _ e
    (initial_slot_cg_lt m hash _ k hC) he hres
  exact ⟨_, n, hr, hn, hne⟩

/-- A tile whose lanes stand on slots that hold other keys, in a set of slots that the tile
`next_slot` does not leave, never returns from the find loop. -/
theorem find_cg_loop_stuck {key_equal : K → K → Bool}
    (hke : ∀ a b, key_equal a b = true ↔ a = b) (t : Nat) (m : view K V) (k : K)
    (S : Nat → Prop) (hS : ∀ s, S s → other_key m k s ∧ S (next_slot_cg m t s)) :
    ∀ (fuel : Nat) (cur : Nat → Nat), (∀ r, r < t → S (cur r)) →
      find_cg_loop key_equal t m k fuel cur = none := by
  intro fuel
  induction fuel with
  | zero => intro cur _; rfl
  | succ fuel ih =>
    intro cur hcur
    rw [find_cg_step_other hke t m k fuel cur (fun r hr => (hS _ (hcur r hr)).1)]
    exact ih _ (fun r hr => (hS _ (hcur r hr)).2)

/-! ### Lookups in a table without empty slots -/

theorem key_unique (hash : K → Nat) (m : view K V) (hp : probe_inv hash m) (i j : Nat)
    (hi : i < m.capacity_) (hj : j < m.capacity_)
    (hne : (m.slots_ i).1 ≠ m.empty_key_sentinel_) (h : (m.slots_ i).1 = (m.slots_ j).1) :
    i = j := by
  obtain ⟨D1, hD1, h1⟩ := first_hit_of_occurs hash m hp i hi hne
  obtain ⟨D2, hD2, h2⟩ := first_hit_of_occurs hash m hp j hj (by rw [← h]; exact hne)
  rw [← h] at hD2 h2
  have := first_hit_unique hash m _ D1 D2 hD1 hD2
  subst this
  rw [← h1, ← h2]

theorem lookup_full {key_equal : K → K → Bool} (hke : ∀ a b, key_equal a b = true ↔ a = b)
    (hash : K → Nat) (m : view K V) (hi : table_inv hash m)
    (hfull : ∀ j, j < m.capacity_ → (m.slots_ j).1 ≠ m.empty_key_sentinel_)
    (i : Nat) (hic : i < m.capacity_) (fuel : Nat) (hf : m.capacity_ ≤ fuel) :
    find hash key_equal fuel m (m.slots_ i).1 = some i ∧
      contains hash key_equal fuel m (m.slots_ i).1 = some true ∧
      ∀ t, 1 ≤ t → contains_cg hash key_equal t fuel m (m.slots_ i).1 = some true ∧
        (index_fits m t → rank_fits m hash t (m.slots_ i).1 ∨ UINT32_MOD % t = 0 →
          find_cg hash key_equal t fuel m (m.slots_ i).1 = some i) := by
  obtain ⟨h1, h2, h3⟩ := lookup_present hke hash m hi i hic (hfull i hic) fuel hf
  refine ⟨h1, h2, ?_⟩
  intro t ht
  refine ⟨contains_cg_full hke hash m t ht hfull i hic fuel hf, ?_⟩
  intro hb hlanes
  rcases hlanes with hrk | hdiv
  · exact (h3 t ht hrk).2 hb
  · obtain ⟨r, n, hr, hn, hreach⟩ := lanes_reach_slot m hash t (m.slots_ i).1 i ht hdiv hic
    unfold find_cg
    exact find_cg_loop_full hke t m _ i hi.1 hb hfull rfl
      (fun j hj hk => (key_unique hash m hi.2.1 i j hic hj (hfull i hic) hk.symm).symm)
      n _ fuel (fun r _ => initial_slot_cg_lt m hash r _ hi.1) ⟨r, hr, hreach⟩ (by omega)

theorem full_of_occupied (m : view K V) (h : occupied m = m.capacity_) :
    ∀ j, j < m.capacity_ → (m.slots_ j).1 ≠ m.empty_key_sentinel_ := by
  intro j hj hk
  have := occupied_lt_of_has_empty m ⟨j, hj, hk⟩
  omega

/-! ### Stores reached with exact tile arithmetic -/

theorem reachable_fit_insert_each {key_equal : K → K → Bool} (hash : K → Nat) (fuel : Nat) :
    ∀ (l : List (K × V)) (m : view K V) (rs : List (Nat × Bool)) (m1 : view K V),
      reachable_fit hash key_equal m →
      (∀ p ∈ l, p.1 ≠ m.empty_key_sentinel_ ∧ p.2 ≠ m.empty_value_sentinel_) →
      insert_each (insert hash key_equal fuel) l m = some (rs, m1) →
      reachable_fit hash key_equal m1 := by
  intro l
  induction l with
  | nil =>
    intro m rs m1 hr _ h
    simp only [insert_each, Option.some.injEq, Prod.mk.injEq] at h
    rw [← h.2]
    exact hr
  | cons p rest ih =>
    intro m rs m1 hr hne h
    rw [insert_each_cons] at h
    cases hstep : insert hash key_equal fuel m p with
    | none => rw [hstep] at h; cases h
    | some x =>
      obtain ⟨r, m2⟩ := x
      rw [hstep] at h
      simp only at h
      cases hrest : insert_each (insert hash key_equal fuel) rest m2 with
      | none => rw [hrest] at h; cases h
      | some y =>
        obtain ⟨rs2, m3⟩ := y
        rw [hrest] at h
        simp only [Option.some.injEq, Prod.mk.injEq] at h
        have hp := hne p (List.mem_cons_self _ _)
        have hr2 : reachable_fit hash key_equal m2 :=
          reachable_fit.insert m m2 p fuel r hr hp.1 hp.2 hstep
        have hs : m2.empty_key_sentinel_ = m.empty_key_sentinel_ ∧
            m2.empty_value_sentinel_ = m.empty_value_sentinel_ := by
          rcases insert_loop_some key_equal p m fuel _ r m2 hstep with h1 | h1
          · rw [h1.2.1]; exact ⟨rfl, rfl⟩
          · rw [h1.2.2.2]; exact ⟨rfl, rfl⟩
        rw [← h.2]
        exact ih m2 rs2 m3 hr2
          (fun q hq => by rw [hs.1, hs.2]; exact hne q (List.mem_cons_of_mem _ hq)) hrest

theorem reachable_fit_one_key_store : reachable_fit scenario_hash int_equal one_key_store :=
  reachable_fit.insert scenario_map.dev one_key_store (1, 10) 16 (1, true)
    (reachable_fit.construct 16 (-1) (-1) (by decide)) (by decide) (by decide) rfl

theorem reachable_fit_tile_store : reachable_fit scenario_hash int_equal tile_store :=
  reachable_fit.insert_cg one_key_store tile_store 8 (17, 20) 16 (2, true)
    reachable_fit_one_key_store (by decide) (by decide) (by decide) (by decide) (by decide) rfl

theorem reachable_fit_six_store : reachable_fit scenario_hash int_equal six_store :=
  reachable_fit.insert six_map.dev six_store (5, 50) 6 (5, true)
    (reachable_fit.construct 6 (-1) (-1) (by decide)) (by decide) (by decide) rfl

theorem reachable_probed_store (tmax : Nat) : reachable wrap_hash int_equal tmax probed_store :=
  reachable_insert_each wrap_hash tmax 20 wrap_batch twenty_map.dev _ probed_store
    (reachable.construct 20 (-1) (-1) (by decide)) (by decide) rfl

theorem reachable_edge_store (tmax : Nat) : reachable wrap_hash int_equal tmax edge_store :=
  reachable_insert_each wrap_hash tmax 20 edge_batch twenty_map.dev _ edge_store
    (reachable.construct 20 (-1) (-1) (by decide)) (by decide) rfl

theorem reachable_ring_store (tmax : Nat) : reachable scenario_hash int_equal tmax ring_store :=
  reachable_insert_each scenario_hash tmax 9 ring_batch nine_map.dev _ ring_store
    (reachable.construct 9 (-1) (-1) (by decide)) (by decide) rfl

theorem reachable_three_store (tmax : Nat) :
    reachable scenario_hash int_equal tmax three_store :=
  reachable.insert six_map.dev three_store (3, 30) 6 (3, true)
    (reachable.construct 6 (-1) (-1) (by decide)) (by decide) (by decide) rfl

theorem reachable_twice_store : reachable wrap_hash int_equal 8 twice_store :=
  reachable.insert_cg probed_store twice_store 8 (100, 9) 20 (0, true)
    (reachable_probed_store 8) (by decide) (by decide) (by decide) (by decide) rfl

/-! ### Tile loops return when a lane reaches the key or an empty slot -/

theorem contains_cg_loop_returns {key_equal : K → K → Bool}
    (hke : ∀ a b, key_equal a b = true ↔ a = b) (t : Nat) (m : view K V) (k : K)
    (hC : 0 < m.capacity_) (ht : 1 ≤ t) :
    ∀ (n : Nat) (cur : Nat → Nat) (fuel : Nat), (∀ r, r < t → cur r < m.capacity_) →
      ¬ other_key m k ((cur 0 + n) % m.capacity_) → n < fuel →
      ∃ b, contains_cg_loop key_equal t m k fuel cur = some b := by
  intro n
  induction n with
  | zero =>
    intro cur fuel hcur he hf
    obtain ⟨f, rfl⟩ : ∃ f, fuel = f + 1 := ⟨fuel - 1, by omega⟩
    rw [Nat.add_zero, Nat.mod_eq_of_lt (hcur 0 (by omega))] at he
    exact contains_cg_step_stop hke t m k f cur 0 (by omega) he
  | succ n ih =>
    intro cur fuel hcur he hf
    obtain ⟨f, rfl⟩ : ∃ f, fuel = f + 1 := ⟨fuel - 1, by omega⟩
    by_cases hex : ∃ r, r < t ∧ ¬ other_key m k (cur r)
    · obtain ⟨r, hr, hk⟩ := hex
      exact contains_cg_step_stop hke t m k f cur r hr hk
    · rw [contains_cg_step_other hke t m k f cur
        (fun r hr => not_not.1 (fun h => hex ⟨r, hr, h⟩))]
      apply ih _ f (fun r hr => next_slot_lt m _ hC)
      · rw [next_slot_eq m _ (hcur 0 (by omega)), probe_succ]
        exact he
      · omega

theorem find_cg_loop_returns {key_equal : K → K → Bool}
    (hke : ∀ a b, key_equal a b = true ↔ a = b) (t : Nat) (m : view K V) (k : K)
    (hC : 0 < m.capacity_) (hb : index_fits m t) :
    ∀ (n : Nat) (cur : Nat → Nat) (fuel : Nat), (∀ r, r < t → cur r < m.capacity_) →
      (∃ r, r < t ∧ ¬ other_key m k ((cur r + n * t) % m.capacity_)) → n < fuel →
      ∃ s, find_cg_loop key_equal t m k fuel cur = some s := by
  intro n
  induction n with
  | zero =>
    intro cur fuel hcur he hf
    obtain ⟨f, rfl⟩ : ∃ f, fuel = f + 1 := ⟨fuel - 1, by omega⟩
    obtain ⟨r, hr, hk⟩ := he
    rw [Nat.zero_mul, Nat.add_zero, Nat.mod_eq_of_lt (hcur r hr)] at hk
    exact find_cg_step_stop hke t m k f cur r hr hk
  | succ n ih =>
    intro cur fuel hcur he hf
    obtain ⟨f, rfl⟩ : ∃ f, fuel = f + 1 := ⟨fuel - 1, by omega⟩
    by_cases hex : ∃ r, r < t ∧ ¬ other_key m k (cur r)
    · obtain ⟨r, hr, hk⟩ := hex
      exact find_cg_step_stop hke t m k f cur r hr hk
    · rw [find_cg_step_other hke t m k f cur
        (fun r hr => not_not.1 (fun h => hex ⟨r, hr, h⟩))]
      apply ih _ f
      · intro r hr
        rw [next_slot_cg_fits m t _ (hcur r hr) hb]
        exact Nat.mod_lt _ hC
      · obtain ⟨r, hr, hk⟩ := he
        refine ⟨r, hr, ?_⟩
        rw [next_slot_cg_fits m t _ (hcur r hr) hb, next_window_slot]
        exact hk
      · omega

theorem insert_cg_loop_returns {key_equal : K → K → Bool}
    (hke : ∀ a b, key_equal a b = true ↔ a = b) (t : Nat) (m : view K V) (p : K × V)
    (hC : 0 < m.capacity_) (hb : index_fits m t) (he : empty_inv m)
    (hne : p.1 ≠ m.empty_key_sentinel_) :
    ∀ (n : Nat) (cur : Nat → Nat) (fuel : Nat), (∀ r, r < t → cur r < m.capacity_) →
      (∃ r, r < t ∧ ¬ other_key m p.1 ((cur r + n * t) % m.capacity_)) → n < fuel →
      ∃ x, insert_cg_loop key_equal t p fuel m cur = some x := by
  intro n
  induction n with
  | zero =>
    intro cur fuel hcur hex hf
    obtain ⟨f, rfl⟩ : ∃ f, fuel = f + 1 := ⟨fuel - 1, by omega⟩
    obtain ⟨r, hr, hk⟩ := hex
    rw [Nat.zero_mul, Nat.add_zero, Nat.mod_eq_of_lt (hcur r hr)] at hk
    exact insert_cg_step_stop hke t m p f cur hne (fun r hr h => he _ (hcur r hr) h) r hr hk
  | succ n ih =>
    intro cur fuel hcur hreach hf
    obtain ⟨f, rfl⟩ : ∃ f, fuel = f + 1 := ⟨fuel - 1, by omega⟩
    by_cases hex : ∃ r, r < t ∧ ¬ other_key m p.1 (cur r)
    · obtain ⟨r, hr, hk⟩ := hex
      exact insert_cg_step_stop hke t m p f cur hne (fun r hr h => he _ (hcur r hr) h) r hr hk
    · rw [insert_cg_step_other hke t m p f cur
        (fun r hr => not_not.1 (fun h => hex ⟨r, hr, h⟩))]
      apply ih _ f
      · intro r hr
        rw [next_slot_cg_fits m t _ (hcur r hr) hb]
        exact Nat.mod_lt _ hC
      · obtain ⟨r, hr, hk⟩ := hreach
        refine ⟨r, hr, ?_⟩
        rw [next_slot_cg_fits m t _ (hcur r hr) hb, next_window_slot]
        exact hk
      · omega

/-! ## Interleaved inserts -/

/-! ### Stores of one field -/

@[simp] theorem store_first_key (m : view K V) (s : Nat) (k : K) (i : Nat) :
    ((m.store_first s k).slots_ i).1 = if i = s then k else (m.slots_ i).1 := by
  by_cases h : i = s <;> simp [view.store_first, h]

@[simp] theorem store_first_value (m : view K V) (s : Nat) (k : K) (i : Nat) :
    ((m.store_first s k).slots_ i).2 = (m.slots_ i).2 := by
  by_cases h : i = s <;> simp [view.store_first, h]

@[simp] theorem store_second_key (m : view K V) (s : Nat) (v : V) (i : Nat) :
    ((m.store_second s v).slots_ i).1 = (m.slots_ i).1 := by
  by_cases h : i = s <;> simp [view.store_second, h]

@[simp] theorem store_second_value (m : view K V) (s : Nat) (v : V) (i : Nat) :
    ((m.store_second s v).slots_ i).2 = if i = s then v else (m.slots_ i).2 := by
  by_cases h : i = s <;> simp [view.store_second, h]

@[simp] theorem store_first_capacity (m : view K V) (s : Nat) (k : K) :
    (m.store_first s k).capacity_ = m.capacity_ := rfl

@[simp] theorem store_first_empty_key (m : view K V) (s : Nat) (k : K) :
    (m.store_first s k).empty_key_sentinel_ = m.empty_key_sentinel_ := rfl

@[simp] theorem store_second_capacity (m : view K V) (s : Nat) (v : V) :
    (m.store_second s v).capacity_ = m.capacity_ := rfl

@[simp] theorem store_second_empty_key (m : view K V) (s : Nat) (v : V) :
    (m.store_second s v).empty_key_sentinel_ = m.empty_key_sentinel_ := rfl

@[simp] theorem store_second_empty_value (m : view K V) (s : Nat) (v : V) :
    (m.store_second s v).empty_value_sentinel_ = m.empty_value_sentinel_ := rfl

theorem occupied_store_second (m : view K V) (s : Nat) (v : V) :
    occupied (m.store_second s v) = occupied m := by
  unfold occupied
  simp only [store_second_capacity, store_second_key, store_second_empty_key]

theorem occupied_store_first (m : view K V) (s : Nat) (k : K) (hs : s < m.capacity_)
    (hk : (m.slots_ s).1 = m.empty_key_sentinel_) (hne : k ≠ m.empty_key_sentinel_) :
    occupied (m.store_first s k) = occupied m + 1 := by
  unfold occupied
  simp only [store_first_capacity, store_first_key, store_first_empty_key]
  rw [countP_change (fun i => decide ((m.slots_ i).1 ≠ m.empty_key_sentinel_))
    (fun i => decide ((if i = s then k else (m.slots_ i).1) ≠ m.empty_key_sentinel_)) s
    (by simp [hk]) (by simp [hne]) (fun j hj => by simp [hj]) _ (List.nodup_range _)]
  simp [hs]

/-! ### Stores that keep the occupied slots -/

theorem keeps_keys_refl (m : view K V) : keeps_keys m m := ⟨rfl, rfl, fun _ _ => rfl⟩

theorem keeps_keys_store_second (m : view K V) (s : Nat) (v : V) :
    keeps_keys m (m.store_second s v) :=
  ⟨rfl, rfl, fun i _ => store_second_key m s v i⟩

theorem keeps_keys_store_first (m : view K V) (s : Nat) (k : K)
    (hs : (m.slots_ s).1 = m.empty_key_sentinel_) : keeps_keys m (m.store_first s k) := by
  refine ⟨rfl, rfl, fun i hi => ?_⟩
  have : i ≠ s := fun h => hi (h ▸ hs)
  simp [this]

theorem other_key_keeps (m m1 : view K V) (hk : keeps_keys m m1) (k : K) (i : Nat)
    (h : other_key m k i) : other_key m1 k i := by
  unfold other_key at h ⊢
  rw [hk.2.2 i h.2, hk.2.1]
  exact h

theorem probe_path_keeps (hash : K → Nat) (m m1 : view K V) (hk : keeps_keys m m1) (k : K)
    (s : Nat) (h : probe_path hash m k s) : probe_path hash m1 k s := by
  obtain ⟨D, hD, ho⟩ := h
  refine ⟨D, by rw [hk.1]; exact hD, fun d hd => ?_⟩
  rw [hk.1]
  exact other_key_keeps m m1 hk k _ (ho d hd)

theorem window_inv_keeps (hash : K → Nat) (m m1 : view K V) (hk : keeps_keys m m1)
    (w : insert_call K V) (h : window_inv hash m w) : window_inv hash m1 w := by
  unfold window_inv at h ⊢
  cases ht : w.tile with
  | none => simp only
  | some t =>
    simp only [ht] at h ⊢
    obtain ⟨h1, h2, h3, a, hl, ho⟩ := h
    refine ⟨h1, ?_, ?_, a, ?_, ?_⟩
    · unfold index_fits at h2 ⊢
      rw [hk.1]; exact h2
    · unfold rank_fits at h3 ⊢
      rw [hk.1]; exact h3
    · unfold lanes_at at hl ⊢
      rw [hk.1]; exact hl
    · intro d hd
      rw [hk.1]
      exact other_key_keeps m m1 hk _ _ (ho d hd)

/-- The frame of a step: a call that is not the one that moves keeps its knowledge when the
store keeps the occupied slots, does not receive the key of the call, and keeps the value
fields that hold the value of the call. -/
theorem pc_inv_keeps (hash : K → Nat) (m m1 : view K V) (hk : keeps_keys m m1)
    (w : insert_call K V) (hne : w.insert_pair.1 ≠ m.empty_key_sentinel_)
    (habs : absent m w.insert_pair.1 → absent m1 w.insert_pair.1)
    (hval : ∀ s, holds_value w s → (m1.slots_ s).2 = (m.slots_ s).2)
    (h : pc_inv hash m w) : pc_inv hash m1 w := by
  unfold pc_inv at h ⊢
  cases hpc : w.pc with
  | load L =>
    simp only [hpc] at h ⊢
    refine ⟨h.1, habs h.2.1, fun r x hx hxe => ?_⟩
    rw [hk.2.1] at hxe
    have := h.2.2 r x hx hxe
    rw [hk.2.2 _ (by rw [this]; exact hxe)]
    exact this
  | key_exchange src =>
    simp only [hpc] at h ⊢
    exact ⟨habs h.1, probe_path_keeps hash m m1 hk _ _ h.2⟩
  | value_exchange src ks e =>
    simp only [hpc] at h ⊢
    cases ks with
    | true =>
      simp only [if_true] at h ⊢
      rw [hk.1, hk.2.1, hk.2.2 _ (by rw [h.2.2]; exact hne)]
      exact h
    | false =>
      simp only [Bool.false_eq_true, if_false] at h ⊢
      obtain ⟨h1, h2, h3, h4⟩ := h
      refine ⟨habs h1, probe_path_keeps hash m m1 hk _ _ h2, ?_, ?_⟩
      · rw [hk.2.2 _ (by rw [h3]; exact h4)]; exact h3
      · rw [hk.2.1]; exact h4
  | value_retry src e =>
    simp only [hpc] at h ⊢
    rw [hk.1, hk.2.1, hk.2.2 _ (by rw [h.2.2]; exact hne)]
    exact h
  | value_revert src e =>
    simp only [hpc] at h ⊢
    obtain ⟨h1, h2, h3, h4, h5⟩ := h
    refine ⟨habs h1, probe_path_keeps hash m m1 hk _ _ h2, ?_, ?_, ?_⟩
    · rw [hk.2.2 _ (by rw [h3]; exact h4)]; exact h3
    · rw [hk.2.1]; exact h4
    · rw [hval _ (by unfold holds_value; simp only [hpc])]; exact h5
  | returned r =>
    simp only [hpc] at h ⊢
    obtain ⟨h1, h2, h3⟩ := h
    refine ⟨h1, by rw [hk.1]; exact h2, ?_⟩
    have hkey : (m1.slots_ r.1).1 = (m.slots_ r.1).1 :=
      hk.2.2 _ (by rw [h3]; exact hne)
    have hv : (m1.slots_ r.1).2 = (m.slots_ r.1).2 :=
      hval _ (by unfold holds_value; simp only [hpc])
    rw [← h3]
    exact Prod.ext hkey hv

/-! ### The invariant of the slot store under the writes of the protocol -/

theorem table_inv_store_second (hash : K → Nat) (m : view K V) (s : Nat) (v : V)
    (hi : table_inv hash m)
    (h : v = m.empty_value_sentinel_ ∨ (m.slots_ s).1 ≠ m.empty_key_sentinel_) :
    table_inv hash (m.store_second s v) := by
  obtain ⟨hC, hp, he⟩ := hi
  refine ⟨hC, ?_, ?_⟩
  · intro i hic hk
    simp only [store_second_capacity, store_second_key, store_second_empty_key] at hic hk ⊢
    obtain ⟨d, hd, hpd, hod⟩ := hp i hic hk
    exact ⟨d, hd, hpd, fun e hed =>
      other_key_keeps m _ (keeps_keys_store_second m s v) _ _ (hod e hed)⟩
  · intro i hic hk
    simp only [store_second_capacity, store_second_key, store_second_empty_key,
      store_second_value, store_second_empty_value] at hic hk ⊢
    by_cases his : i = s
    · rw [if_pos his]
      rcases h with h | h
      · exact h
      · exact absurd (his ▸ hk) h
    · rw [if_neg his]
      exact he i hic hk

theorem table_inv_store_first (hash : K → Nat) (m : view K V) (s : Nat) (k : K)
    (hi : table_inv hash m) (hne : k ≠ m.empty_key_sentinel_)
    (hpath : probe_path hash m k s) (hs : (m.slots_ s).1 = m.empty_key_sentinel_) :
    table_inv hash (m.store_first s k) := by
  obtain ⟨hC, hp, he⟩ := hi
  have hkk := keeps_keys_store_first m s k hs
  obtain ⟨D, hD, ho⟩ := hpath
  refine ⟨hC, ?_, ?_⟩
  · intro i hic hk
    simp only [store_first_capacity, store_first_key, store_first_empty_key] at hic hk ⊢
    by_cases his : i = s
    · simp only [if_pos his] at hk ⊢
      refine ⟨D % m.capacity_, Nat.mod_lt _ hC, ?_, fun e hed => ?_⟩
      · rw [his, hD, Nat.add_mod_mod]
      · exact other_key_keeps m _ hkk _ _
          (ho e (lt_of_lt_of_le hed (Nat.mod_le _ _)))
    · simp only [if_neg his] at hk ⊢
      obtain ⟨d, hd, hpd, hod⟩ := hp i hic hk
      exact ⟨d, hd, hpd, fun e hed => other_key_keeps m _ hkk _ _ (hod e hed)⟩
  · intro i hic hk
    simp only [store_first_capacity, store_first_key, store_first_empty_key,
      store_first_value, store_first_empty_value] at hic hk ⊢
    by_cases his : i = s
    · simp only [if_pos his] at hk
      exact absurd hk hne
    · simp only [if_neg his] at hk
      exact he i hic hk

/-! ### Lists of calls -/

theorem countP_set {α : Type} (p : α → Bool) (b : α) :
    ∀ (l : List α) (i : Nat) (a : α), l[i]? = some a →
      (l.set i b).countP p + (if p a then 1 else 0) = l.countP p + (if p b then 1 else 0) := by
  intro l
  induction l with
  | nil => intro i a h; simp at h
  | cons x l ih =>
    intro i a h
    cases i with
    | zero =>
      simp only [List.getElem?_cons_zero, Option.some.injEq] at h
      subst h
      simp only [List.set_cons_zero, List.countP_cons]
      omega
    | succ i =>
      simp only [List.getElem?_cons_succ] at h
      have := ih i a h
      simp only [List.set_cons_succ, List.countP_cons]
      omega

theorem getElem?_set_cases {α : Type} (l : List α) (i j : Nat) (b w : α)
    (h : (l.set i b)[j]? = some w) : (j = i ∧ w = b) ∨ (j ≠ i ∧ l[j]? = some w) := by
  by_cases hji : j = i
  · subst hji
    left
    refine ⟨rfl, ?_⟩
    by_cases hl : j < l.length
    · rw [List.getElem?_set_self hl] at h
      exact (Option.some.inj h).symm
    · have : (l.set j b)[j]? = none := by
        rw [List.getElem?_eq_none_iff]; simp; omega
      rw [this] at h
      cases h
  · right
    refine ⟨hji, ?_⟩
    rw [List.getElem?_set_ne (fun h => hji h.symm)] at h
    exact h

/-! ### One step of one call -/

theorem holder_value (hash : K → Nat) (m : view K V) (w : insert_call K V) (s : Nat)
    (h : pc_inv hash m w) (hs : holds_value w s) : (m.slots_ s).2 = w.insert_pair.2 := by
  unfold pc_inv at h
  unfold holds_value at hs
  cases hpc : w.pc with
  | load L => simp only [hpc] at hs
  | key_exchange src => simp only [hpc] at hs
  | value_exchange src ks e => simp only [hpc] at hs
  | value_retry src e => simp only [hpc] at hs
  | value_revert src e =>
    simp only [hpc] at hs h
    rw [← hs]; exact h.2.2.2.2
  | returned r =>
    simp only [hpc] at hs h
    rw [← hs, h.2.2]

theorem absent_store_second (m : view K V) (s : Nat) (v : V) (k : K) (h : absent m k) :
    absent (m.store_second s v) k := by
  intro i hi
  simp only [store_second_capacity, store_second_key] at hi ⊢
  exact h i hi

theorem absent_store_first (m : view K V) (s : Nat) (k0 k : K) (hne : k0 ≠ k)
    (h : absent m k) : absent (m.store_first s k0) k := by
  intro i hi
  simp only [store_first_capacity, store_first_key] at hi ⊢
  by_cases his : i = s
  · rw [if_pos his]; exact hne
  · rw [if_neg his]; exact h i hi

/-- The invariant after a step of call `i` that leaves the store `m1` and the call `u1`. -/
theorem machine_inv_update (hash : K → Nat) (σ : machine K V) (i : Nat)
    (u u1 : insert_call K V) (m1 : view K V)
    (hi : machine_inv hash σ) (hu : σ.calls[i]? = some u)
    (hk : keeps_keys σ.store m1)
    (hev : m1.empty_value_sentinel_ = σ.store.empty_value_sentinel_)
    (ht : table_inv hash m1) (hp : u1.insert_pair = u.insert_pair)
    (hw : window_inv hash m1 u1) (hpc : pc_inv hash m1 u1)
    (habs : ∀ (j : Nat) (w : insert_call K V), j ≠ i → σ.calls[j]? = some w →
      absent σ.store w.insert_pair.1 → absent m1 w.insert_pair.1)
    (hval : ∀ (j : Nat) (w : insert_call K V) (s : Nat), j ≠ i → σ.calls[j]? = some w →
      holds_value w s → (m1.slots_ s).2 = (σ.store.slots_ s).2)
    (hhold : ∀ s, holds_value u1 s → holds_value u s ∨
      ∀ (j : Nat) (w : insert_call K V), j ≠ i → σ.calls[j]? = some w → ¬ holds_value w s)
    (hcount : occupied m1 + (if holds_key u then 1 else 0)
      = occupied σ.store + (if holds_key u1 then 1 else 0)) :
    machine_inv hash { store := m1, calls := σ.calls.set i u1 } := by
  obtain ⟨h1, h2, h3, h4, h5⟩ := hi
  refine ⟨ht, ?_, ?_, ?_, ?_⟩
  · intro j w hjw
    simp only at hjw ⊢
    rcases getElem?_set_cases _ _ _ _ _ hjw with ⟨_, hwu⟩ | ⟨hji, hjw1⟩
    · subst hwu
      obtain ⟨a, b, _, _⟩ := h2 i u hu
      rw [hp, hk.2.1, hev]
      exact ⟨a, b, hw, hpc⟩
    · obtain ⟨a, b, c, d⟩ := h2 j w hjw1
      rw [hk.2.1, hev]
      exact ⟨a, b, window_inv_keeps hash _ _ hk w c,
        pc_inv_keeps hash _ _ hk w a (habs j w hji hjw1) (fun s hs => hval j w s hji hjw1 hs) d⟩
  · intro j1 j2 w1 w2 hw1 hw2 hkey
    simp only at hw1 hw2
    rcases getElem?_set_cases _ _ _ _ _ hw1 with ⟨e1, hwu1⟩ | ⟨hji1, hjw1⟩ <;>
      rcases getElem?_set_cases _ _ _ _ _ hw2 with ⟨e2, hwu2⟩ | ⟨hji2, hjw2⟩
    · rw [e1, e2]
    · subst hwu1
      rw [hp] at hkey
      rw [e1]
      exact h3 i j2 u w2 hu hjw2 hkey
    · subst hwu2
      rw [hp] at hkey
      rw [e2]
      exact h3 j1 i w1 u hjw1 hu hkey
    · exact h3 j1 j2 w1 w2 hjw1 hjw2 hkey
  · intro j1 j2 w1 w2 s hw1 hw2 hs1 hs2
    simp only at hw1 hw2
    rcases getElem?_set_cases _ _ _ _ _ hw1 with ⟨e1, hwu1⟩ | ⟨hji1, hjw1⟩ <;>
      rcases getElem?_set_cases _ _ _ _ _ hw2 with ⟨e2, hwu2⟩ | ⟨hji2, hjw2⟩
    · rw [e1, e2]
    · subst hwu1
      rcases hhold s hs1 with h | h
      · rw [e1]; exact h4 i j2 u w2 s hu hjw2 h hs2
      · exact absurd hs2 (h j2 w2 hji2 hjw2)
    · subst hwu2
      rcases hhold s hs2 with h | h
      · rw [e2]; exact h4 j1 i w1 u s hjw1 hu hs1 h
      · exact absurd hs1 (h j1 w1 hji1 hjw1)
    · exact h4 j1 j2 w1 w2 s hjw1 hjw2 hs1 hs2
  · simp only
    have := countP_set holds_key u1 σ.calls i u hu
    omega

/-- The tile overload after a load: the call returns no duplicate, and the elected lane stands
behind a run of slots occupied by other keys. -/
theorem after_load_ok {key_equal : K → K → Bool} (hke : ∀ a b, key_equal a b = true ↔ a = b)
    (hash : K → Nat) (m : view K V) (t : Nat) (u : insert_call K V) (L : Nat → Option K)
    (hC : 0 < m.capacity_) (hne : u.insert_pair.1 ≠ m.empty_key_sentinel_)
    (htile : u.tile = some t) (hw : window_inv hash m u) (habs : absent m u.insert_pair.1)
    (hL : ∀ r x, L r = some x → x ≠ m.empty_key_sentinel_ → (m.slots_ (u.current_slot r)).1 = x) :
    (u.after_load key_equal m t L).insert_pair = u.insert_pair ∧
      window_inv hash m (u.after_load key_equal m t L) ∧
      pc_inv hash m (u.after_load key_equal m t L) ∧
      (∀ s, ¬ holds_value (u.after_load key_equal m t L) s) ∧
      holds_key (u.after_load key_equal m t L) = false := by
  have hw0 := hw
  unfold window_inv at hw
  simp only [htile] at hw
  obtain ⟨ht1, hb, hrk, a, hl, ho⟩ := hw
  have hcur : ∀ r, r < t → u.current_slot r < m.capacity_ := by
    intro r hr
    rw [hl r hr]
    exact Nat.mod_lt _ hC
  have hother : ∀ r x, r < t → L r = some x → x ≠ m.empty_key_sentinel_ →
      other_key m u.insert_pair.1 ((hash u.insert_pair.1 + (a + r)) % m.capacity_) := by
    intro r x hr hx hxe
    have h1 := hL r x hx hxe
    rw [hl r hr] at h1
    have h2 := habs _ (Nat.mod_lt (hash u.insert_pair.1 + a + r) hC)
    rw [Nat.add_assoc] at h1 h2
    exact ⟨h2, by rw [h1]; exact hxe⟩
  unfold insert_call.after_load
  split
  · next hall =>
    have hall1 : ∀ r, r < t → ∃ x, L r = some x := by
      intro r hr
      have := List.all_eq_true.1 hall r (List.mem_range.2 hr)
      exact Option.isSome_iff_exists.1 this
    simp only
    split
    · next hex =>
      exfalso
      obtain ⟨r, hr, hp⟩ := (mask_set_ballot t _).1 hex
      obtain ⟨x, hx⟩ := hall1 r hr
      simp only [hx] at hp
      have hxk := (hke _ _).1 hp
      by_cases hxe : x = m.empty_key_sentinel_
      · exact hne (hxk ▸ hxe)
      · exact habs _ (hcur r hr) ((hL r x hx hxe).trans hxk)
    · split
      · next hem =>
        obtain ⟨r0, hr0, hp0, hf0⟩ := exists_first_lane t _ ((mask_set_ballot t _).1 hem)
        have hsrc := (ballot_first t _ r0 hr0 hp0 hf0).2
        rw [hsrc]
        refine ⟨rfl, hw0, ?_, fun s hs => ?_, rfl⟩
        · simp only [pc_inv]
          refine ⟨habs, a + r0, ?_, fun d hd => ?_⟩
          · rw [hl r0 hr0, Nat.add_assoc]
          · by_cases hda : d < a
            · exact ho d hda
            · obtain ⟨x, hx⟩ := hall1 (d - a) (by omega)
              have hfx := hf0 (d - a) (by omega)
              simp only [hx, decide_eq_false_iff_not, Option.some.injEq] at hfx
              have := hother (d - a) x (by omega) hx hfx
              rw [show a + (d - a) = d by omega] at this
              exact this
        · simp only [holds_value] at hs
      · next hem =>
        have hem1 : ∀ r, r < t → ∀ x, L r = some x → x ≠ m.empty_key_sentinel_ := by
          intro r hr x hx hxe
          apply hem
          rw [mask_set_ballot]
          exact ⟨r, hr, by simp [hx, hxe]⟩
        refine ⟨rfl, ?_, ?_, fun s hs => ?_, rfl⟩
        · simp only [window_inv, htile]
          refine ⟨ht1, hb, hrk, a + t, lanes_at_next_cg m t _ a _ hC hb hl, fun d hd => ?_⟩
          by_cases hda : d < a
          · exact ho d hda
          · obtain ⟨x, hx⟩ := hall1 (d - a) (by omega)
            have := hother (d - a) x (by omega) hx (hem1 _ (by omega) x hx)
            rw [show a + (d - a) = d by omega] at this
            exact this
        · simp only [pc_inv]
          exact ⟨⟨t, htile⟩, habs, fun r x hx => by simp at hx⟩
        · simp only [holds_value] at hs
  · refine ⟨rfl, hw0, ?_, fun s hs => ?_, rfl⟩
    · simp only [pc_inv]
      exact ⟨⟨t, htile⟩, habs, hL⟩
    · simp only [holds_value] at hs

/-- The call after a key exchange that met another key: the single-lane overload stands on the
next slot of the probe path, the tile overload loads its window again. -/
theorem after_exchange_continue_ok {key_equal : K → K → Bool}
    (hke : ∀ a b, key_equal a b = true ↔ a = b) (hash : K → Nat) (m : view K V)
    (u : insert_call K V) (src : Nat) (e : K) (hC : 0 < m.capacity_)
    (hw : window_inv hash m u) (habs : absent m u.insert_pair.1)
    (hpath : probe_path hash m u.insert_pair.1 (u.current_slot src))
    (hkey : (m.slots_ (u.current_slot src)).1 = e) (hee : e ≠ m.empty_key_sentinel_) :
    (u.after_exchange key_equal m src insert_result.CONTINUE e).insert_pair = u.insert_pair ∧
      window_inv hash m (u.after_exchange key_equal m src insert_result.CONTINUE e) ∧
      pc_inv hash m (u.after_exchange key_equal m src insert_result.CONTINUE e) ∧
      (∀ s, ¬ holds_value (u.after_exchange key_equal m src insert_result.CONTINUE e) s) ∧
      holds_key (u.after_exchange key_equal m src insert_result.CONTINUE e) = false := by
  obtain ⟨D, hD, ho⟩ := hpath
  have hs : u.current_slot src < m.capacity_ := by rw [hD]; exact Nat.mod_lt _ hC
  have hek : u.insert_pair.1 ≠ e := fun h => habs _ hs (hkey.trans h.symm)
  have hkf : key_equal u.insert_pair.1 e = false := keq_false hke hek
  have hkf1 : ¬ key_equal u.insert_pair.1 e = true := by rw [hkf]; exact Bool.false_ne_true
  unfold insert_call.after_exchange
  split
  · next htile =>
    rw [if_neg (by decide), if_neg hkf1]
    refine ⟨rfl, ?_, ?_, fun s hs => ?_, rfl⟩
    · simp only [window_inv, htile]
    · simp only [pc_inv]
      refine ⟨habs, D + 1, ?_, fun d hd => ?_⟩
      · rw [next_slot_eq m _ hs, hD, Nat.mod_add_mod, Nat.add_assoc]
      · by_cases hdD : d < D
        · exact ho d hdD
        · have : d = D := by omega
          rw [this, ← hD]
          exact ⟨by rw [hkey]; exact fun h => hek h.symm, by rw [hkey]; exact hee⟩
    · simp only [holds_value] at hs
  · next t htile =>
    rw [if_neg hkf1]
    refine ⟨rfl, hw, ?_, fun s hs => ?_, rfl⟩
    · simp only [pc_inv]
      exact ⟨⟨t, htile⟩, habs, fun r x hx => by simp at hx⟩
    · simp only [holds_value] at hs

/-- The call after both exchanges succeeded: it returns its slot with `true`. -/
theorem after_exchange_success {key_equal : K → K → Bool}
    (hke : ∀ a b, key_equal a b = true ↔ a = b) (m : view K V)
    (u : insert_call K V) (src : Nat) (e : K) (hek : u.insert_pair.1 ≠ e) :
    u.after_exchange key_equal m src insert_result.SUCCESS e
      = { u with pc := insert_pc.returned (u.current_slot src, true) } := by
  have hkf : key_equal u.insert_pair.1 e = false := keq_false hke hek
  have hkf1 : ¬ key_equal u.insert_pair.1 e = true := by rw [hkf]; exact Bool.false_ne_true
  unfold insert_call.after_exchange
  split
  · rw [if_pos rfl]
  · rw [if_neg hkf1]
    rfl

theorem probe_path_lt (hash : K → Nat) (m : view K V) (k : K) (s : Nat) (hC : 0 < m.capacity_)
    (h : probe_path hash m k s) : s < m.capacity_ := by
  obtain ⟨D, hD, _⟩ := h
  rw [hD]
  exact Nat.mod_lt _ hC

theorem compare_exchange_strong_success {α : Type} [DecidableEq α] (cell expected desired : α)
    (h : cell = expected) :
    compare_exchange_strong cell expected desired = (desired, expected, true) := by
  unfold compare_exchange_strong
  rw [if_pos h]

theorem compare_exchange_strong_failure {α : Type} [DecidableEq α] (cell expected desired : α)
    (h : cell ≠ expected) :
    compare_exchange_strong cell expected desired = (cell, cell, false) := by
  unfold compare_exchange_strong
  rw [if_neg h]

/-- Every step of every call keeps the invariant. -/
theorem machine_inv_step {key_equal : K → K → Bool} (hke : ∀ a b, key_equal a b = true ↔ a = b)
    (hash : K → Nat) (σ : machine K V) (i lane : Nat) (hi : machine_inv hash σ) :
    machine_inv hash (σ.step key_equal i lane) := by
  unfold machine.step
  cases hu : σ.calls[i]? with
  | none => exact hi
  | some u =>
    simp only
    have hi0 := hi
    obtain ⟨hT, hcalls, hkeys, hholds, hocc⟩ := hi
    obtain ⟨hne, hnv, hw, hpc⟩ := hcalls i u hu
    have hC := hT.1
    have hstay : ∀ u1 : insert_call K V, u1.insert_pair = u.insert_pair →
        window_inv hash σ.store u1 → pc_inv hash σ.store u1 →
        (∀ s, holds_value u1 s → holds_value u s) → holds_key u1 = holds_key u →
        machine_inv hash { store := σ.store, calls := σ.calls.set i u1 } :=
      fun u1 h1 h2 h3 h4 h5 => machine_inv_update hash σ i u u1 σ.store hi0 hu
        (keeps_keys_refl _) rfl hT h1 h2 h3 (fun _ _ _ _ h => h) (fun _ _ _ _ _ _ => rfl)
        (fun s hs => Or.inl (h4 s hs)) (by rw [h5])
    have hfree_ev : ∀ s, (σ.store.slots_ s).2 = σ.store.empty_value_sentinel_ →
        ∀ (j : Nat) (w : insert_call K V), j ≠ i → σ.calls[j]? = some w →
          ¬ holds_value w s := by
      intro s hs j w _ hjw hh
      obtain ⟨_, b, _, d⟩ := hcalls j w hjw
      exact b ((holder_value hash _ w s d hh).symm.trans hs)
    have hfree_hold : ∀ s, holds_value u s →
        ∀ (j : Nat) (w : insert_call K V), j ≠ i → σ.calls[j]? = some w →
          ¬ holds_value w s :=
      fun s hs j w hji hjw hh => hji (hholds j i w u s hjw hu hh hs)
    have hwrite : ∀ (s : Nat) (x : V) (u1 : insert_call K V),
        (x = σ.store.empty_value_sentinel_ ∨ (σ.store.slots_ s).1 ≠ σ.store.empty_key_sentinel_) →
        (∀ (j : Nat) (w : insert_call K V), j ≠ i → σ.calls[j]? = some w →
          ¬ holds_value w s) →
        u1.insert_pair = u.insert_pair →
        window_inv hash (σ.store.store_second s x) u1 →
        pc_inv hash (σ.store.store_second s x) u1 →
        (∀ s1, holds_value u1 s1 → s1 = s) → holds_key u1 = holds_key u →
        machine_inv hash { store := σ.store.store_second s x, calls := σ.calls.set i u1 } := by
      intro s x u1 hx hfree h1 h2 h3 h4 h5
      refine machine_inv_update hash σ i u u1 _ hi0 hu (keeps_keys_store_second _ s x) rfl
        (table_inv_store_second hash _ s x hT hx) h1 h2 h3
        (fun _ w _ _ h => absent_store_second _ s x _ h) ?_ ?_ ?_
      · intro j w s1 hji hjw hh
        have : s1 ≠ s := fun h => hfree j w hji hjw (h ▸ hh)
        simp only [store_second_value, if_neg this]
      · intro s1 hs1
        right
        rw [h4 s1 hs1]
        exact hfree
      · rw [h5, occupied_store_second]
    cases hpcu : u.pc with
    | returned r =>
      have hstep : u.step key_equal σ.store lane = (σ.store, u) := by
        unfold insert_call.step
        simp only [hpcu]
      rw [hstep]
      exact hstay u rfl hw hpc (fun _ h => h) rfl
    | load L =>
      have hk0 : holds_key u = false := by unfold holds_key; simp only [hpcu]
      have hpc1 := hpc
      unfold pc_inv at hpc1
      simp only [hpcu] at hpc1
      obtain ⟨⟨t, htile⟩, habs, hL⟩ := hpc1
      by_cases hl : lane < t ∧ L lane = none
      · have hstep : u.step key_equal σ.store lane = (σ.store, u.after_load key_equal σ.store t
            (fun r => if r = lane then some (σ.store.slots_ (u.current_slot lane)).1
              else L r)) := by
          unfold insert_call.step
          simp only [hpcu, htile]
          rw [if_pos hl]
        rw [hstep]
        obtain ⟨h1, h2, h3, h4, h5⟩ := after_load_ok hke hash σ.store t u
          (fun r => if r = lane then some (σ.store.slots_ (u.current_slot lane)).1 else L r)
          hC hne htile hw habs (by
            intro r x hx hxe
            by_cases hr : r = lane
            · simp only [if_pos hr, Option.some.injEq] at hx
              rw [hr]; exact hx
            · simp only [if_neg hr] at hx
              exact hL r x hx hxe)
        exact hstay _ h1 h2 h3 (fun s hs => absurd hs (h4 s)) (h5.trans hk0.symm)
      · have hstep : u.step key_equal σ.store lane = (σ.store, u) := by
          unfold insert_call.step
          simp only [hpcu, htile]
          rw [if_neg hl]
        rw [hstep]
        exact hstay u rfl hw hpc (fun _ h => h) rfl
    | key_exchange src =>
      have hk0 : holds_key u = false := by unfold holds_key; simp only [hpcu]
      have hpc1 := hpc
      unfold pc_inv at hpc1
      simp only [hpcu] at hpc1
      obtain ⟨habs, hpath⟩ := hpc1
      have hs := probe_path_lt hash _ _ _ hC hpath
      by_cases hk : (σ.store.slots_ (u.current_slot src)).1 = σ.store.empty_key_sentinel_
      · have hstep : u.step key_equal σ.store lane
            = (σ.store.store_first (u.current_slot src) u.insert_pair.1,
              { u with pc := insert_pc.value_exchange src true σ.store.empty_key_sentinel_ }) := by
          unfold insert_call.step
          simp only [hpcu]
          rw [compare_exchange_strong_success _ _ _ hk]
        rw [hstep]
        have hkk := keeps_keys_store_first σ.store (u.current_slot src) u.insert_pair.1 hk
        refine machine_inv_update hash σ i u _ _ hi0 hu hkk rfl
          (table_inv_store_first hash _ _ _ hT hne hpath hk) rfl
          (window_inv_keeps hash _ _ hkk u hw) ?_ ?_ ?_ ?_ ?_
        · simp only [pc_inv, if_true, store_first_capacity, store_first_key,
            store_first_empty_key]
          exact ⟨trivial, hs, trivial⟩
        · intro j w hji hjw h
          exact absent_store_first _ _ _ _
            (fun hkw => hji (hkeys j i w u hjw hu hkw.symm)) h
        · intro j w s _ _ _
          simp only [store_first_value]
        · intro s hh
          simp only [holds_value] at hh
        · rw [hk0, occupied_store_first _ _ _ hs hk hne]
          simp only [holds_key, if_true, Bool.false_eq_true, if_false]
      · have hstep : u.step key_equal σ.store lane
            = (σ.store, { u with pc := (insert_pc.value_exchange src false
                (σ.store.slots_ (u.current_slot src)).1) }) := by
          unfold insert_call.step
          simp only [hpcu]
          rw [compare_exchange_strong_failure _ _ _ hk, store_first_self]
        rw [hstep]
        refine hstay _ rfl hw ?_ (fun s hh => ?_) ?_
        · simp only [pc_inv, Bool.false_eq_true, if_false]
          exact ⟨habs, hpath, trivial, hk⟩
        · simp only [holds_value] at hh
        · rw [hk0]; rfl
    | value_exchange src ks e =>
      cases ks with
      | true =>
        have hk0 : holds_key u = true := by unfold holds_key; simp only [hpcu]
        have hpc1 := hpc
        unfold pc_inv at hpc1
        simp only [hpcu, if_true] at hpc1
        obtain ⟨he, hs, hkey⟩ := hpc1
        by_cases hv : (σ.store.slots_ (u.current_slot src)).2 = σ.store.empty_value_sentinel_
        · have hstep : u.step key_equal σ.store lane
              = (σ.store.store_second (u.current_slot src) u.insert_pair.2,
                { u with pc := insert_pc.returned (u.current_slot src, true) }) := by
            unfold insert_call.step
            simp only [hpcu, if_true]
            rw [compare_exchange_strong_success _ _ _ hv]
            simp only [if_true]
            rw [after_exchange_success hke _ u src e (by rw [he]; exact hne)]
          rw [hstep]
          refine hwrite _ _ _ (Or.inr (by rw [hkey]; exact hne)) (hfree_ev _ hv) rfl
            (window_inv_keeps hash _ _ (keeps_keys_store_second _ _ _) u hw) ?_ ?_ ?_
          · simp only [pc_inv, store_second_capacity]
            refine ⟨trivial, hs, Prod.ext ?_ ?_⟩
            · simp only [store_second_key]; exact hkey
            · simp only [store_second_value, if_true]
          · intro s1 hh
            simp only [holds_value] at hh
            exact hh.symm
          · rw [hk0]; rfl
        · have hstep : u.step key_equal σ.store lane
              = (σ.store, { u with pc := insert_pc.value_retry src e }) := by
            unfold insert_call.step
            simp only [hpcu, if_true]
            rw [compare_exchange_strong_failure _ _ _ hv, store_second_self]
            simp only [Bool.false_eq_true, if_false]
          rw [hstep]
          refine hstay _ rfl hw ?_ (fun s hh => ?_) ?_
          · simp only [pc_inv]
            exact ⟨he, hs, hkey⟩
          · simp only [holds_value] at hh
          · rw [hk0]; rfl
      | false =>
        have hk0 : holds_key u = false := by unfold holds_key; simp only [hpcu]
        have hpc1 := hpc
        unfold pc_inv at hpc1
        simp only [hpcu, Bool.false_eq_true, if_false] at hpc1
        obtain ⟨habs, hpath, hkey, hee⟩ := hpc1
        have hs := probe_path_lt hash _ _ _ hC hpath
        by_cases hv : (σ.store.slots_ (u.current_slot src)).2 = σ.store.empty_value_sentinel_
        · have hstep : u.step key_equal σ.store lane
              = (σ.store.store_second (u.current_slot src) u.insert_pair.2,
                { u with pc := insert_pc.value_revert src e }) := by
            unfold insert_call.step
            simp only [hpcu, Bool.false_eq_true, if_false]
            rw [compare_exchange_strong_success _ _ _ hv]
            simp only [if_true]
          rw [hstep]
          have hkk := keeps_keys_store_second σ.store (u.current_slot src) u.insert_pair.2
          refine hwrite _ _ _ (Or.inr (by rw [hkey]; exact hee)) (hfree_ev _ hv) rfl
            (window_inv_keeps hash _ _ hkk u hw) ?_ ?_ ?_
          · simp only [pc_inv, store_second_key, store_second_value, if_true,
              store_second_empty_key]
            exact ⟨absent_store_second _ _ _ _ habs, probe_path_keeps hash _ _ hkk _ _ hpath,
              hkey, hee, trivial⟩
          · intro s1 hh
            simp only [holds_value] at hh
            exact hh.symm
          · rw [hk0]; rfl
        · have hstep : u.step key_equal σ.store lane
              = (σ.store, u.after_exchange key_equal σ.store src insert_result.CONTINUE e) := by
            unfold insert_call.step
            simp only [hpcu, Bool.false_eq_true, if_false]
            rw [compare_exchange_strong_failure _ _ _ hv, store_second_self]
            simp only [Bool.false_eq_true, if_false]
          rw [hstep]
          obtain ⟨h1, h2, h3, h4, h5⟩ := after_exchange_continue_ok hke hash σ.store u src e hC
            hw habs hpath hkey hee
          exact hstay _ h1 h2 h3 (fun s hh => absurd hh (h4 s)) (h5.trans hk0.symm)
    | value_retry src e =>
      have hk0 : holds_key u = true := by unfold holds_key; simp only [hpcu]
      have hpc1 := hpc
      unfold pc_inv at hpc1
      simp only [hpcu] at hpc1
      obtain ⟨he, hs, hkey⟩ := hpc1
      by_cases hv : (σ.store.slots_ (u.current_slot src)).2 = σ.store.empty_value_sentinel_
      · have hstep : u.step key_equal σ.store lane
            = (σ.store.store_second (u.current_slot src) u.insert_pair.2,
              { u with pc := insert_pc.returned (u.current_slot src, true) }) := by
          unfold insert_call.step
          simp only [hpcu]
          rw [compare_exchange_strong_success _ _ _ hv]
          simp only [if_true]
          rw [after_exchange_success hke _ u src e (by rw [he]; exact hne)]
        rw [hstep]
        refine hwrite _ _ _ (Or.inr (by rw [hkey]; exact hne)) (hfree_ev _ hv) rfl
          (window_inv_keeps hash _ _ (keeps_keys_store_second _ _ _) u hw) ?_ ?_ ?_
        · simp only [pc_inv, store_second_capacity]
          refine ⟨trivial, hs, Prod.ext ?_ ?_⟩
          · simp only [store_second_key]; exact hkey
          · simp only [store_second_value, if_true]
        · intro s1 hh
          simp only [holds_value] at hh
          exact hh.symm
        · rw [hk0]; rfl
      · have hstep : u.step key_equal σ.store lane = (σ.store, u) := by
          unfold insert_call.step
          simp only [hpcu]
          rw [compare_exchange_strong_failure _ _ _ hv, store_second_self]
          simp only [Bool.false_eq_true, if_false]
        rw [hstep]
        exact hstay u rfl hw hpc (fun _ h => h) rfl
    | value_revert src e =>
      have hk0 : holds_key u = false := by unfold holds_key; simp only [hpcu]
      have hh0 : holds_value u (u.current_slot src) := by
        unfold holds_value; simp only [hpcu]
      have hpc1 := hpc
      unfold pc_inv at hpc1
      simp only [hpcu] at hpc1
      obtain ⟨habs, hpath, hkey, hee, hval⟩ := hpc1
      have hstep : u.step key_equal σ.store lane
          = (σ.store.store_second (u.current_slot src) σ.store.empty_value_sentinel_,
            u.after_exchange key_equal
              (σ.store.store_second (u.current_slot src) σ.store.empty_value_sentinel_)
              src insert_result.CONTINUE e) := by
        unfold insert_call.step
        simp only [hpcu]
      rw [hstep]
      have hkk := keeps_keys_store_second σ.store (u.current_slot src)
        σ.store.empty_value_sentinel_
      obtain ⟨h1, h2, h3, h4, h5⟩ := after_exchange_continue_ok hke hash
        (σ.store.store_second (u.current_slot src) σ.store.empty_value_sentinel_) u src e hC
        (window_inv_keeps hash _ _ hkk u hw) (absent_store_second _ _ _ _ habs)
        (probe_path_keeps hash _ _ hkk _ _ hpath) (by simp only [store_second_key]; exact hkey)
        hee
      exact hwrite _ _ _ (Or.inl rfl) (hfree_hold _ hh0) h1 h2 h3
        (fun s hh => absurd hh (h4 s)) (h5.trans hk0.symm)

/-! ### Runs -/

theorem after_load_insert_pair (key_equal : K → K → Bool) (m : view K V) (t : Nat)
    (u : insert_call K V) (L : Nat → Option K) :
    (u.after_load key_equal m t L).insert_pair = u.insert_pair := by
  unfold insert_call.after_load
  repeat' (first | rfl | split | dsimp only)

theorem after_exchange_insert_pair (key_equal : K → K → Bool) (m : view K V)
    (u : insert_call K V) (src : Nat) (status : insert_result) (e : K) :
    (u.after_exchange key_equal m src status e).insert_pair = u.insert_pair := by
  unfold insert_call.after_exchange
  repeat' (first | rfl | split | dsimp only)

theorem step_insert_pair (key_equal : K → K → Bool) (m : view K V) (u : insert_call K V)
    (lane : Nat) : (u.step key_equal m lane).2.insert_pair = u.insert_pair := by
  unfold insert_call.step
  repeat' (first
    | rfl
    | exact after_load_insert_pair _ _ _ _ _
    | exact after_exchange_insert_pair _ _ _ _ _ _
    | split
    | dsimp only)

theorem step_store_fields (key_equal : K → K → Bool) (m : view K V) (u : insert_call K V)
    (lane : Nat) :
    (u.step key_equal m lane).1.capacity_ = m.capacity_ ∧
      (u.step key_equal m lane).1.empty_key_sentinel_ = m.empty_key_sentinel_ ∧
      (u.step key_equal m lane).1.empty_value_sentinel_ = m.empty_value_sentinel_ := by
  unfold insert_call.step
  repeat' (first | exact ⟨rfl, rfl, rfl⟩ | split | dsimp only)

theorem map_set_same {α β : Type} (f : α → β) (b : α) :
    ∀ (l : List α) (i : Nat) (a : α), l[i]? = some a → f b = f a →
      (l.set i b).map f = l.map f := by
  intro l
  induction l with
  | nil => intro i a h; simp at h
  | cons x l ih =>
    intro i a h hf
    cases i with
    | zero =>
      simp only [List.getElem?_cons_zero, Option.some.injEq] at h
      subst h
      simp only [List.set_cons_zero, List.map_cons, hf]
    | succ i =>
      simp only [List.getElem?_cons_succ] at h
      simp only [List.set_cons_succ, List.map_cons, ih i a h hf]

/-- A step changes neither the pairs of the calls nor the capacity and the sentinels. -/
theorem machine_step_fields (key_equal : K → K → Bool) (σ : machine K V) (i lane : Nat) :
    (σ.step key_equal i lane).calls.map (fun u => u.insert_pair)
        = σ.calls.map (fun u => u.insert_pair) ∧
      (σ.step key_equal i lane).store.capacity_ = σ.store.capacity_ ∧
      (σ.step key_equal i lane).store.empty_key_sentinel_ = σ.store.empty_key_sentinel_ ∧
      (σ.step key_equal i lane).store.empty_value_sentinel_
        = σ.store.empty_value_sentinel_ := by
  unfold machine.step
  cases hu : σ.calls[i]? with
  | none => exact ⟨rfl, rfl, rfl, rfl⟩
  | some u =>
    simp only
    exact ⟨map_set_same (fun u => u.insert_pair) _ σ.calls i u hu
      (step_insert_pair key_equal σ.store u lane), step_store_fields key_equal σ.store u lane⟩

theorem machine_run_fields (key_equal : K → K → Bool) :
    ∀ (schedule : List (Nat × Nat)) (σ : machine K V),
      (σ.run key_equal schedule).calls.map (fun u => u.insert_pair)
          = σ.calls.map (fun u => u.insert_pair) ∧
        (σ.run key_equal schedule).store.capacity_ = σ.store.capacity_ ∧
        (σ.run key_equal schedule).store.empty_key_sentinel_ = σ.store.empty_key_sentinel_ ∧
        (σ.run key_equal schedule).store.empty_value_sentinel_
          = σ.store.empty_value_sentinel_ := by
  intro schedule
  induction schedule with
  | nil => intro σ; exact ⟨rfl, rfl, rfl, rfl⟩
  | cons x rest ih =>
    intro σ
    have h1 := machine_step_fields key_equal σ x.1 x.2
    have h2 := ih (σ.step key_equal x.1 x.2)
    unfold machine.run at h2 ⊢
    simp only [List.foldl_cons]
    exact ⟨h2.1.trans h1.1, h2.2.1.trans h1.2.1, h2.2.2.1.trans h1.2.2.1,
      h2.2.2.2.trans h1.2.2.2⟩

/-- Every interleaving keeps the invariant. -/
theorem machine_inv_run {key_equal : K → K → Bool} (hke : ∀ a b, key_equal a b = true ↔ a = b)
    (hash : K → Nat) :
    ∀ (schedule : List (Nat × Nat)) (σ : machine K V), machine_inv hash σ →
      machine_inv hash (σ.run key_equal schedule) := by
  intro schedule
  induction schedule with
  | nil => intro σ h; exact h
  | cons x rest ih =>
    intro σ h
    have := ih (σ.step key_equal x.1 x.2) (machine_inv_step hke hash σ x.1 x.2 h)
    unfold machine.run at this ⊢
    simp only [List.foldl_cons]
    exact this

theorem absent_construct (capacity : Nat) (ek : K) (ev : V) (k : K) (hne : k ≠ ek) :
    absent (static_map.construct capacity ek ev).dev k :=
  fun _ _ h => hne h.symm

/-- The calls on entry on a new map satisfy the invariant. -/
theorem machine_inv_start (hash : K → Nat) (capacity : Nat) (ek : K) (ev : V)
    (requests : List (Option Nat × (K × V))) (hC : 1 ≤ capacity)
    (hnd : (requests.map (fun q => q.2.1)).Nodup)
    (hne : ∀ q ∈ requests, q.2.1 ≠ ek ∧ q.2.2 ≠ ev)
    (hfit : ∀ q ∈ requests, ∀ t, q.1 = some t →
      1 ≤ t ∧ index_fits (static_map.construct capacity ek ev).dev t ∧
        rank_fits (static_map.construct capacity ek ev).dev hash t q.2.1) :
    machine_inv hash (machine.start hash (static_map.construct capacity ek ev).dev requests) := by
  have hget : ∀ (i : Nat) (u : insert_call K V),
      (machine.start hash (static_map.construct capacity ek ev).dev requests).calls[i]? = some u →
      ∃ q, requests[i]? = some q ∧ q ∈ requests ∧
        u = insert_call.start hash (static_map.construct capacity ek ev).dev q.1 q.2 := by
    intro i u h
    unfold machine.start at h
    simp only [List.getElem?_map, Option.map_eq_some'] at h
    obtain ⟨q, hq, hu⟩ := h
    exact ⟨q, hq, List.getElem?_mem hq, hu.symm⟩
  have hpair : ∀ (tile : Option Nat) (p : K × V),
      (insert_call.start hash (static_map.construct capacity ek ev).dev tile p).insert_pair
        = p := by
    intro tile p
    cases tile <;> rfl
  refine ⟨table_inv_construct hash capacity ek ev hC, ?_, ?_, ?_, ?_⟩
  · intro i u hu
    obtain ⟨q, _, hq, rfl⟩ := hget i u hu
    rw [hpair]
    refine ⟨(hne q hq).1, (hne q hq).2, ?_, ?_⟩
    · cases ht : q.1 with
      | none => simp only [insert_call.start, window_inv]
      | some t =>
        obtain ⟨h1, h2, h3⟩ := hfit q hq t ht
        simp only [insert_call.start, window_inv]
        exact ⟨h1, h2, h3, 0, lanes_at_initial _ hash t q.2.1 h3, fun d hd => by omega⟩
    · cases ht : q.1 with
      | none =>
        simp only [insert_call.start, pc_inv]
        exact ⟨absent_construct capacity ek ev _ (hne q hq).1, 0, rfl, fun d hd => by omega⟩
      | some t =>
        simp only [insert_call.start, pc_inv]
        exact ⟨⟨t, rfl⟩, absent_construct capacity ek ev _ (hne q hq).1,
          fun r x hx => by simp at hx⟩
  · intro i j u w hu hw hk
    obtain ⟨q, hqi, _, rfl⟩ := hget i u hu
    obtain ⟨q1, hqj, _, rfl⟩ := hget j w hw
    rw [hpair, hpair] at hk
    have h1 : (requests.map (fun q => q.2.1))[i]? = some q.2.1 := by
      rw [List.getElem?_map, hqi]; rfl
    have h2 : (requests.map (fun q => q.2.1))[j]? = some q.2.1 := by
      rw [List.getElem?_map, hqj, hk]; rfl
    have hil : i < (requests.map (fun q => q.2.1)).length := by
      by_contra hcon
      rw [List.getElem?_eq_none (by omega)] at h1
      cases h1
    exact (List.getElem?_inj hil hnd (h1.trans h2.symm))
  · intro i j u w s hu _ hs _
    obtain ⟨q, _, _, rfl⟩ := hget i u hu
    exfalso
    cases ht : q.1 <;> simp only [ht, insert_call.start, holds_value] at hs
  · show occupied (static_map.construct capacity ek ev).dev = _
    rw [occupied_construct]
    symm
    rw [List.countP_eq_zero]
    intro u hu
    unfold machine.start at hu
    simp only [List.mem_map] at hu
    obtain ⟨q, _, rfl⟩ := hu
    cases ht : q.1 <;> simp [insert_call.start, holds_key]

theorem all_returned_counts (l : List (insert_call K V))
    (h : ∀ u ∈ l, ∃ s, u.pc = insert_pc.returned (s, true)) :
    (l.filterMap (fun u => u.result)).countP (fun r => r.2) = l.length ∧
      l.countP holds_key = l.length := by
  induction l with
  | nil => exact ⟨rfl, rfl⟩
  | cons x l ih =>
    obtain ⟨s, hs⟩ := h x (List.mem_cons_self _ _)
    obtain ⟨h1, h2⟩ := ih (fun u hu => h u (List.mem_cons_of_mem _ hu))
    have hr : x.result = some (s, true) := by unfold insert_call.result; rw [hs]
    have hk : holds_key x = true := by unfold holds_key; rw [hs]
    constructor
    · rw [List.filterMap_cons_some hr, List.countP_cons_of_pos _ _ (by rfl), h1,
        List.length_cons]
    · rw [List.countP_cons_of_pos _ _ hk, h2, List.length_cons]

/-- A completed state that satisfies the invariant: every call has returned `true` from the one
slot that holds its pair, and the occupied slots are as many as the calls. -/
theorem completed_calls (hash : K → Nat) (σ : machine K V) (hi : machine_inv hash σ)
    (hdone : σ.completed = true) :
    σ.num_successes = σ.calls.length ∧ occupied σ.store = σ.calls.length ∧
      ∀ (i : Nat) (u : insert_call K V), σ.calls[i]? = some u →
        ∃ s, u.pc = insert_pc.returned (s, true) ∧ s < σ.store.capacity_ ∧
          σ.store.slots_ s = u.insert_pair := by
  obtain ⟨hT, hcalls, _, _, hocc⟩ := hi
  have hret : ∀ (i : Nat) (u : insert_call K V), σ.calls[i]? = some u →
      ∃ s, u.pc = insert_pc.returned (s, true) ∧ s < σ.store.capacity_ ∧
        σ.store.slots_ s = u.insert_pair := by
    intro i u hu
    have hmem := List.getElem?_mem hu
    unfold machine.completed at hdone
    have hres := List.all_eq_true.1 hdone u hmem
    obtain ⟨_, _, _, hpc⟩ := hcalls i u hu
    unfold insert_call.result at hres
    unfold pc_inv at hpc
    cases hpcu : u.pc with
    | returned r =>
      simp only [hpcu] at hpc
      refine ⟨r.1, ?_, hpc.2.1, hpc.2.2⟩
      rw [← hpc.1]
    | load L => simp [hpcu] at hres
    | key_exchange src => simp [hpcu] at hres
    | value_exchange src ks e => simp [hpcu] at hres
    | value_retry src e => simp [hpcu] at hres
    | value_revert src e => simp [hpcu] at hres
  have hall : ∀ u ∈ σ.calls, ∃ s, u.pc = insert_pc.returned (s, true) := by
    intro u hu
    obtain ⟨i, hi⟩ := List.getElem?_of_mem hu
    obtain ⟨s, hs, _⟩ := hret i u hi
    exact ⟨s, hs⟩
  obtain ⟨h1, h2⟩ := all_returned_counts σ.calls hall
  refine ⟨?_, by rw [hocc, h2], hret⟩
  unfold machine.num_successes machine.results
  exact h1

/-! ## A schedule that completes

With room for every key the calls can be run one after the other, each to its return. -/

/-! ### The steps of one call, case by case -/

theorem step_key_success (key_equal : K → K → Bool) (m : view K V) (u : insert_call K V)
    (lane src : Nat) (hpc : u.pc = insert_pc.key_exchange src)
    (hk : (m.slots_ (u.current_slot src)).1 = m.empty_key_sentinel_) :
    u.step key_equal m lane = (m.store_first (u.current_slot src) u.insert_pair.1,
      { u with pc := insert_pc.value_exchange src true m.empty_key_sentinel_ }) := by
  unfold insert_call.step
  simp only [hpc]
  rw [compare_exchange_strong_success _ _ _ hk]

theorem step_key_failure (key_equal : K → K → Bool) (m : view K V) (u : insert_call K V)
    (lane src : Nat) (hpc : u.pc = insert_pc.key_exchange src)
    (hk : (m.slots_ (u.current_slot src)).1 ≠ m.empty_key_sentinel_) :
    u.step key_equal m lane = (m, { u with pc := (insert_pc.value_exchange src false
      (m.slots_ (u.current_slot src)).1) }) := by
  unfold insert_call.step
  simp only [hpc]
  rw [compare_exchange_strong_failure _ _ _ hk, store_first_self]

theorem step_value_owner_success {key_equal : K → K → Bool}
    (hke : ∀ a b, key_equal a b = true ↔ a = b) (m : view K V) (u : insert_call K V)
    (lane src : Nat) (e : K) (hpc : u.pc = insert_pc.value_exchange src true e)
    (hne : u.insert_pair.1 ≠ e)
    (hv : (m.slots_ (u.current_slot src)).2 = m.empty_value_sentinel_) :
    u.step key_equal m lane = (m.store_second (u.current_slot src) u.insert_pair.2,
      { u with pc := insert_pc.returned (u.current_slot src, true) }) := by
  unfold insert_call.step
  simp only [hpc, if_true]
  rw [compare_exchange_strong_success _ _ _ hv]
  simp only [if_true]
  rw [after_exchange_success hke _ u src e hne]

theorem step_value_other_success (key_equal : K → K → Bool) (m : view K V)
    (u : insert_call K V) (lane src : Nat) (e : K)
    (hpc : u.pc = insert_pc.value_exchange src false e)
    (hv : (m.slots_ (u.current_slot src)).2 = m.empty_value_sentinel_) :
    u.step key_equal m lane = (m.store_second (u.current_slot src) u.insert_pair.2,
      { u with pc := insert_pc.value_revert src e }) := by
  unfold insert_call.step
  simp only [hpc, Bool.false_eq_true, if_false]
  rw [compare_exchange_strong_success _ _ _ hv]
  simp only [if_true]

theorem step_value_other_failure (key_equal : K → K → Bool) (m : view K V)
    (u : insert_call K V) (lane src : Nat) (e : K)
    (hpc : u.pc = insert_pc.value_exchange src false e)
    (hv : (m.slots_ (u.current_slot src)).2 ≠ m.empty_value_sentinel_) :
    u.step key_equal m lane
      = (m, u.after_exchange key_equal m src insert_result.CONTINUE e) := by
  unfold insert_call.step
  simp only [hpc, Bool.false_eq_true, if_false]
  rw [compare_exchange_strong_failure _ _ _ hv, store_second_self]
  simp only [Bool.false_eq_true, if_false]

theorem step_value_revert (key_equal : K → K → Bool) (m : view K V) (u : insert_call K V)
    (lane src : Nat) (e : K) (hpc : u.pc = insert_pc.value_revert src e) :
    u.step key_equal m lane
      = (m.store_second (u.current_slot src) m.empty_value_sentinel_,
        u.after_exchange key_equal
          (m.store_second (u.current_slot src) m.empty_value_sentinel_)
          src insert_result.CONTINUE e) := by
  unfold insert_call.step
  simp only [hpc]

theorem step_load (key_equal : K → K → Bool) (m : view K V) (u : insert_call K V)
    (lane t : Nat) (L : Nat → Option K) (hpc : u.pc = insert_pc.load L) (ht : u.tile = some t)
    (hl : lane < t) (hn : L lane = none) :
    u.step key_equal m lane = (m, u.after_load key_equal m t
      (fun r => if r = lane then some (m.slots_ (u.current_slot lane)).1 else L r)) := by
  unfold insert_call.step
  simp only [hpc, ht]
  rw [if_pos ⟨hl, hn⟩]

theorem after_exchange_continue_single (key_equal : K → K → Bool) (m : view K V)
    (u : insert_call K V) (src : Nat) (e : K) (ht : u.tile = none)
    (hkf : key_equal u.insert_pair.1 e = false) :
    u.after_exchange key_equal m src insert_result.CONTINUE e
      = { u with
          current_slot := fun r => next_slot m (u.current_slot r)
          pc := insert_pc.key_exchange src } := by
  have hkf1 : ¬ key_equal u.insert_pair.1 e = true := by rw [hkf]; exact Bool.false_ne_true
  unfold insert_call.after_exchange
  simp only [ht]
  rw [if_neg (by decide), if_neg hkf1]

/-! ### Steps and runs of the machine -/

theorem machine_step_mk (key_equal : K → K → Bool) (m : view K V)
    (calls : List (insert_call K V)) (i lane : Nat) (u : insert_call K V)
    (hu : calls[i]? = some u) (m1 : view K V) (u1 : insert_call K V)
    (hstep : u.step key_equal m lane = (m1, u1)) :
    ({ store := m, calls := calls } : machine K V).step key_equal i lane
      = { store := m1, calls := calls.set i u1 } := by
  unfold machine.step
  simp only [hu, hstep]

theorem machine_run_nil (key_equal : K → K → Bool) (σ : machine K V) :
    σ.run key_equal [] = σ := rfl

theorem machine_run_cons (key_equal : K → K → Bool) (σ : machine K V) (x : Nat × Nat)
    (rest : List (Nat × Nat)) :
    σ.run key_equal (x :: rest) = (σ.step key_equal x.1 x.2).run key_equal rest := rfl

theorem machine_run_append (key_equal : K → K → Bool) (σ : machine K V)
    (s1 s2 : List (Nat × Nat)) :
    σ.run key_equal (s1 ++ s2) = (σ.run key_equal s1).run key_equal s2 := by
  unfold machine.run
  rw [List.foldl_append]

theorem getElem?_set_self_of {α : Type} (l : List α) (i : Nat) (a b : α)
    (h : l[i]? = some a) : (l.set i b)[i]? = some b := by
  have hl : i < l.length := by
    by_contra hcon
    rw [List.getElem?_eq_none (by omega)] at h
    cases h
  exact List.getElem?_set_self hl

theorem machine_step_other (key_equal : K → K → Bool) (σ : machine K V) (i lane j : Nat)
    (hji : j ≠ i) : (σ.step key_equal i lane).calls[j]? = σ.calls[j]? := by
  unfold machine.step
  cases hu : σ.calls[i]? with
  | none => rfl
  | some u =>
    simp only
    exact List.getElem?_set_ne (fun h => hji h.symm)

/-- A schedule that names call `i` only leaves the other calls as they are. -/
theorem machine_run_other (key_equal : K → K → Bool) (i j : Nat) (hji : j ≠ i) :
    ∀ (schedule : List (Nat × Nat)) (σ : machine K V), (∀ x ∈ schedule, x.1 = i) →
      (σ.run key_equal schedule).calls[j]? = σ.calls[j]? := by
  intro schedule
  induction schedule with
  | nil => intro σ _; rfl
  | cons x rest ih =>
    intro σ h
    rw [machine_run_cons, ih _ (fun y hy => h y (List.mem_cons_of_mem _ hy)),
      h x (List.mem_cons_self _ _)]
    exact machine_step_other key_equal σ i x.2 j hji

theorem machine_run_length (key_equal : K → K → Bool) (schedule : List (Nat × Nat))
    (σ : machine K V) : (σ.run key_equal schedule).calls.length = σ.calls.length := by
  have := congrArg List.length (machine_run_fields key_equal schedule σ).1
  simpa using this

/-! ### Room for the call that moves -/

theorem has_empty_of_not_holding (hash : K → Nat) (σ : machine K V) (i : Nat)
    (u : insert_call K V) (hi : machine_inv hash σ)
    (hlen : σ.calls.length ≤ σ.store.capacity_) (hu : σ.calls[i]? = some u)
    (hk : holds_key u = false) : has_empty σ.store := by
  apply has_empty_of_occupied_lt
  rw [hi.2.2.2.2]
  have hle := List.countP_le_length holds_key (l := σ.calls)
  rcases Nat.lt_or_ge (σ.calls.countP holds_key) σ.calls.length with h | h
  · omega
  · exfalso
    have heq : σ.calls.countP holds_key = σ.calls.length := by omega
    have := List.countP_eq_length.1 heq u (List.getElem?_mem hu)
    rw [hk] at this
    cases this

theorem path_lt_capacity (m : view K V) (k : K) (h D : Nat) (hem : has_empty m)
    (ho : ∀ d, d < D → other_key m k ((h + d) % m.capacity_)) : D < m.capacity_ := by
  by_contra hcon
  obtain ⟨e, he, hek⟩ := hem
  obtain ⟨d, hd, hde⟩ := probe_surj m.capacity_ h e he
  have := ho d (by omega)
  rw [hde] at this
  exact this.2 hek

/-! ### A single-lane call run alone -/

/-- A single-lane call that stands before a key exchange on its probe path returns when it is
run alone, if the table has room. -/
theorem solo_single {key_equal : K → K → Bool} (hke : ∀ a b, key_equal a b = true ↔ a = b)
    (hash : K → Nat) (i : Nat) :
    ∀ (n : Nat) (σ : machine K V) (u : insert_call K V) (src D : Nat),
      machine_inv hash σ → σ.calls.length ≤ σ.store.capacity_ → σ.calls[i]? = some u →
      u.tile = none → u.pc = insert_pc.key_exchange src →
      u.current_slot src = (hash u.insert_pair.1 + D) % σ.store.capacity_ →
      (∀ d, d < D →
        other_key σ.store u.insert_pair.1 ((hash u.insert_pair.1 + d) % σ.store.capacity_)) →
      σ.store.capacity_ - D ≤ n →
      ∃ schedule : List (Nat × Nat), (∀ x ∈ schedule, x.1 = i) ∧
        ∃ (u1 : insert_call K V) (r : Nat × Bool),
          (σ.run key_equal schedule).calls[i]? = some u1 ∧ u1.pc = insert_pc.returned r := by
  intro n
  induction n with
  | zero =>
    intro σ u src D hi hlen hu htile hpc hcur ho hn
    have hk0 : holds_key u = false := by unfold holds_key; simp only [hpc]
    have := path_lt_capacity σ.store _ _ D (has_empty_of_not_holding hash σ i u hi hlen hu hk0) ho
    omega
  | succ n ih =>
    intro σ u src D hi hlen hu htile hpc hcur ho hn
    have hk0 : holds_key u = false := by unfold holds_key; simp only [hpc]
    have hD := path_lt_capacity σ.store _ _ D
      (has_empty_of_not_holding hash σ i u hi hlen hu hk0) ho
    obtain ⟨hT, hcalls, _, _, _⟩ := hi
    have hi0 : machine_inv hash σ := ⟨hT, hcalls, by assumption, by assumption, by assumption⟩
    obtain ⟨hne, hnv, _, hpcinv⟩ := hcalls i u hu
    unfold pc_inv at hpcinv
    simp only [hpc] at hpcinv
    obtain ⟨habs, _⟩ := hpcinv
    have hC := hT.1
    have hs : u.current_slot src < σ.store.capacity_ := by rw [hcur]; exact Nat.mod_lt _ hC
    by_cases hk : (σ.store.slots_ (u.current_slot src)).1 = σ.store.empty_key_sentinel_
    · -- the key exchange and then the value exchange succeed
      have h1 : σ.step key_equal i 0
          = { store := σ.store.store_first (u.current_slot src) u.insert_pair.1
              calls := σ.calls.set i
                { u with pc := insert_pc.value_exchange src true σ.store.empty_key_sentinel_ } } :=
        machine_step_mk key_equal σ.store σ.calls i 0 u hu _ _
          (step_key_success key_equal _ u 0 src hpc hk)
      have hv : ((σ.store.store_first (u.current_slot src) u.insert_pair.1).slots_
          (u.current_slot src)).2 = σ.store.empty_value_sentinel_ := by
        rw [store_first_value]
        exact hT.2.2 _ hs hk
      have h2 := machine_step_mk key_equal
        (σ.store.store_first (u.current_slot src) u.insert_pair.1) _ i 0 _
        (getElem?_set_self_of σ.calls i u
          { u with pc := insert_pc.value_exchange src true σ.store.empty_key_sentinel_ } hu) _ _
        (step_value_owner_success hke _ _ 0 src _ rfl hne hv)
      have hrun : σ.run key_equal [(i, 0), (i, 0)]
          = (σ.step key_equal i 0).step key_equal i 0 := rfl
      refine ⟨[(i, 0), (i, 0)], by simp, ?_⟩
      rw [hrun, h1, h2]
      exact ⟨_, _, getElem?_set_self_of _ i _ _ (getElem?_set_self_of _ i u _ hu), rfl⟩
    · -- the slot holds another key: the call moves to the next slot
      have hek : u.insert_pair.1 ≠ (σ.store.slots_ (u.current_slot src)).1 :=
        fun h => habs _ hs h.symm
      have hkf := keq_false hke hek
      have h1 : σ.step key_equal i 0
          = { store := σ.store
              calls := σ.calls.set i { u with pc := (insert_pc.value_exchange src false
                (σ.store.slots_ (u.current_slot src)).1) } } :=
        machine_step_mk key_equal σ.store σ.calls i 0 u hu _ _
          (step_key_failure key_equal _ u 0 src hpc hk)
      have hu1 := getElem?_set_self_of σ.calls i u
        { u with pc := (insert_pc.value_exchange src false
          (σ.store.slots_ (u.current_slot src)).1) } hu
      have hnext : ∀ (s1 : List (Nat × Nat)) (u1 : insert_call K V),
          (∀ x ∈ s1, x.1 = i) → (σ.run key_equal s1).calls[i]? = some u1 →
          keeps_keys σ.store (σ.run key_equal s1).store →
          u1.tile = none → u1.insert_pair = u.insert_pair →
          u1.pc = insert_pc.key_exchange src →
          u1.current_slot src = next_slot σ.store (u.current_slot src) →
          ∃ schedule : List (Nat × Nat), (∀ x ∈ schedule, x.1 = i) ∧
            ∃ (u2 : insert_call K V) (r : Nat × Bool),
              (σ.run key_equal schedule).calls[i]? = some u2 ∧
                u2.pc = insert_pc.returned r := by
        intro s1 u1 hs1 hu1 hkk ht1 hp1 hpc1 hc1
        have hcap := hkk.1
        obtain ⟨s2, hs2, u2, r, hu2, hr⟩ := ih (σ.run key_equal s1) u1 src (D + 1)
          (machine_inv_run hke hash s1 σ hi0)
          (by rw [machine_run_length, hcap]; exact hlen) hu1 ht1 hpc1
          (by rw [hc1, hp1, hcap, next_slot_eq _ _ hs, hcur, Nat.mod_add_mod, Nat.add_assoc])
          (by
            intro d hd
            rw [hp1, hcap]
            apply other_key_keeps _ _ hkk
            by_cases hdD : d < D
            · exact ho d hdD
            · have : d = D := by omega
              rw [this, ← hcur]
              exact ⟨fun h => hek h.symm, hk⟩)
          (by rw [hcap]; omega)
        refine ⟨s1 ++ s2, ?_, u2, r, ?_, hr⟩
        · intro x hx
          rcases List.mem_append.1 hx with h | h
          · exact hs1 x h
          · exact hs2 x h
        · rw [machine_run_append]
          exact hu2
      by_cases hv : (σ.store.slots_ (u.current_slot src)).2 = σ.store.empty_value_sentinel_
      · -- the value exchange succeeds and is reverted
        have h2 := machine_step_mk key_equal σ.store _ i 0 _ hu1 _ _
          (step_value_other_success key_equal _ _ 0 src _ rfl hv)
        have hu2 := getElem?_set_self_of _ i _
          ({ u with pc := (insert_pc.value_revert src
            (σ.store.slots_ (u.current_slot src)).1) } : insert_call K V) hu1
        have h3 := machine_step_mk key_equal
          (σ.store.store_second (u.current_slot src) u.insert_pair.2) _ i 0 _ hu2 _ _
          ((step_value_revert key_equal _ _ 0 src _ rfl).trans
            (congrArg (Prod.mk _)
              (after_exchange_continue_single key_equal _ _ src _ htile hkf)))
        have hrun : σ.run key_equal [(i, 0), (i, 0), (i, 0)]
            = ((σ.step key_equal i 0).step key_equal i 0).step key_equal i 0 := rfl
        refine hnext [(i, 0), (i, 0), (i, 0)]
          ({ u with
            current_slot := fun r => next_slot σ.store (u.current_slot r)
            pc := insert_pc.key_exchange src } : insert_call K V)
          (by simp) ?_ ?_ htile rfl rfl rfl
        · rw [hrun, h1, h2, h3]
          exact getElem?_set_self_of _ i _ _ hu2
        · rw [hrun, h1, h2, h3]
          exact ⟨rfl, rfl, fun j _ => by simp only [store_second_key]⟩
      · -- the value exchange fails
        have h2 := machine_step_mk key_equal σ.store _ i 0 _ hu1 _ _
          ((step_value_other_failure key_equal σ.store
              ({ u with pc := (insert_pc.value_exchange src false
                (σ.store.slots_ (u.current_slot src)).1) } : insert_call K V)
              0 src _ rfl hv).trans
            (congrArg (Prod.mk _)
              (after_exchange_continue_single key_equal σ.store
                ({ u with pc := (insert_pc.value_exchange src false
                  (σ.store.slots_ (u.current_slot src)).1) } : insert_call K V)
                src _ htile hkf)))
        have hrun : σ.run key_equal [(i, 0), (i, 0)]
            = (σ.step key_equal i 0).step key_equal i 0 := rfl
        refine hnext [(i, 0), (i, 0)]
          ({ u with
            current_slot := fun r => next_slot σ.store (u.current_slot r)
            pc := insert_pc.key_exchange src } : insert_call K V)
          (by simp) ?_ ?_ htile rfl rfl rfl
        · rw [hrun, h1, h2]
          exact getElem?_set_self_of _ i _ _ hu1
        · rw [hrun, h1, h2]
          exact keeps_keys_refl _

/-! ### A tile call run alone -/

theorem after_load_partial (key_equal : K → K → Bool) (m : view K V) (t : Nat)
    (u : insert_call K V) (L : Nat → Option K) (h : ∃ r, r < t ∧ L r = none) :
    u.after_load key_equal m t L = { u with pc := insert_pc.load L } := by
  obtain ⟨r, hr, hL⟩ := h
  have hnot : ¬ (List.range t).all (fun r => (L r).isSome) = true := by
    intro hall
    have := List.all_eq_true.1 hall r (List.mem_range.2 hr)
    rw [hL] at this
    cases this
  unfold insert_call.after_load
  rw [if_neg hnot]

theorem after_load_elect {key_equal : K → K → Bool}
    (hke : ∀ a b, key_equal a b = true ↔ a = b) (m : view K V) (t : Nat)
    (u : insert_call K V) (L : Nat → Option K) (r0 : Nat)
    (hall : ∀ r, r < t → L r = some (m.slots_ (u.current_slot r)).1)
    (hno : ∀ r, r < t → (m.slots_ (u.current_slot r)).1 ≠ u.insert_pair.1)
    (hr0 : r0 < t) (hk : (m.slots_ (u.current_slot r0)).1 = m.empty_key_sentinel_)
    (hf : ∀ j, j < r0 → (m.slots_ (u.current_slot j)).1 ≠ m.empty_key_sentinel_) :
    u.after_load key_equal m t L = { u with pc := insert_pc.key_exchange r0 } := by
  have hsome : (List.range t).all (fun r => (L r).isSome) = true := by
    rw [List.all_eq_true]
    intro r hr
    rw [hall r (List.mem_range.1 hr)]
    rfl
  unfold insert_call.after_load
  rw [if_pos hsome]
  simp only
  split
  · next hex =>
    exfalso
    obtain ⟨r, hr, hp⟩ := (mask_set_ballot t _).1 hex
    simp only [hall r hr] at hp
    exact hno r hr ((hke _ _).1 hp)
  · have hb := ballot_first t
      (fun r => decide (L r = some m.empty_key_sentinel_)) r0 hr0
      (by simp only [hall r0 hr0, hk, decide_True])
      (by
        intro j hj
        simp only [hall j (lt_trans hj hr0), Option.some.injEq, decide_eq_false_iff_not]
        exact hf j hj)
    rw [if_pos hb.1, hb.2]

theorem after_load_advance {key_equal : K → K → Bool}
    (hke : ∀ a b, key_equal a b = true ↔ a = b) (m : view K V) (t : Nat)
    (u : insert_call K V) (L : Nat → Option K)
    (hall : ∀ r, r < t → L r = some (m.slots_ (u.current_slot r)).1)
    (hno : ∀ r, r < t → (m.slots_ (u.current_slot r)).1 ≠ u.insert_pair.1)
    (hf : ∀ j, j < t → (m.slots_ (u.current_slot j)).1 ≠ m.empty_key_sentinel_) :
    u.after_load key_equal m t L
      = { u with
          current_slot := fun r => next_slot_cg m t (u.current_slot r)
          pc := insert_pc.load (fun _ => none) } := by
  have hsome : (List.range t).all (fun r => (L r).isSome) = true := by
    rw [List.all_eq_true]
    intro r hr
    rw [hall r (List.mem_range.1 hr)]
    rfl
  unfold insert_call.after_load
  rw [if_pos hsome]
  simp only
  split
  · next hex =>
    exfalso
    obtain ⟨r, hr, hp⟩ := (mask_set_ballot t _).1 hex
    simp only [hall r hr] at hp
    exact hno r hr ((hke _ _).1 hp)
  · have hb : ¬ mask_set (ballot t
        (fun r => decide (L r = some m.empty_key_sentinel_))) = true := by
      intro hm
      obtain ⟨r, hr, hp⟩ := (mask_set_ballot t _).1 hm
      simp only [hall r hr, Option.some.injEq, decide_eq_true_eq] at hp
      exact hf r hr hp
    rw [if_neg hb]

/-- The lanes `j`, `j + 1`, ..., `t - 1` of a tile call load one after the other: the call
goes on with the keys that the slots of all its lanes hold. -/
theorem solo_loads (key_equal : K → K → Bool) (i t : Nat) :
    ∀ (k j : Nat) (σ : machine K V) (u : insert_call K V) (L : Nat → Option K),
      j + (k + 1) = t → σ.calls[i]? = some u → u.tile = some t → u.pc = insert_pc.load L →
      (∀ r, r < j → L r = some (σ.store.slots_ (u.current_slot r)).1) →
      (∀ r, j ≤ r → L r = none) →
      ∃ (schedule : List (Nat × Nat)) (Lf : Nat → Option K),
        (∀ x ∈ schedule, x.1 = i) ∧
        (∀ r, r < t → Lf r = some (σ.store.slots_ (u.current_slot r)).1) ∧
        (σ.run key_equal schedule).store = σ.store ∧
        (σ.run key_equal schedule).calls[i]?
          = some (u.after_load key_equal σ.store t Lf) := by
  intro k
  induction k with
  | zero =>
    intro j σ u L hjt hu htile hpc hlo hhi
    have h1 := machine_step_mk key_equal σ.store σ.calls i j u hu _ _
      (step_load key_equal σ.store u j t L hpc htile (by omega) (hhi j (le_refl j)))
    have hrun : σ.run key_equal [(i, j)] = σ.step key_equal i j := rfl
    refine ⟨[(i, j)],
      fun r => if r = j then some (σ.store.slots_ (u.current_slot j)).1 else L r,
      by simp, ?_, ?_, ?_⟩
    rotate_left
    · rw [hrun, h1]
    · rw [hrun, h1]
      exact getElem?_set_self_of _ i u _ hu
    · intro r hr
      by_cases hrj : r = j
      · simp only [if_pos hrj]; rw [hrj]
      · simp only [if_neg hrj]
        exact hlo r (by omega)
  | succ k ih =>
    intro j σ u L hjt hu htile hpc hlo hhi
    have hpart := after_load_partial key_equal σ.store t u
      (fun r => if r = j then some (σ.store.slots_ (u.current_slot j)).1 else L r)
      ⟨j + 1, by omega, by
        simp only [if_neg (show j + 1 ≠ j by omega)]
        exact hhi (j + 1) (by omega)⟩
    have h1 := machine_step_mk key_equal σ.store σ.calls i j u hu _ _
      ((step_load key_equal σ.store u j t L hpc htile (by omega) (hhi j (le_refl j))).trans
        (congrArg (Prod.mk _) hpart))
    have hstep : σ.step key_equal i j
        = { store := σ.store
            calls := σ.calls.set i { u with pc := (insert_pc.load
              (fun r => if r = j then some (σ.store.slots_ (u.current_slot j)).1 else L r)) } } :=
      h1
    obtain ⟨s2, Lf, hs2, hLf, hst, hcall⟩ := ih (j + 1) (σ.step key_equal i j)
      { u with pc := (insert_pc.load
        (fun r => if r = j then some (σ.store.slots_ (u.current_slot j)).1 else L r)) }
      (fun r => if r = j then some (σ.store.slots_ (u.current_slot j)).1 else L r)
      (by omega) (by rw [hstep]; exact getElem?_set_self_of _ i u _ hu) htile rfl
      (by
        intro r hr
        rw [hstep]
        by_cases hrj : r = j
        · simp only [if_pos hrj]; rw [hrj]
        · simp only [if_neg hrj]
          exact hlo r (by omega))
      (by
        intro r hr
        simp only [if_neg (show r ≠ j by omega)]
        exact hhi r (by omega))
    have hs1 : (σ.step key_equal i j).store = σ.store := by rw [hstep]
    refine ⟨(i, j) :: s2, Lf, ?_, ?_, ?_, ?_⟩
    · intro x hx
      rcases List.mem_cons.1 hx with h | h
      · rw [h]
      · exact hs2 x h
    · intro r hr
      rw [hLf r hr, hs1]
    · rw [machine_run_cons, hst, hs1]
    · rw [machine_run_cons, hcall, hs1]
      rfl

/-- A tile call that stands before the loads of a window of its probe path returns when it is
run alone, if the table has room. -/
theorem solo_tile {key_equal : K → K → Bool} (hke : ∀ a b, key_equal a b = true ↔ a = b)
    (hash : K → Nat) (i t : Nat) :
    ∀ (n : Nat) (σ : machine K V) (u : insert_call K V) (a : Nat),
      machine_inv hash σ → σ.calls.length ≤ σ.store.capacity_ → σ.calls[i]? = some u →
      u.tile = some t → u.pc = insert_pc.load (fun _ => none) →
      lanes_at σ.store t (hash u.insert_pair.1) a u.current_slot →
      (∀ d, d < a →
        other_key σ.store u.insert_pair.1 ((hash u.insert_pair.1 + d) % σ.store.capacity_)) →
      σ.store.capacity_ - a ≤ n →
      ∃ schedule : List (Nat × Nat), (∀ x ∈ schedule, x.1 = i) ∧
        ∃ (u1 : insert_call K V) (r : Nat × Bool),
          (σ.run key_equal schedule).calls[i]? = some u1 ∧ u1.pc = insert_pc.returned r := by
  intro n
  induction n with
  | zero =>
    intro σ u a hi hlen hu htile hpc hl ho hn
    have hk0 : holds_key u = false := by unfold holds_key; simp only [hpc]
    have := path_lt_capacity σ.store _ _ a (has_empty_of_not_holding hash σ i u hi hlen hu hk0) ho
    omega
  | succ n ih =>
    intro σ u a hi hlen hu htile hpc hl ho hn
    have hk0 : holds_key u = false := by unfold holds_key; simp only [hpc]
    have ha := path_lt_capacity σ.store _ _ a
      (has_empty_of_not_holding hash σ i u hi hlen hu hk0) ho
    have hi0 := hi
    obtain ⟨hT, hcalls, _, _, _⟩ := hi
    obtain ⟨hne, hnv, hw, hpcinv⟩ := hcalls i u hu
    unfold pc_inv at hpcinv
    simp only [hpc] at hpcinv
    obtain ⟨_, habs, _⟩ := hpcinv
    unfold window_inv at hw
    simp only [htile] at hw
    obtain ⟨ht1, hb, _, _⟩ := hw
    have hC := hT.1
    have hcur : ∀ r, r < t → u.current_slot r < σ.store.capacity_ := by
      intro r hr
      rw [hl r hr]
      exact Nat.mod_lt _ hC
    have hno : ∀ r, r < t → (σ.store.slots_ (u.current_slot r)).1 ≠ u.insert_pair.1 :=
      fun r hr => habs _ (hcur r hr)
    obtain ⟨s1, Lf, hs1, hLf, hst, hcall⟩ := solo_loads key_equal i t (t - 1) 0 σ u
      (fun _ => none) (by omega) hu htile hpc (by intro r hr; omega) (fun _ _ => rfl)
    by_cases hex : ∃ r, r < t ∧
        (σ.store.slots_ (u.current_slot r)).1 = σ.store.empty_key_sentinel_
    · -- the first lane on an empty slot is elected and both exchanges succeed
      obtain ⟨r0, hr0, hp0, hf0⟩ := exists_first_lane t
        (fun r => decide ((σ.store.slots_ (u.current_slot r)).1 = σ.store.empty_key_sentinel_))
        (by
          obtain ⟨r, hr, hk⟩ := hex
          exact ⟨r, hr, by simp only [hk, decide_True]⟩)
      simp only [decide_eq_true_eq] at hp0
      have hf1 : ∀ j, j < r0 →
          (σ.store.slots_ (u.current_slot j)).1 ≠ σ.store.empty_key_sentinel_ := by
        intro j hj
        have := hf0 j hj
        simp only [decide_eq_false_iff_not] at this
        exact this
      rw [after_load_elect hke σ.store t u Lf r0 hLf hno hr0 hp0 hf1] at hcall
      have h2 : (σ.run key_equal s1).step key_equal i 0
          = { store := (σ.run key_equal s1).store.store_first (u.current_slot r0)
                u.insert_pair.1
              calls := (σ.run key_equal s1).calls.set i
                { u with pc := (insert_pc.value_exchange r0 true
                  (σ.run key_equal s1).store.empty_key_sentinel_) } } :=
        machine_step_mk key_equal (σ.run key_equal s1).store (σ.run key_equal s1).calls i 0
          _ hcall _ _
          (step_key_success key_equal _
            ({ u with pc := insert_pc.key_exchange r0 } : insert_call K V) 0 r0 rfl
            (by rw [hst]; exact hp0))
      have hv : (((σ.run key_equal s1).store.store_first (u.current_slot r0)
          u.insert_pair.1).slots_ (u.current_slot r0)).2
            = (σ.run key_equal s1).store.empty_value_sentinel_ := by
        rw [store_first_value, hst]
        exact hT.2.2 _ (hcur r0 hr0) hp0
      have h3 := machine_step_mk key_equal
        ((σ.run key_equal s1).store.store_first (u.current_slot r0) u.insert_pair.1) _ i 0 _
        (getElem?_set_self_of (σ.run key_equal s1).calls i _
          ({ u with pc := (insert_pc.value_exchange r0 true
            (σ.run key_equal s1).store.empty_key_sentinel_) } : insert_call K V) hcall) _ _
        (step_value_owner_success hke _ _ 0 r0 _ rfl (by rw [hst]; exact hne) hv)
      have hrun : (σ.run key_equal s1).run key_equal [(i, 0), (i, 0)]
          = ((σ.run key_equal s1).step key_equal i 0).step key_equal i 0 := rfl
      refine ⟨s1 ++ [(i, 0), (i, 0)], ?_, ?_⟩
      · intro x hx
        rcases List.mem_append.1 hx with h | h
        · exact hs1 x h
        · simp only [List.mem_cons, List.mem_singleton, List.not_mem_nil, or_false,
            or_self] at h
          rw [h]
      · rw [machine_run_append, hrun, h2, h3]
        exact ⟨_, _, getElem?_set_self_of _ i _ _
          (getElem?_set_self_of _ i _ _ hcall), rfl⟩
    · -- every lane stands on another key: the tile moves to the next window
      have hf1 : ∀ j, j < t →
          (σ.store.slots_ (u.current_slot j)).1 ≠ σ.store.empty_key_sentinel_ :=
        fun j hj hk => hex ⟨j, hj, hk⟩
      rw [after_load_advance hke σ.store t u Lf hLf hno hf1] at hcall
      have hcap : (σ.run key_equal s1).store.capacity_ = σ.store.capacity_ := by rw [hst]
      obtain ⟨s2, hs2, u2, r, hu2, hr⟩ := ih (σ.run key_equal s1) _ (a + t)
        (machine_inv_run hke hash s1 σ hi0)
        (by rw [machine_run_length, hcap]; exact hlen) hcall htile rfl
        (by
          rw [hst]
          exact lanes_at_next_cg σ.store t _ a _ hC hb hl)
        (by
          intro d hd
          rw [hst]
          by_cases hda : d < a
          · exact ho d hda
          · have h1 := hl (d - a) (by omega)
            rw [Nat.add_assoc, show a + (d - a) = d by omega] at h1
            rw [← h1]
            exact ⟨hno _ (by omega), hf1 _ (by omega)⟩)
        (by rw [hcap]; omega)
      refine ⟨s1 ++ s2, ?_, u2, r, ?_, hr⟩
      · intro x hx
        rcases List.mem_append.1 hx with h | h
        · exact hs1 x h
        · exact hs2 x h
      · rw [machine_run_append]
        exact hu2

/-! ### The calls one after the other -/

/-- The calls from number `k` on stand on entry, the calls before have returned: running the
calls from number `k` on one after the other, each alone, makes every call return. -/
theorem run_one_by_one {key_equal : K → K → Bool} (hke : ∀ a b, key_equal a b = true ↔ a = b)
    (hash : K → Nat) :
    ∀ (n k : Nat) (σ : machine K V), k + n = σ.calls.length → machine_inv hash σ →
      σ.calls.length ≤ σ.store.capacity_ →
      (∀ (j : Nat) (u : insert_call K V), j < k → σ.calls[j]? = some u →
        ∃ r, u.pc = insert_pc.returned r) →
      (∀ (j : Nat) (u : insert_call K V), k ≤ j → σ.calls[j]? = some u →
        (u.tile = none ∧ ∃ src, u.pc = insert_pc.key_exchange src) ∨
        (∃ t, u.tile = some t ∧ u.pc = insert_pc.load (fun _ => none))) →
      ∃ schedule : List (Nat × Nat),
        ∀ (j : Nat) (u : insert_call K V), (σ.run key_equal schedule).calls[j]? = some u →
          ∃ r, u.pc = insert_pc.returned r := by
  intro n
  induction n with
  | zero =>
    intro k σ hk _ _ hdone _
    refine ⟨[], fun j u hu => hdone j u ?_ hu⟩
    by_contra hcon
    rw [machine_run_nil, List.getElem?_eq_none (by omega)] at hu
    cases hu
  | succ n ih =>
    intro k σ hk hi hlen hdone hentry
    have hkl : k < σ.calls.length := by omega
    obtain ⟨u, hu⟩ : ∃ u, σ.calls[k]? = some u :=
      ⟨σ.calls[k], List.getElem?_eq_getElem hkl⟩
    obtain ⟨_, hcalls, _, _, _⟩ := id hi
    obtain ⟨_, _, hw, hpcinv⟩ := hcalls k u hu
    have hsolo : ∃ schedule : List (Nat × Nat), (∀ x ∈ schedule, x.1 = k) ∧
        ∃ (u1 : insert_call K V) (r : Nat × Bool),
          (σ.run key_equal schedule).calls[k]? = some u1 ∧ u1.pc = insert_pc.returned r := by
      rcases hentry k u (le_refl k) hu with ⟨htile, src, hpc⟩ | ⟨t, htile, hpc⟩
      · unfold pc_inv at hpcinv
        simp only [hpc] at hpcinv
        obtain ⟨_, D, hD, ho⟩ := hpcinv
        exact solo_single hke hash k (σ.store.capacity_ - D) σ u src D hi hlen hu htile hpc
          hD ho (le_refl _)
      · unfold window_inv at hw
        simp only [htile] at hw
        obtain ⟨_, _, _, a, hl, ho⟩ := hw
        exact solo_tile hke hash k t (σ.store.capacity_ - a) σ u a hi hlen hu htile hpc hl ho
          (le_refl _)
    obtain ⟨s1, hs1, u1, r, hu1, hr⟩ := hsolo
    have hcap := (machine_run_fields key_equal s1 σ).2.1
    obtain ⟨s2, hs2⟩ := ih (k + 1) (σ.run key_equal s1)
      (by rw [machine_run_length]; omega) (machine_inv_run hke hash s1 σ hi)
      (by rw [machine_run_length, hcap]; exact hlen)
      (by
        intro j w hj hw1
        by_cases hjk : j = k
        · rw [hjk, hu1] at hw1
          cases hw1
          exact ⟨r, hr⟩
        · rw [machine_run_other key_equal k j hjk s1 σ hs1] at hw1
          exact hdone j w (by omega) hw1)
      (by
        intro j w hj hw1
        rw [machine_run_other key_equal k j (by omega) s1 σ hs1] at hw1
        exact hentry j w (by omega) hw1)
    refine ⟨s1 ++ s2, fun j w hw1 => ?_⟩
    rw [machine_run_append] at hw1
    exact hs2 j w hw1

/-- With room for every key some interleaving makes every call return: the calls run one after
the other. -/
theorem exists_completing_schedule {key_equal : K → K → Bool}
    (hke : ∀ a b, key_equal a b = true ↔ a = b) (hash : K → Nat) (capacity : Nat) (ek : K)
    (ev : V) (requests : List (Option Nat × (K × V))) (hC : 1 ≤ capacity)
    (hnd : (requests.map (fun q => q.2.1)).Nodup)
    (hne : ∀ q ∈ requests, q.2.1 ≠ ek ∧ q.2.2 ≠ ev)
    (hfit : ∀ q ∈ requests, request_fits hash (static_map.construct capacity ek ev).dev q)
    (hlen : requests.length ≤ capacity) :
    ∃ schedule : List (Nat × Nat),
      (interleaving hash key_equal capacity ek ev requests schedule).completed = true := by
  have hstart := machine_inv_start hash capacity ek ev requests hC hnd hne
    (fun q hq t ht => hfit q hq t ht)
  obtain ⟨schedule, h⟩ := run_one_by_one hke hash requests.length 0
    (machine.start hash (static_map.construct capacity ek ev).dev requests)
    (by simp [machine.start]) hstart (by simpa [machine.start] using hlen)
    (fun j u hj _ => absurd hj (Nat.not_lt_zero j))
    (by
      intro j u _ hu
      unfold machine.start at hu
      simp only [List.getElem?_map, Option.map_eq_some'] at hu
      obtain ⟨q, _, rfl⟩ := hu
      cases hq : q.1 with
      | none => left; exact ⟨rfl, 0, rfl⟩
      | some t => right; exact ⟨t, rfl, rfl⟩)
  refine ⟨schedule, ?_⟩
  unfold machine.completed
  rw [List.all_eq_true]
  intro u hu
  obtain ⟨j, hj⟩ := List.getElem?_of_mem hu
  obtain ⟨r, hr⟩ := h j u hj
  unfold insert_call.result
  rw [hr]
  rfl

/-! # The claims -/

/-- C2: on every slot store reached by sequential inserts that has an empty slot and does not
hold the non-sentinel key `k`, with fuel for one sweep of the table: the single-lane insert of
`(k, v1)` returns `(s, true)`, the following single-lane insert of `(k, v2)` returns
`(s, false)` for the same slot `s` and writes nothing, slot `s` then holds `(k, v1)`, exactly
one of the two calls reports `inserted = true`, and one more slot is occupied. -/
theorem c2_insert_same_key_twice {key_equal : K → K → Bool}
    (hke : ∀ a b, key_equal a b = true ↔ a = b) (hash : K → Nat) (tmax : Nat) (m : view K V)
    (hr : reachable hash key_equal tmax m) (k : K) (v1 v2 : V)
    (hk : k ≠ m.empty_key_sentinel_) (hv1 : v1 ≠ m.empty_value_sentinel_)
    (hv2 : v2 ≠ m.empty_value_sentinel_) (habs : ¬ occurs m k) (hem : has_empty m)
    (fuel : Nat) (hf : m.capacity_ ≤ fuel) :
    ∃ s m1, s < m.capacity_ ∧
      insert hash key_equal fuel m (k, v1) = some ((s, true), m1) ∧
      insert hash key_equal fuel m1 (k, v2) = some ((s, false), m1) ∧
      m1.slots_ s = (k, v1) ∧
      insert_each (insert hash key_equal fuel) [(k, v1), (k, v2)] m
        = some ([(s, true), (s, false)], m1) ∧
      [(s, true), (s, false)].countP (fun r => r.2) = 1 ∧
      occupied m1 = occupied m + 1 := by
  obtain ⟨hC, he⟩ := reachable_empty_inv hke hash tmax m hr
  obtain ⟨D, hD⟩ := first_hit_of_has_empty hash m k hem
  have hkD := (first_hit_absent hash m k D hD habs).1
  have hs : (hash k + D) % m.capacity_ < m.capacity_ := Nat.mod_lt _ hC
  have h1 : insert hash key_equal fuel m (k, v1)
      = some (((hash k + D) % m.capacity_, true), fill m ((hash k + D) % m.capacity_) (k, v1)) := by
    have := insert_of_first_hit hke hash m (k, v1) D fuel he hk hD (lt_of_lt_of_le hD.1 hf)
    rw [insert_outcome_absent hash m (k, v1) D hD habs] at this
    exact this
  have h2 : insert hash key_equal fuel (fill m ((hash k + D) % m.capacity_) (k, v1)) (k, v2)
      = some (((hash k + D) % m.capacity_, false),
          fill m ((hash k + D) % m.capacity_) (k, v1)) :=
    insert_hit hke hash (fill m ((hash k + D) % m.capacity_) (k, v1)) D fuel hC
      (lt_of_lt_of_le hD.1 hf) (k, v2)
      (fun d hd => other_key_fill m _ (k, v1) k _ hkD (hD.2.1 d hd)) (by simp) hk
  refine ⟨(hash k + D) % m.capacity_, fill m ((hash k + D) % m.capacity_) (k, v1), hs, h1, h2,
    by simp, ?_, by simp, occupied_fill m _ (k, v1) hs hkD hk⟩
  simp only [insert_each, h1, h2]

/-- C2 on the scenario of the specification: capacity 16, both sentinels -1, key 1 inserted with
the values 10 and 99 into the all-sentinel store; and the scenario itself: the inserts of
(1, 10), (2, 20), (1, 99) report true, true, false (size 2), `find(1)` is the slot that holds
10, `find(2)` the slot that holds 20, `find(3)` is `end()`, `contains(1)` is true and
`contains(3)` is false. -/
theorem c2_witness :
    ((1 : Int) ≠ scenario_map.dev.empty_key_sentinel_ ∧
      (10 : Int) ≠ scenario_map.dev.empty_value_sentinel_ ∧
      (99 : Int) ≠ scenario_map.dev.empty_value_sentinel_ ∧
      ¬ occurs scenario_map.dev 1 ∧ has_empty scenario_map.dev ∧
      scenario_map.dev.capacity_ ≤ 16) ∧
    (∃ s m1, s < scenario_map.dev.capacity_ ∧
      insert scenario_hash int_equal 16 scenario_map.dev (1, 10) = some ((s, true), m1) ∧
      insert scenario_hash int_equal 16 m1 (1, 99) = some ((s, false), m1) ∧
      m1.slots_ s = (1, 10) ∧
      insert_each (insert scenario_hash int_equal 16) [(1, 10), (1, 99)] scenario_map.dev
        = some ([(s, true), (s, false)], m1) ∧
      [(s, true), (s, false)].countP (fun r => r.2) = 1 ∧
      occupied m1 = occupied scenario_map.dev + 1) ∧
    ((insert_each (insert scenario_hash int_equal 16) scenario_batch scenario_map.dev).map
        (fun x => x.1) = some [(1, true), (2, true), (1, false)] ∧
      (static_map.insert scenario_hash int_equal 16 scenario_map scenario_batch).map
        (fun sm => sm.size_) = some 2 ∧
      occupied scenario_store = 2 ∧
      find scenario_hash int_equal 16 scenario_store 1 = some 1 ∧
      (scenario_store.slots_ 1).2 = 10 ∧
      find scenario_hash int_equal 16 scenario_store 2 = some 2 ∧
      (scenario_store.slots_ 2).2 = 20 ∧
      find scenario_hash int_equal 16 scenario_store 3 = some scenario_store.end_ ∧
      contains scenario_hash int_equal 16 scenario_store 1 = some true ∧
      contains scenario_hash int_equal 16 scenario_store 3 = some false) :=
  ⟨by decide,
    c2_insert_same_key_twice int_equal_iff scenario_hash 8 scenario_map.dev
      (reachable.construct 16 (-1) (-1) (by decide)) 1 10 99 (by decide) (by decide) (by decide)
      (by decide) (by decide) 16 (by decide),
    by decide⟩

/-- C5: for every capacity of at least one and every hash value, each advance of the single-lane
probe sequence is `(index + 1) mod capacity`, position `n` is `(hash + n) mod capacity`, the
first `capacity` positions are pairwise distinct and are exactly the slot indices below
`capacity`, and position `capacity` is the starting slot again. -/
theorem c5_single_lane_probe_visits_every_slot_once (m : view K V) (hash : K → Nat) (k : K)
    (hC : 1 ≤ m.capacity_) :
    (∀ s, s < m.capacity_ → next_slot m s = (s + 1) % m.capacity_) ∧
    (∀ n, probe_sequence m hash k n = (hash k + n) % m.capacity_) ∧
    (∀ n, probe_sequence m hash k n < m.capacity_) ∧
    (∀ i j, i < m.capacity_ → j < m.capacity_ →
      probe_sequence m hash k i = probe_sequence m hash k j → i = j) ∧
    (∀ s, s < m.capacity_ → ∃ n, n < m.capacity_ ∧ probe_sequence m hash k n = s) ∧
    probe_sequence m hash k m.capacity_ = probe_sequence m hash k 0 := by
  have hseq : ∀ n, probe_sequence m hash k n = (hash k + n) % m.capacity_ :=
    fun n => probe_sequence_eq m hash k hC n
  refine ⟨fun s hs => next_slot_eq m s hs, hseq, ?_, ?_, ?_, ?_⟩
  · intro n
    rw [hseq]
    exact Nat.mod_lt _ hC
  · intro i j hi hj h
    rw [hseq, hseq] at h
    have h1 : hash k + i ≡ hash k + j [MOD m.capacity_] := h
    exact Nat.ModEq.eq_of_lt_of_lt (Nat.ModEq.add_left_cancel' _ h1) hi hj
  · intro s hs
    obtain ⟨d, hd, hp⟩ := probe_surj m.capacity_ (hash k) s hs
    exact ⟨d, hd, by rw [hseq, hp]⟩
  · rw [hseq, hseq, Nat.add_mod_right, Nat.add_zero]

/-- C5, on a table of capacity 4 with the hash value 6. -/
theorem c5_witness :
    1 ≤ small_map.dev.capacity_ ∧
    ((∀ s, s < small_map.dev.capacity_ →
        next_slot small_map.dev s = (s + 1) % small_map.dev.capacity_) ∧
    (∀ n, probe_sequence small_map.dev scenario_hash 6 n
        = (scenario_hash 6 + n) % small_map.dev.capacity_) ∧
    (∀ n, probe_sequence small_map.dev scenario_hash 6 n < small_map.dev.capacity_) ∧
    (∀ i j, i < small_map.dev.capacity_ → j < small_map.dev.capacity_ →
      probe_sequence small_map.dev scenario_hash 6 i
        = probe_sequence small_map.dev scenario_hash 6 j → i = j) ∧
    (∀ s, s < small_map.dev.capacity_ →
      ∃ n, n < small_map.dev.capacity_ ∧ probe_sequence small_map.dev scenario_hash 6 n = s) ∧
    probe_sequence small_map.dev scenario_hash 6 small_map.dev.capacity_
      = probe_sequence small_map.dev scenario_hash 6 0) :=
  ⟨by decide, c5_single_lane_probe_visits_every_slot_once small_map.dev scenario_hash 6
    (by decide)⟩

/-- C7: an insert call (single-lane, or tile-cooperative with any tile size) that returns
`inserted = false` leaves the slot store exactly as it was, on every slot store. -/
theorem c7_duplicate_insert_writes_nothing {key_equal : K → K → Bool}
    (hke : ∀ a b, key_equal a b = true ↔ a = b) (hash : K → Nat) (m : view K V) (p : K × V)
    (fuel t : Nat) (s : Nat) (m1 : view K V) :
    (insert hash key_equal fuel m p = some ((s, false), m1) → m1 = m) ∧
    (insert_cg hash key_equal t fuel m p = some ((s, false), m1) → m1 = m) := by
  constructor
  · intro h
    rcases insert_loop_some key_equal p m fuel _ _ m1 h with h1 | h1
    · exact h1.2.1
    · exact absurd h1.1 (by simp)
  · intro h
    rcases insert_cg_loop_some hke t p fuel m _ _ m1 h with h1 | h1
    · exact h1.2.1
    · exact absurd h1.1 (by simp)

/-- C7, on the store that holds (1, 10) in slot 1: the single-lane and the 8-lane insert of
(1, 99) return (slot 1, false) and the store they leave is the store before the call. -/
theorem c7_witness :
    (insert scenario_hash int_equal 16 one_key_store (1, 99)
        = some ((1, false), store_after one_key_store
            (insert scenario_hash int_equal 16 one_key_store (1, 99))) ∧
      insert_cg scenario_hash int_equal 8 16 one_key_store (1, 99)
        = some ((1, false), store_after one_key_store
            (insert_cg scenario_hash int_equal 8 16 one_key_store (1, 99)))) ∧
    (store_after one_key_store (insert scenario_hash int_equal 16 one_key_store (1, 99))
        = one_key_store ∧
      store_after one_key_store (insert_cg scenario_hash int_equal 8 16 one_key_store (1, 99))
        = one_key_store) :=
  ⟨⟨rfl, rfl⟩,
    (c7_duplicate_insert_writes_nothing int_equal_iff scenario_hash one_key_store (1, 99) 16 8 1
      _).1 rfl,
    (c7_duplicate_insert_writes_nothing int_equal_iff scenario_hash one_key_store (1, 99) 16 8 1
      _).2 rfl⟩

/-- C8: an insert call that returns (single-lane, or tile-cooperative with any tile size), on
every slot store: every slot occupied before the call holds the same key and value after it and
is still occupied; a call that returns `(s, true)` found `s` empty, left the inserted pair in
`s` and changed no other slot; a call that returns `(s, false)` changed no slot. -/
theorem c8_insert_fills_one_empty_slot {key_equal : K → K → Bool}
    (hke : ∀ a b, key_equal a b = true ↔ a = b) (hash : K → Nat) (m : view K V) (p : K × V)
    (fuel t : Nat) (r : Nat × Bool) (m1 : view K V)
    (h : insert hash key_equal fuel m p = some (r, m1) ∨
      insert_cg hash key_equal t fuel m p = some (r, m1)) :
    (∀ i, (m.slots_ i).1 ≠ m.empty_key_sentinel_ →
      m1.slots_ i = m.slots_ i ∧ (m1.slots_ i).1 ≠ m1.empty_key_sentinel_) ∧
    (r.2 = true → (m.slots_ r.1).1 = m.empty_key_sentinel_ ∧ m1.slots_ r.1 = p ∧
      ∀ j, j ≠ r.1 → m1.slots_ j = m.slots_ j) ∧
    (r.2 = false → m1 = m) := by
  have key : (r.2 = false ∧ m1 = m) ∨
      (r.2 = true ∧ (m.slots_ r.1).1 = m.empty_key_sentinel_ ∧ m1 = fill m r.1 p) := by
    rcases h with h | h
    · rcases insert_loop_some key_equal p m fuel _ r m1 h with h1 | h1
      · exact Or.inl ⟨h1.1, h1.2.1⟩
      · exact Or.inr ⟨h1.1, h1.2.1, h1.2.2.2⟩
    · rcases insert_cg_loop_some hke t p fuel m _ r m1 h with h1 | h1
      · exact Or.inl ⟨h1.1, h1.2.1⟩
      · exact Or.inr ⟨h1.1, h1.2.1, h1.2.2.2⟩
  rcases key with ⟨hf, rfl⟩ | ⟨ht, hk, rfl⟩
  · refine ⟨fun i hi => ⟨rfl, hi⟩, ?_, fun _ => rfl⟩
    intro h1
    rw [hf] at h1
    cases h1
  · refine ⟨?_, ?_, ?_⟩
    · intro i hi
      have his : i ≠ r.1 := by
        intro h1
        rw [h1] at hi
        exact hi hk
      constructor
      · simp [his]
      · simpa [his] using hi
    · intro _
      refine ⟨hk, by simp, ?_⟩
      intro j hj
      simp [hj]
    · intro h1
      rw [ht] at h1
      cases h1

/-- C8, on the all-sentinel store of capacity 16: the single-lane insert of (1, 10) returns
(slot 1, true). -/
theorem c8_witness :
    insert scenario_hash int_equal 16 scenario_map.dev (1, 10)
      = some ((1, true), store_after scenario_map.dev
          (insert scenario_hash int_equal 16 scenario_map.dev (1, 10))) ∧
    ((∀ i, (scenario_map.dev.slots_ i).1 ≠ scenario_map.dev.empty_key_sentinel_ →
      (store_after scenario_map.dev
          (insert scenario_hash int_equal 16 scenario_map.dev (1, 10))).slots_ i
        = scenario_map.dev.slots_ i ∧
      ((store_after scenario_map.dev
          (insert scenario_hash int_equal 16 scenario_map.dev (1, 10))).slots_ i).1
        ≠ (store_after scenario_map.dev
          (insert scenario_hash int_equal 16 scenario_map.dev (1, 10))).empty_key_sentinel_) ∧
    ((1, true).2 = true → (scenario_map.dev.slots_ (1, true).1).1
        = scenario_map.dev.empty_key_sentinel_ ∧
      (store_after scenario_map.dev
          (insert scenario_hash int_equal 16 scenario_map.dev (1, 10))).slots_ (1, true).1
        = (1, 10) ∧
      ∀ j, j ≠ (1, true).1 →
        (store_after scenario_map.dev
          (insert scenario_hash int_equal 16 scenario_map.dev (1, 10))).slots_ j
        = scenario_map.dev.slots_ j) ∧
    ((1, true).2 = false →
      store_after scenario_map.dev
          (insert scenario_hash int_equal 16 scenario_map.dev (1, 10)) = scenario_map.dev)) :=
  ⟨rfl, c8_insert_fills_one_empty_slot int_equal_iff scenario_hash scenario_map.dev (1, 10) 16 8
    (1, true) _ (Or.inl rfl)⟩

/-- C11, evaluated on the code: in a table of capacity 16 whose slots 0 .. 6 hold other keys and
whose slot 7 holds the key 32 (home slot 0), the first window of a tile of 4 lanes holds neither
the key nor an empty slot, and the tile-cooperative contains continues with every lane advanced
by the single-lane `next_slot`: lane 0 stands on slot 1 at iteration 1, while
`(h + r + j * t) mod C` and lane 0 of the tile-cooperative find give slot 4. The tile find returns
slot 7 within two iterations; the tile contains is still running after four iterations and
returns true in the fifth. -/
theorem c11_tile_contains_advances_one_slot :
    (List.range 8).map (fun i => (window_store.slots_ i).1) = [16, 1, 2, 3, 4, 5, 6, 32] ∧
    (∀ r, r < 4 → other_key window_store 32 (initial_slot_cg window_store scenario_hash r 32)) ∧
    (∀ fuel, contains_cg scenario_hash int_equal 4 (fuel + 1) window_store 32
      = contains_cg_loop int_equal 4 window_store 32 fuel
          (fun r => contains_lane_sequence window_store scenario_hash r 32 1)) ∧
    contains_lane_sequence window_store scenario_hash 0 32 1 = 1 ∧
    (scenario_hash 32 + 0 + 1 * 4) % window_store.capacity_ = 4 ∧
    lane_sequence window_store scenario_hash 4 0 32 1 = 4 ∧
    find_cg scenario_hash int_equal 4 2 window_store 32 = some 7 ∧
    contains_cg scenario_hash int_equal 4 2 window_store 32 = none ∧
    contains_cg scenario_hash int_equal 4 4 window_store 32 = none ∧
    contains_cg scenario_hash int_equal 4 5 window_store 32 = some true := by
  refine ⟨by decide, by decide, ?_, by decide, by decide, by decide, by decide, by decide,
    by decide, by decide⟩
  intro fuel
  unfold contains_cg
  rw [contains_cg_step_other int_equal_iff 4 window_store 32 fuel _ (by decide)]
  rfl

/-- C15: on a slot store reached by sequential inserts, when the single-lane insert of a pair
`(k, v)` with non-sentinel key returns `(s, b)`, the slot `s` lies in the table, the single-lane
find of `k` on the resulting store returns `s` (for every fuel that sufficed for the insert, and
for every fuel of at least the capacity), the key stored in `s` is `k`, the value stored in `s`
is `v` when `b` is true, and every non-sentinel key that a single-lane find reached before the
insert is found in the same slot after it. -/
theorem c15_insert_then_find_same_slot {key_equal : K → K → Bool}
    (hke : ∀ a b, key_equal a b = true ↔ a = b) (hash : K → Nat) (tmax : Nat) (m : view K V)
    (hr : reachable hash key_equal tmax m) (p : K × V) (hk : p.1 ≠ m.empty_key_sentinel_)
    (fuel s : Nat) (b : Bool) (m1 : view K V)
    (h : insert hash key_equal fuel m p = some ((s, b), m1)) :
    s < m.capacity_ ∧
    (∀ f2, fuel ≤ f2 ∨ m.capacity_ ≤ f2 → find hash key_equal f2 m1 p.1 = some s) ∧
    (m1.slots_ s).1 = p.1 ∧
    (b = true → (m1.slots_ s).2 = p.2) ∧
    ∀ (k : K) (f x : Nat), k ≠ m.empty_key_sentinel_ → find hash key_equal f m k = some x →
      x ≠ m.end_ → find hash key_equal f m1 k = some x := by
  obtain ⟨hC, he⟩ := reachable_empty_inv hke hash tmax m hr
  obtain ⟨D, hD, hDf, hx⟩ := insert_some hke hash m p fuel _ hC he hk h
  have hlt : (hash p.1 + D) % m.capacity_ < m.capacity_ := Nat.mod_lt _ hC
  have hfuel : ∀ f2, fuel ≤ f2 ∨ m.capacity_ ≤ f2 → D < f2 := by
    intro f2 hf2
    have := hD.1
    omega
  unfold insert_outcome at hx
  split at hx
  · next hkey =>
    simp only [Prod.mk.injEq] at hx
    obtain ⟨⟨hs, hb⟩, hm⟩ := hx
    subst hs hb
    rw [hm]
    refine ⟨hlt, ?_, hkey, by simp, ?_⟩
    · intro f2 hf2
      exact find_hit hke hash m D f2 hC (hfuel f2 hf2) p.1 hD.2.1 hkey
    · intro k f x _ hfx _
      exact hfx
  · next hkey =>
    simp only [Prod.mk.injEq] at hx
    obtain ⟨⟨hs, hb⟩, hm⟩ := hx
    subst hs hb
    rw [hm]
    have hem := first_hit_empty_of_ne hash m p.1 D hD hkey
    refine ⟨hlt, ?_, by simp, by simp, ?_⟩
    · intro f2 hf2
      exact find_hit hke hash (fill m _ p) D f2 hC (hfuel f2 hf2) p.1
        (fun d hd => other_key_fill m _ p p.1 _ hem (hD.2.1 d hd)) (by simp)
    · intro k f x hne hfx hxe
      exact find_fill_preserved hke hash m _ p hC hem k f x hne hfx hxe

/-- C15 on the first scenario: the pair (2, 20) goes into slot 2 of the store that holds the key
1 in slot 1. -/
theorem c15_witness :
    ((2 : Int), (20 : Int)).1 ≠ one_key_store.empty_key_sentinel_ ∧
    insert scenario_hash int_equal 16 one_key_store (2, 20)
      = some ((2, true), fill one_key_store 2 (2, 20)) ∧
    (2 < one_key_store.capacity_ ∧
    (∀ f2, 16 ≤ f2 ∨ one_key_store.capacity_ ≤ f2 →
      find scenario_hash int_equal f2 (fill one_key_store 2 (2, 20)) ((2 : Int), (20 : Int)).1
        = some 2) ∧
    ((fill one_key_store 2 (2, 20)).slots_ 2).1 = ((2 : Int), (20 : Int)).1 ∧
    (true = true → ((fill one_key_store 2 (2, 20)).slots_ 2).2 = ((2 : Int), (20 : Int)).2) ∧
    ∀ (k : Int) (f x : Nat), k ≠ one_key_store.empty_key_sentinel_ →
      find scenario_hash int_equal f one_key_store k = some x →
      x ≠ one_key_store.end_ →
      find scenario_hash int_equal f (fill one_key_store 2 (2, 20)) k = some x) :=
  ⟨by decide, rfl,
    c15_insert_then_find_same_slot int_equal_iff scenario_hash 0 one_key_store
      (reachable_one_key_store 0)
      (2, 20) (by decide) 16 2 true (fill one_key_store 2 (2, 20)) rfl⟩

/-- C17: when all slots of a table of capacity at least one are occupied by keys other than `k`,
the single-lane insert of `(k, v)`, the single-lane find and the single-lane contains of `k`
return for no number `n` of loop iterations, and after `n` iterations each loop is still running
on the unchanged slot store, standing on the slot `n` steps down the probe sequence of `k`. -/
theorem c17_full_table_single_lane_never_returns {key_equal : K → K → Bool}
    (hke : ∀ a b, key_equal a b = true ↔ a = b) (hash : K → Nat) (m : view K V) (k : K) (v : V)
    (hC : 1 ≤ m.capacity_) (hfull : ∀ i, i < m.capacity_ → other_key m k i) (n : Nat) :
    insert hash key_equal n m (k, v) = none ∧
    find hash key_equal n m k = none ∧
    contains hash key_equal n m k = none ∧
    ∀ fuel, n ≤ fuel →
      insert hash key_equal fuel m (k, v)
        = insert_loop key_equal (k, v) (fuel - n) m (probe_sequence m hash k n) ∧
      find hash key_equal fuel m k
        = find_loop key_equal m k (fuel - n) (probe_sequence m hash k n) ∧
      contains hash key_equal fuel m k
        = contains_loop key_equal m k (fuel - n) (probe_sequence m hash k n) := by
  have hC0 : 0 < m.capacity_ := hC
  have ho : ∀ d, other_key m k ((hash k + d) % m.capacity_) :=
    fun d => hfull _ (Nat.mod_lt _ hC0)
  refine ⟨insert_short hke hash m (k, v) n hC0 (fun d _ => ho d),
    find_short hke hash m k n hC0 (fun d _ => ho d),
    contains_short hke hash m k n hC0 (fun d _ => ho d), ?_⟩
  intro fuel hn
  unfold probe_sequence
  rw [probe_sequence_eq m hash k hC0 n]
  have hs : hash k % m.capacity_ < m.capacity_ := Nat.mod_lt _ hC0
  have ho' : ∀ d, d < n → other_key m k ((hash k % m.capacity_ + d) % m.capacity_) := by
    intro d _
    rw [Nat.mod_add_mod]
    exact ho d
  refine ⟨?_, ?_, ?_⟩
  · unfold insert initial_slot
    rw [insert_loop_skip hke (k, v) m n fuel _ hn hs ho', Nat.mod_add_mod]
  · unfold find initial_slot
    rw [find_loop_skip hke k m n fuel _ hn hs ho', Nat.mod_add_mod]
  · unfold contains initial_slot
    rw [contains_loop_skip hke k m n fuel _ hn hs ho', Nat.mod_add_mod]

/-- C17 on the table of capacity 4 filled with the keys 1, 5, 9, 2 and the fifth key 13, after
seven loop iterations. -/
theorem c17_witness :
    (1 ≤ full_store.capacity_ ∧ ∀ i, i < full_store.capacity_ → other_key full_store 13 i) ∧
    (insert scenario_hash int_equal 7 full_store (13, 50) = none ∧
    find scenario_hash int_equal 7 full_store 13 = none ∧
    contains scenario_hash int_equal 7 full_store 13 = none ∧
    ∀ fuel, 7 ≤ fuel →
      insert scenario_hash int_equal fuel full_store (13, 50)
        = insert_loop int_equal (13, 50) (fuel - 7) full_store
            (probe_sequence full_store scenario_hash 13 7) ∧
      find scenario_hash int_equal fuel full_store 13
        = find_loop int_equal full_store 13 (fuel - 7)
            (probe_sequence full_store scenario_hash 13 7) ∧
      contains scenario_hash int_equal fuel full_store 13
        = contains_loop int_equal full_store 13 (fuel - 7)
            (probe_sequence full_store scenario_hash 13 7)) :=
  ⟨⟨by decide, by decide⟩,
    c17_full_table_single_lane_never_returns int_equal_iff scenario_hash full_store 13 50
      (by decide) (by decide) 7⟩

/-- C19: in a slot store reached by sequential inserts of pairs with non-sentinel keys and
values, a slot of the table holds the key sentinel exactly when it holds the value sentinel.
Hence at every slot of the table the exchange on the value succeeds exactly when the exchange on
the key succeeds; the single-lane insert on an empty slot returns within one loop iteration,
which leaves no iteration to the value retry loop; and the lane elected by the empty ballot of
the tile-cooperative insert ends with status SUCCESS, not CONTINUE, whatever fuel the value
retry loop is given (zero included). -/
theorem c19_sentinels_agree_and_value_retry_is_idle {key_equal : K → K → Bool}
    (hke : ∀ a b, key_equal a b = true ↔ a = b)
    (hash : K → Nat) (tmax : Nat) (m : view K V) (hr : reachable hash key_equal tmax m) :
    (∀ i, i < m.capacity_ →
      ((m.slots_ i).1 = m.empty_key_sentinel_ ↔ (m.slots_ i).2 = m.empty_value_sentinel_)) ∧
    (∀ (p : K × V) (s : Nat), s < m.capacity_ →
      (compare_exchange_strong
        ((m.store_first s
          (compare_exchange_strong (m.slots_ s).1 m.empty_key_sentinel_ p.1).1).slots_ s).2
        m.empty_value_sentinel_ p.2).2.2
      = (compare_exchange_strong (m.slots_ s).1 m.empty_key_sentinel_ p.1).2.2) ∧
    (∀ (p : K × V) (s : Nat), s < m.capacity_ → (m.slots_ s).1 = m.empty_key_sentinel_ →
      insert_loop key_equal p 1 m s = some ((s, true), fill m s p)) ∧
    (∀ (p : K × V) (t : Nat) (current_slot : Nat → Nat), p.1 ≠ m.empty_key_sentinel_ →
      (∀ r, r < t → current_slot r < m.capacity_) →
      mask_set (ballot t
        (fun r => decide ((m.slots_ (current_slot r)).1 = m.empty_key_sentinel_))) = true →
      ∀ fuel, elected_exchange key_equal p fuel m
          (current_slot (ffs (ballot t
            (fun r => decide ((m.slots_ (current_slot r)).1 = m.empty_key_sentinel_))) - 1))
        = some (insert_result.SUCCESS, fill m
          (current_slot (ffs (ballot t
            (fun r => decide ((m.slots_ (current_slot r)).1 = m.empty_key_sentinel_))) - 1))
          p)) := by
  obtain ⟨hC, he⟩ := reachable_empty_inv hke hash tmax m hr
  have hv := reachable_value_inv hke hash tmax m hr
  refine ⟨fun i hi => ⟨he i hi, hv i hi⟩, ?_, ?_, ?_⟩
  · intro p s hs
    by_cases hk : (m.slots_ s).1 = m.empty_key_sentinel_
    · simp [compare_exchange_strong, hk, he s hs hk]
    · have hvs : (m.slots_ s).2 ≠ m.empty_value_sentinel_ := fun h => hk (hv s hs h)
      simp [compare_exchange_strong, hk, hvs]
  · intro p s hs hk
    exact insert_loop_empty key_equal p 0 m s hk (he s hs hk)
  · intro p t cur hne hcur hmask fuel
    obtain ⟨hlt, hq⟩ := mask_set_first t _ hmask
    have hk := of_decide_eq_true hq
    exact elected_exchange_empty hke p fuel m _ hk (he _ (hcur _ hlt) hk) hne

/-- C19 on the store of capacity 16 that holds the pair (1, 10) in slot 1. -/
theorem c19_witness :
    (∀ i, i < one_key_store.capacity_ →
      ((one_key_store.slots_ i).1 = one_key_store.empty_key_sentinel_ ↔
        (one_key_store.slots_ i).2 = one_key_store.empty_value_sentinel_)) ∧
    (∀ (p : Int × Int) (s : Nat), s < one_key_store.capacity_ →
      (compare_exchange_strong
        ((one_key_store.store_first s
          (compare_exchange_strong (one_key_store.slots_ s).1
            one_key_store.empty_key_sentinel_ p.1).1).slots_ s).2
        one_key_store.empty_value_sentinel_ p.2).2.2
      = (compare_exchange_strong (one_key_store.slots_ s).1
          one_key_store.empty_key_sentinel_ p.1).2.2) ∧
    (∀ (p : Int × Int) (s : Nat), s < one_key_store.capacity_ →
      (one_key_store.slots_ s).1 = one_key_store.empty_key_sentinel_ →
      insert_loop int_equal p 1 one_key_store s = some ((s, true), fill one_key_store s p)) ∧
    (∀ (p : Int × Int) (t : Nat) (current_slot : Nat → Nat),
      p.1 ≠ one_key_store.empty_key_sentinel_ →
      (∀ r, r < t → current_slot r < one_key_store.capacity_) →
      mask_set (ballot t (fun r => decide ((one_key_store.slots_ (current_slot r)).1
        = one_key_store.empty_key_sentinel_))) = true →
      ∀ fuel, elected_exchange int_equal p fuel one_key_store
          (current_slot (ffs (ballot t (fun r => decide
            ((one_key_store.slots_ (current_slot r)).1
              = one_key_store.empty_key_sentinel_))) - 1))
        = some (insert_result.SUCCESS, fill one_key_store
          (current_slot (ffs (ballot t (fun r => decide
            ((one_key_store.slots_ (current_slot r)).1
              = one_key_store.empty_key_sentinel_))) - 1))
          p)) :=
  c19_sentinels_agree_and_value_retry_is_idle int_equal_iff scenario_hash 8 one_key_store
    (reachable_one_key_store 8)

/-- C20: for a tile of `t >= 1` lanes, a capacity `C` with `1 <= C <= 2^32 - t` and a slot index
`i < C`, the 32-bit arithmetic of the tile `next_slot` neither truncates `i` nor wraps the sum
`i + t`, and the returned index is `(i + t) mod C`, which is less than `C`. -/
theorem c20_tile_next_slot_index_arithmetic_is_exact (m : view K V) (t i : Nat) (ht : 1 ≤ t)
    (hC : 1 ≤ m.capacity_) (hb : m.capacity_ ≤ UINT32_MOD - t) (hi : i < m.capacity_) :
    i % UINT32_MOD = i ∧ (i % UINT32_MOD + t) % UINT32_MOD = i + t ∧
      next_slot_cg m t i = (i + t) % m.capacity_ ∧ next_slot_cg m t i < m.capacity_ := by
  have hb' : m.capacity_ + t ≤ UINT32_MOD := by omega
  have h1 : i % UINT32_MOD = i := Nat.mod_eq_of_lt (by omega)
  have h2 : (i + t) % UINT32_MOD = i + t := Nat.mod_eq_of_lt (by omega)
  have h3 := next_slot_cg_eq m t i hi hb'
  refine ⟨h1, by rw [h1, h2], h3, ?_⟩
  rw [h3]
  exact Nat.mod_lt _ (by omega)

/-- C20 on the table of capacity 16 with a tile of 4 lanes at slot 14: the next slot is 2. -/
theorem c20_witness :
    (1 ≤ 4 ∧ 1 ≤ scenario_map.dev.capacity_ ∧ scenario_map.dev.capacity_ ≤ UINT32_MOD - 4 ∧
      14 < scenario_map.dev.capacity_) ∧
    (14 % UINT32_MOD = 14 ∧ (14 % UINT32_MOD + 4) % UINT32_MOD = 14 + 4 ∧
      next_slot_cg scenario_map.dev 4 14 = (14 + 4) % scenario_map.dev.capacity_ ∧
      next_slot_cg scenario_map.dev 4 14 < scenario_map.dev.capacity_) :=
  ⟨⟨by decide, by decide, by decide, by decide⟩,
    c20_tile_next_slot_index_arithmetic_is_exact scenario_map.dev 4 14 (by decide) (by decide)
      (by decide) (by decide)⟩

end cuco
